import Mathlib

/-!
# Lodestar: ranked prefix search over an immutable index

A shallow embedding of the Go package `lodestar` (files `types.go`, `options.go`,
`lodestar.go`, `tokenizer.go`, `index.go`, `search.go`, `internal/utils/helpers.go`)
together with the properties of its indexing and search operations.

Conventions of the embedding:

* a Go `string` is a Lean `String`; its bytes are the UTF-8 encoding, so byte-wise
  lexicographic order is the order of the code points;
* a Go `int` is a Lean `Int` in the range of a 64-bit signed integer; the one place
  where the source computes with ranks (`b.GetRank() - a.GetRank()`) wraps explicitly
  (`wrapInt`);
* a `nil` slice and an empty slice are both the empty list; a `nil` pointer or a `nil`
  error is `none`;
* a Go `map` is the list of its entries in order of first insertion (the iteration
  order of a Go map is unspecified; nothing below depends on it);
* loops that Go writes with `for` and an index are recursions on an explicit fuel that
  is always large enough for the loop to leave through its own exit;
* slices and `Index` structs are values; the section on the heap (`Mem`) embeds
  `IndexItems` once more with backing arrays and structs at addresses, and
  `IndexItems_refines` shows that the two embeddings return the same index.
-/

set_option autoImplicit false

namespace Lodestar

/-! ## Machine integers -/

/-- Largest value of Go's `int` on a 64-bit platform (`math.MaxInt`). -/
def maxInt : Int := 9223372036854775807

/-- Smallest value of Go's `int` on a 64-bit platform (`math.MinInt`). -/
def minInt : Int := -9223372036854775808

/-- Membership in the range of Go's `int`. -/
def inIntRange (x : Int) : Prop := minInt ≤ x ∧ x ≤ maxInt

instance (x : Int) : Decidable (inIntRange x) := by
  unfold inIntRange; infer_instance

/-- Two's complement wrap-around: the value Go's `int` arithmetic stores for the
mathematical result `x`. -/
def wrapInt (x : Int) : Int := (x + 9223372036854775808) % 18446744073709551616 - 9223372036854775808

/-! ## types.go -/

/-- The interface `IndexableItem`: `GetValuesForIndexing`, `GetRank` and `GetID`.
The identity returned by `GetID` is any hashable Go value; here it is a value of a type
`ι` with decidable equality. -/
class IndexableItem (T : Type) (ι : outParam Type) where
  /-- One or more strings associated with the item. -/
  GetValuesForIndexing : T → List String
  /-- The rank of the item. -/
  GetRank : T → Int
  /-- The value that identifies the item, used for deduplication. -/
  GetID : T → ι

export IndexableItem (GetValuesForIndexing GetRank GetID)

/-- The interface `Tokenizer`. -/
structure Tokenizer (T : Type) where
  /-- Tokens of the values of an item. -/
  Tokenize : T → List String
  /-- Normalization of a string, also applied to every query. -/
  NormalizeString : String → String

/-- The type `ResultFilterFn`: normalized query, matching token and item; a `nil` filter
is `none`. -/
abbrev ResultFilterFn (T : Type) := Option (String → String → T → Bool)

/-! ## tokenizer.go -/

/-- The predicate `unicode.IsSpace` of the Go standard library. -/
def isSpace (c : Char) : Bool :=
  let n := c.toNat
  n = 0x09 || n = 0x0A || n = 0x0B || n = 0x0C || n = 0x0D || n = 0x20 ||
  n = 0x85 || n = 0xA0 || n = 0x1680 || (0x2000 ≤ n && n ≤ 0x200A) ||
  n = 0x2028 || n = 0x2029 || n = 0x202F || n = 0x205F || n = 0x3000

/-- A case range of the Go package `unicode`: the runes `Lo` to `Hi` and the delta that
maps them to lower case (the `LowerCase` entry of the `Delta` array of the library). -/
structure unicode.CaseRange where
  Lo : Nat
  Hi : Nat
  Delta : Int

/-- The constant `unicode.MaxRune`. -/
def unicode.MaxRune : Int := 0x10FFFF

/-- The constant `unicode.UpperLower`: the delta of a range in which upper and lower case
alternate, the upper-case runes at the even offsets. -/
def unicode.UpperLower : Int := unicode.MaxRune + 1

section CaseTable
open unicode

/-- Case ranges: Basic Latin and Latin-1 Supplement, Latin Extended-A. -/
def unicode.caseRangesLatin1 : List unicode.CaseRange :=
  [⟨0x0041, 0x005A, 32⟩, ⟨0x00C0, 0x00D6, 32⟩, ⟨0x00D8, 0x00DE, 32⟩,
   ⟨0x0100, 0x012F, UpperLower⟩, ⟨0x0130, 0x0130, -199⟩, ⟨0x0132, 0x0137, UpperLower⟩,
   ⟨0x0139, 0x0148, UpperLower⟩, ⟨0x014A, 0x0177, UpperLower⟩, ⟨0x0178, 0x0178, -121⟩,
   ⟨0x0179, 0x017E, UpperLower⟩]

/-- Case ranges: Latin Extended-B, first part. -/
def unicode.caseRangesLatinB : List unicode.CaseRange :=
  [⟨0x0181, 0x0181, 210⟩, ⟨0x0182, 0x0185, UpperLower⟩, ⟨0x0186, 0x0186, 206⟩,
   ⟨0x0187, 0x0188, UpperLower⟩, ⟨0x0189, 0x018A, 205⟩, ⟨0x018B, 0x018C, UpperLower⟩,
   ⟨0x018E, 0x018E, 79⟩, ⟨0x018F, 0x018F, 202⟩, ⟨0x0190, 0x0190, 203⟩,
   ⟨0x0191, 0x0192, UpperLower⟩, ⟨0x0193, 0x0193, 205⟩, ⟨0x0194, 0x0194, 207⟩,
   ⟨0x0196, 0x0196, 211⟩, ⟨0x0197, 0x0197, 209⟩, ⟨0x0198, 0x0199, UpperLower⟩,
   ⟨0x019C, 0x019C, 211⟩, ⟨0x019D, 0x019D, 213⟩, ⟨0x019F, 0x019F, 214⟩,
   ⟨0x01A0, 0x01A5, UpperLower⟩, ⟨0x01A6, 0x01A6, 218⟩, ⟨0x01A7, 0x01A8, UpperLower⟩,
   ⟨0x01A9, 0x01A9, 218⟩, ⟨0x01AC, 0x01AD, UpperLower⟩, ⟨0x01AE, 0x01AE, 218⟩,
   ⟨0x01AF, 0x01B0, UpperLower⟩, ⟨0x01B1, 0x01B2, 217⟩, ⟨0x01B3, 0x01B6, UpperLower⟩,
   ⟨0x01B7, 0x01B7, 219⟩, ⟨0x01B8, 0x01B9, UpperLower⟩, ⟨0x01BC, 0x01BD, UpperLower⟩]

/-- Case ranges: Latin Extended-B, second part. -/
def unicode.caseRangesLatinB2 : List unicode.CaseRange :=
  [⟨0x01C4, 0x01C4, 2⟩, ⟨0x01C5, 0x01C5, 1⟩, ⟨0x01C7, 0x01C7, 2⟩, ⟨0x01C8, 0x01C8, 1⟩,
   ⟨0x01CA, 0x01CA, 2⟩, ⟨0x01CB, 0x01CB, 1⟩, ⟨0x01CD, 0x01DC, UpperLower⟩,
   ⟨0x01DE, 0x01EF, UpperLower⟩, ⟨0x01F1, 0x01F1, 2⟩, ⟨0x01F2, 0x01F2, 1⟩,
   ⟨0x01F4, 0x01F5, UpperLower⟩, ⟨0x01F6, 0x01F6, -97⟩, ⟨0x01F7, 0x01F7, -56⟩,
   ⟨0x01F8, 0x021F, UpperLower⟩]

/-- Case ranges: Latin Extended-B, last part, and IPA. -/
def unicode.caseRangesLatinB3 : List unicode.CaseRange :=
  [⟨0x0220, 0x0220, -130⟩, ⟨0x0222, 0x0233, UpperLower⟩, ⟨0x023A, 0x023A, 10795⟩,
   ⟨0x023B, 0x023C, UpperLower⟩, ⟨0x023D, 0x023D, -163⟩, ⟨0x023E, 0x023E, 10792⟩,
   ⟨0x0241, 0x0242, UpperLower⟩, ⟨0x0243, 0x0243, -195⟩, ⟨0x0244, 0x0244, 69⟩,
   ⟨0x0245, 0x0245, 71⟩, ⟨0x0246, 0x024F, UpperLower⟩]

/-- Case ranges: Greek and Coptic. -/
def unicode.caseRangesGreek : List unicode.CaseRange :=
  [⟨0x0370, 0x0373, UpperLower⟩, ⟨0x0376, 0x0377, UpperLower⟩, ⟨0x037F, 0x037F, 116⟩,
   ⟨0x0386, 0x0386, 38⟩, ⟨0x0388, 0x038A, 37⟩, ⟨0x038C, 0x038C, 64⟩, ⟨0x038E, 0x038F, 63⟩,
   ⟨0x0391, 0x03A1, 32⟩, ⟨0x03A3, 0x03AB, 32⟩, ⟨0x03CF, 0x03CF, 8⟩, ⟨0x03D8, 0x03EF, UpperLower⟩,
   ⟨0x03F4, 0x03F4, -60⟩, ⟨0x03F7, 0x03F8, UpperLower⟩, ⟨0x03F9, 0x03F9, -7⟩,
   ⟨0x03FA, 0x03FB, UpperLower⟩, ⟨0x03FD, 0x03FF, -130⟩]

/-- Case ranges: Cyrillic. -/
def unicode.caseRangesCyrillic : List unicode.CaseRange :=
  [⟨0x0400, 0x040F, 80⟩, ⟨0x0410, 0x042F, 32⟩, ⟨0x0460, 0x0481, UpperLower⟩,
   ⟨0x048A, 0x04BF, UpperLower⟩, ⟨0x04C0, 0x04C0, 15⟩, ⟨0x04C1, 0x04CE, UpperLower⟩,
   ⟨0x04D0, 0x052F, UpperLower⟩]

/-- Case ranges: Armenian, Georgian, Cherokee, Georgian Extended. -/
def unicode.caseRangesArmenian : List unicode.CaseRange :=
  [⟨0x0531, 0x0556, 48⟩, ⟨0x10A0, 0x10C5, 7264⟩, ⟨0x10C7, 0x10C7, 7264⟩, ⟨0x10CD, 0x10CD, 7264⟩,
   ⟨0x13A0, 0x13EF, 38864⟩, ⟨0x13F0, 0x13F5, 8⟩, ⟨0x1C90, 0x1CBA, -3008⟩, ⟨0x1CBD, 0x1CBF, -3008⟩]

/-- Case ranges: Latin Extended Additional. -/
def unicode.caseRangesLatinAdd : List unicode.CaseRange :=
  [⟨0x1E00, 0x1E95, UpperLower⟩, ⟨0x1E9E, 0x1E9E, -7615⟩, ⟨0x1EA0, 0x1EFF, UpperLower⟩]

/-- Case ranges: Greek Extended. -/
def unicode.caseRangesGreekExt : List unicode.CaseRange :=
  [⟨0x1F08, 0x1F0F, -8⟩, ⟨0x1F18, 0x1F1D, -8⟩, ⟨0x1F28, 0x1F2F, -8⟩, ⟨0x1F38, 0x1F3F, -8⟩,
   ⟨0x1F48, 0x1F4D, -8⟩, ⟨0x1F59, 0x1F59, -8⟩, ⟨0x1F5B, 0x1F5B, -8⟩, ⟨0x1F5D, 0x1F5D, -8⟩,
   ⟨0x1F5F, 0x1F5F, -8⟩, ⟨0x1F68, 0x1F6F, -8⟩, ⟨0x1F88, 0x1F8F, -8⟩, ⟨0x1F98, 0x1F9F, -8⟩,
   ⟨0x1FA8, 0x1FAF, -8⟩, ⟨0x1FB8, 0x1FB9, -8⟩, ⟨0x1FBA, 0x1FBB, -74⟩, ⟨0x1FBC, 0x1FBC, -9⟩,
   ⟨0x1FC8, 0x1FCB, -86⟩, ⟨0x1FCC, 0x1FCC, -9⟩, ⟨0x1FD8, 0x1FD9, -8⟩, ⟨0x1FDA, 0x1FDB, -100⟩,
   ⟨0x1FE8, 0x1FE9, -8⟩, ⟨0x1FEA, 0x1FEB, -112⟩, ⟨0x1FEC, 0x1FEC, -7⟩, ⟨0x1FF8, 0x1FF9, -128⟩,
   ⟨0x1FFA, 0x1FFB, -126⟩, ⟨0x1FFC, 0x1FFC, -9⟩]

/-- Case ranges: Letterlike symbols, number forms, enclosed letters, Glagolitic, Latin
Extended-C, Coptic. -/
def unicode.caseRangesSymbols : List unicode.CaseRange :=
  [⟨0x2126, 0x2126, -7517⟩, ⟨0x212A, 0x212A, -8383⟩, ⟨0x212B, 0x212B, -8262⟩,
   ⟨0x2132, 0x2132, 28⟩, ⟨0x2160, 0x216F, 16⟩, ⟨0x2183, 0x2184, UpperLower⟩,
   ⟨0x24B6, 0x24CF, 26⟩, ⟨0x2C00, 0x2C2F, 48⟩, ⟨0x2C60, 0x2C61, UpperLower⟩,
   ⟨0x2C62, 0x2C62, -10743⟩, ⟨0x2C63, 0x2C63, -3814⟩, ⟨0x2C64, 0x2C64, -10727⟩,
   ⟨0x2C67, 0x2C6C, UpperLower⟩, ⟨0x2C6D, 0x2C6D, -10780⟩, ⟨0x2C6E, 0x2C6E, -10749⟩,
   ⟨0x2C6F, 0x2C6F, -10783⟩, ⟨0x2C70, 0x2C70, -10782⟩, ⟨0x2C72, 0x2C73, UpperLower⟩,
   ⟨0x2C75, 0x2C76, UpperLower⟩, ⟨0x2C7E, 0x2C7F, -10815⟩, ⟨0x2C80, 0x2CE3, UpperLower⟩,
   ⟨0x2CEB, 0x2CEE, UpperLower⟩, ⟨0x2CF2, 0x2CF3, UpperLower⟩]

/-- Case ranges: Cyrillic Extended-B and Latin Extended-D. -/
def unicode.caseRangesExtD : List unicode.CaseRange :=
  [⟨0xA640, 0xA66D, UpperLower⟩, ⟨0xA680, 0xA69B, UpperLower⟩, ⟨0xA722, 0xA72F, UpperLower⟩,
   ⟨0xA732, 0xA76F, UpperLower⟩, ⟨0xA779, 0xA77C, UpperLower⟩, ⟨0xA77D, 0xA77D, -35332⟩,
   ⟨0xA77E, 0xA787, UpperLower⟩, ⟨0xA78B, 0xA78C, UpperLower⟩, ⟨0xA78D, 0xA78D, -42280⟩,
   ⟨0xA790, 0xA793, UpperLower⟩, ⟨0xA796, 0xA7A9, UpperLower⟩, ⟨0xA7AA, 0xA7AA, -42308⟩,
   ⟨0xA7AB, 0xA7AB, -42319⟩, ⟨0xA7AC, 0xA7AC, -42315⟩, ⟨0xA7AD, 0xA7AD, -42305⟩,
   ⟨0xA7AE, 0xA7AE, -42308⟩, ⟨0xA7B0, 0xA7B0, -42258⟩, ⟨0xA7B1, 0xA7B1, -42282⟩,
   ⟨0xA7B2, 0xA7B2, -42261⟩, ⟨0xA7B3, 0xA7B3, 928⟩, ⟨0xA7B4, 0xA7C3, UpperLower⟩,
   ⟨0xA7C4, 0xA7C4, -48⟩, ⟨0xA7C5, 0xA7C5, -42307⟩, ⟨0xA7C6, 0xA7C6, -35384⟩,
   ⟨0xA7C7, 0xA7CA, UpperLower⟩, ⟨0xA7D0, 0xA7D1, UpperLower⟩, ⟨0xA7D6, 0xA7D9, UpperLower⟩,
   ⟨0xA7F5, 0xA7F6, UpperLower⟩]

/-- Case ranges: Fullwidth forms and the supplementary planes. -/
def unicode.caseRangesWide : List unicode.CaseRange :=
  [⟨0xFF21, 0xFF3A, 32⟩, ⟨0x10400, 0x10427, 40⟩, ⟨0x104B0, 0x104D3, 40⟩, ⟨0x10570, 0x1057A, 39⟩,
   ⟨0x1057C, 0x1058A, 39⟩, ⟨0x1058C, 0x10592, 39⟩, ⟨0x10594, 0x10595, 39⟩,
   ⟨0x10C80, 0x10CB2, 64⟩, ⟨0x118A0, 0x118BF, 32⟩, ⟨0x16E40, 0x16E5F, 32⟩, ⟨0x1E900, 0x1E921, 34⟩]

/-- The table `unicode.CaseRanges` of the Go standard library (Unicode 15.0.0), reduced to
the ranges whose `LowerCase` delta is not zero: the runes of the other ranges, like the
runes of no range, are mapped to themselves. -/
def unicode.CaseRanges : List unicode.CaseRange :=
  unicode.caseRangesLatin1 ++
  unicode.caseRangesLatinB ++
  unicode.caseRangesLatinB2 ++
  unicode.caseRangesLatinB3 ++
  unicode.caseRangesGreek ++
  unicode.caseRangesCyrillic ++
  unicode.caseRangesArmenian ++
  unicode.caseRangesLatinAdd ++
  unicode.caseRangesGreekExt ++
  unicode.caseRangesSymbols ++
  unicode.caseRangesExtD ++
  unicode.caseRangesWide

end CaseTable

/-- The function `unicode.to` for the case `LowerCase`: the rune is mapped by the range
that holds it; in an alternating range the low bit of the offset is set. The library
finds the range by binary search in the sorted table, which gives the only range that
holds the rune; the search here is from the front. -/
def unicode.to (r : Nat) : List unicode.CaseRange → Nat
  | [] => r
  | cr :: rest =>
    if cr.Lo ≤ r ∧ r ≤ cr.Hi then
      if cr.Delta > unicode.MaxRune then cr.Lo + ((r - cr.Lo) / 2 * 2 + 1)
      else ((r : Int) + cr.Delta).toNat
    else unicode.to r rest

/-- The function `unicode.ToLower` of the Go standard library. -/
def unicode.ToLower (c : Char) : Char :=
  if c.toNat ≤ 127 then
    if 65 ≤ c.toNat ∧ c.toNat ≤ 90 then Char.ofNat (c.toNat + 32) else c
  else Char.ofNat (unicode.to c.toNat unicode.CaseRanges)

/-- The function `strings.ToLower` of the Go standard library: `unicode.ToLower` on every
rune of the string. A `String` holds valid UTF-8 only. -/
def toLower (s : String) : String := ⟨s.data.map unicode.ToLower⟩

/-- The function `strings.TrimSpace` of the Go standard library. -/
def trimSpace (s : String) : String :=
  ⟨((s.data.dropWhile isSpace).reverse.dropWhile isSpace).reverse⟩

/-- The function `strings.ReplaceAll` of the Go standard library for a one-character
pattern and a one-character replacement. -/
def replaceAllChar (s : String) (old new : Char) : String :=
  ⟨s.data.map (fun c => if c = old then new else c)⟩

/-- Byte length `len(s)` of a Go string. -/
def byteLen (s : String) : Nat := (s.data.map Char.utf8Size).sum

/-- Worker of `fields`: `cur` is the field being read, reversed. -/
def fieldsAux : List Char → List Char → List String
  | [], cur => if cur.isEmpty then [] else [⟨cur.reverse⟩]
  | c :: cs, cur =>
    if isSpace c then
      if cur.isEmpty then fieldsAux cs [] else ⟨cur.reverse⟩ :: fieldsAux cs []
    else fieldsAux cs (c :: cur)

/-- The function `strings.Fields` of the Go standard library: the maximal runs of
characters that are not white space. -/
def fields (s : String) : List String := fieldsAux s.data []

/-- The function `strings.Join` of the Go standard library. -/
def join (elems : List String) (sep : String) : String :=
  match elems with
  | [] => ""
  | e :: rest => rest.foldl (fun acc x => acc ++ sep ++ x) e

/-- Keys of a Go set `map[string]struct{}` after adding `token`. -/
def setAdd (set : List String) (token : String) : List String :=
  if token ∈ set then set else set ++ [token]

/-- The function `mergeUniqueTokens` for two token lists. -/
def mergeUniqueTokens (a b : List String) : List String :=
  (a ++ b).foldl setAdd []

/-- The function `splitOnWhitespace`. -/
def splitOnWhitespace (normalizedString : String) : List String :=
  (fields normalizedString).filter (fun token => token ≠ "")

/-- The function `computePrefixCombinations`: every suffix of the word list, joined by
single spaces. -/
def computePrefixCombinations : List String → List String
  | [] => []
  | t :: ts => join (t :: ts) " " :: computePrefixCombinations ts

/-- Membership in the bracket set `()[]{}`. -/
def isBracket (c : Char) : Bool :=
  c = '(' || c = ')' || c = '[' || c = ']' || c = '{' || c = '}'

/-- The replacer `bracketReplacer` of `computeTokenVariations`. -/
def removeBrackets (token : String) : String := ⟨token.data.filter (fun c => !isBracket c)⟩

/-- The loop body of `computeTokenVariations`. -/
def addVariation (variationSet : List String) (token : String) : List String :=
  let set1 := setAdd variationSet token
  if byteLen token < 4 then set1
  else if token.data.any isBracket then
    let noBrackets := removeBrackets token
    if noBrackets ≠ token then setAdd set1 noBrackets else set1
  else set1

/-- The function `computeTokenVariations`. -/
def computeTokenVariations (tokens : List String) : List String :=
  let variationSet := tokens.foldl addVariation []
  if variationSet.length = tokens.length then tokens else variationSet

/-- The method `DefaultTokenizer.NormalizeString`. -/
def NormalizeString (value : String) : String :=
  let normalized := trimSpace (toLower value)
  if byteLen normalized > 3 then replaceAllChar normalized '_' ' ' else normalized

/-- The method `DefaultTokenizer.tokenizeString`. -/
def tokenizeString (value : String) : List String :=
  let normalizedValue := NormalizeString value
  let terms := splitOnWhitespace normalizedValue
  let tokens := computePrefixCombinations terms
  if tokens.length = 0 then []
  else
    let tokens1 :=
      if value.data.contains '-' && byteLen value > 3 then
        let dashlessString := replaceAllChar normalizedValue '-' ' '
        let dashlessTokens := computePrefixCombinations (splitOnWhitespace dashlessString)
        mergeUniqueTokens tokens dashlessTokens
      else tokens
    computeTokenVariations tokens1

/-- The method `DefaultTokenizer.Tokenize`, on the item's values. -/
def tokenizeValues (values : List String) : List String :=
  values.foldl
    (fun allTokens value =>
      let tokens := tokenizeString value
      if tokens ≠ [] then mergeUniqueTokens allTokens tokens else allTokens)
    []

/-- The type `DefaultTokenizer` with its methods `Tokenize` and `NormalizeString`. -/
def DefaultTokenizer (T : Type) {ι : Type} [IndexableItem T ι] : Tokenizer T where
  Tokenize := fun item => tokenizeValues (GetValuesForIndexing item)
  NormalizeString := NormalizeString

/-! ## The immutable radix tree -/

/-- Order of two keys as byte strings: lexicographic order of the code points. -/
def keyLess : List Char → List Char → Bool
  | [], [] => false
  | [], _ :: _ => true
  | _ :: _, [] => false
  | a :: as, b :: bs =>
    if a.toNat < b.toNat then true
    else if b.toNat < a.toNat then false
    else keyLess as bs

/-- Modelled from the spec: the persistent trie `iradix.Tree` of the imported package
`github.com/hashicorp/go-immutable-radix/v2`, whose code is not part of the repository.
By its contract (point lookup, insert-or-replace staged in a transaction, iteration of a
key range in ascending lexicographic key order) a tree is the list of its entries,
ascending by key. -/
structure Tree (V : Type) where
  /-- The entries, ascending by key. -/
  entries : List (String × V)

namespace Tree

variable {V : Type}

/-- The constructor `iradix.New`: the empty tree. -/
def New : Tree V := ⟨[]⟩

/-- The method `Tree.Len`: the number of entries. -/
def Len (t : Tree V) : Nat := t.entries.length

/-- Insert-or-replace in an ascending entry list. -/
def insertEntry (k : String) (v : V) : List (String × V) → List (String × V)
  | [] => [(k, v)]
  | (k1, v1) :: rest =>
    if k = k1 then (k, v) :: rest
    else if keyLess k.data k1.data then (k, v) :: (k1, v1) :: rest
    else (k1, v1) :: insertEntry k v rest

/-- The method `Txn.Insert` (a transaction is the tree it has built so far; `Tree.Txn`
and `Txn.Commit` are the identity on this representation). -/
def Insert (t : Tree V) (k : String) (v : V) : Tree V := ⟨insertEntry k v t.entries⟩

/-- The method `Node.Get`: exact lookup, with the found flag. -/
def Get (t : Tree V) (k : String) : Option V :=
  (t.entries.find? (fun e => e.1 = k)).map Prod.snd

/-- The iterator after `SeekPrefix(p)`: the entries whose key starts with `p`, in
ascending key order. -/
def SeekPrefix (t : Tree V) (p : String) : List (String × V) :=
  t.entries.filter (fun e => p.data.isPrefixOf e.1.data)

end Tree

/-! ## lodestar.go, options.go -/

/-- The type `invertedIndex`, a Go map from token to items. -/
abbrev invertedIndex (T : Type) := List (String × List T)

/-- The struct `Index`. -/
structure Index (T : Type) where
  /-- The radix tree of posting lists. -/
  index : Tree (List T)
  /-- The tokenizer of the index. -/
  tokenizer : Tokenizer T

/-- The struct `Config`. -/
structure Config (T : Type) where
  /-- The configured tokenizer, `none` when not set. -/
  Tokenizer : Option (Tokenizer T)

/-- The type `Option` of options.go. -/
abbrev IndexOption (T : Type) := Config T → Config T

/-- The function `WithTokenizer`. -/
def WithTokenizer {T : Type} (tokenizer : Tokenizer T) : IndexOption T :=
  fun c => { c with Tokenizer := some tokenizer }

/-- The function `New`. -/
def New {T ι : Type} [IndexableItem T ι] (opts : List (IndexOption T)) : Index T :=
  let config := opts.foldl (fun c opt => opt c) (⟨none⟩ : Config T)
  let tokenizer := match config.Tokenizer with
    | none => DefaultTokenizer T
    | some tk => tk
  { index := Tree.New, tokenizer := tokenizer }

/-- The method `Index.Len`. -/
def Index.Len {T : Type} (idx : Index T) : Nat := idx.index.Len

/-! ## index.go -/

/-- The errors built by `fmt.Errorf` in index.go. -/
inductive IndexError (T : Type) where
  /-- The error "no tokens generated for item". -/
  | noTokens (item : T)
  /-- The error "failed to index item", wrapping its cause. -/
  | failedToIndex (item : T) (cause : IndexError T)

/-- The statements `if _, found := m[token]; !found ...; m[token] = append(m[token], item)`
of `addToInvertedIndex`. -/
def appendToken {T : Type} (token : String) (item : T) : invertedIndex T → invertedIndex T
  | [] => [(token, [item])]
  | (k, v) :: rest =>
    if k = token then (k, v ++ [item]) :: rest
    else (k, v) :: appendToken token item rest

/-- The method `addToInvertedIndex`. -/
def addToInvertedIndex {T : Type} (idx : Index T) (inv : invertedIndex T) (item : T) :
    Except (IndexError T) (invertedIndex T) :=
  let tokens := idx.tokenizer.Tokenize item
  if tokens.length = 0 then .error (.noTokens item)
  else .ok (tokens.foldl (fun m token => appendToken token item m) inv)

/-- The first loop of `IndexItems`: build the inverted index, stop at the first error. -/
def buildInvertedIndex {T : Type} (idx : Index T) :
    List T → invertedIndex T → Except (IndexError T) (invertedIndex T)
  | [], inv => .ok inv
  | item :: rest, inv =>
    match addToInvertedIndex idx inv item with
    | .error err => .error (.failedToIndex item err)
    | .ok inv1 => buildInvertedIndex idx rest inv1

/-- The comparison passed to `slices.SortFunc`: `b.GetRank() - a.GetRank()` in Go's
wrapping `int` arithmetic. -/
def rankCmp {T ι : Type} [IndexableItem T ι] (a b : T) : Int :=
  wrapInt (GetRank b - GetRank a)

/-- Inner loop of the insertion sort: `x` moves left while `cmp(x, left neighbour) < 0`.
The sorted part is held reversed, its last element first. -/
def insertLeft {α : Type} (cmp : α → α → Int) (x : α) : List α → List α
  | [] => [x]
  | y :: ys => if cmp x y < 0 then y :: insertLeft cmp x ys else x :: y :: ys

/-- The function `slices.SortFunc` of the Go standard library, as the insertion sort it
runs on slices of at most 12 elements (`insertionSortCmpFunc`). For a comparison that is
a strict weak ordering every longer slice is sorted to an ordered permutation as well. -/
def sortFunc {α : Type} (cmp : α → α → Int) (data : List α) : List α :=
  (data.foldl (fun sorted x => insertLeft cmp x sorted) []).reverse

/-- The body of the second loop of `IndexItems`: sort a posting list of more than one
item by descending rank and insert it under its token. -/
def commitToken {T ι : Type} [IndexableItem T ι] (tx : Tree (List T))
    (entry : String × List T) : Tree (List T) :=
  let tokenItems :=
    if entry.2.length > 1 then sortFunc rankCmp entry.2 else entry.2
  tx.Insert entry.1 tokenItems

/-- The method `Index.IndexItems`: the returned pointer and the returned error. -/
def Index.IndexItems {T ι : Type} [IndexableItem T ι] (idx : Index T) (items : List T) :
    Option (Index T) × Option (IndexError T) :=
  if items.length = 0 then (none, none)
  else
    match buildInvertedIndex idx items [] with
    | .error err => (none, some err)
    | .ok inv =>
      let tx := inv.foldl commitToken idx.index
      (some { tokenizer := idx.tokenizer, index := tx }, none)

/-! ## internal/utils/helpers.go -/

/-- The loop of `ReverseSliceInPlace`: swap positions `i` and `j` while `i < j`. The
first argument is the fuel; every round moves `i` and `j` one step towards each other. -/
def reverseLoop {α : Type} : Nat → List α → Nat → Nat → List α
  | 0, list, _, _ => list
  | fuel + 1, list, i, j =>
    if i < j then
      match list[i]?, list[j]? with
      | some a, some b => reverseLoop fuel ((list.set i b).set j a) (i + 1) (j - 1)
      | _, _ => list
    else list

/-- The function `ReverseSliceInPlace`. -/
def ReverseSliceInPlace {α : Type} (list : List α) : List α :=
  reverseLoop list.length list 0 (list.length - 1)

/-! ## search.go -/

/-- The struct `result`: a search result with its rank. -/
structure result (T : Type) where
  /-- The item. -/
  Value : T
  /-- The rank of the item when it was pushed. -/
  Rank : Int

/-- The type `resultHeap`. -/
abbrev resultHeap (T : Type) := List (result T)

namespace resultHeap

variable {T : Type}

/-- The method `resultHeap.Len`. -/
def Len (h : resultHeap T) : Nat := h.length

/-- The method `resultHeap.Less`: `h[i].Rank < h[j].Rank`. -/
def Less (h : resultHeap T) (i j : Nat) : Bool :=
  match h[i]?, h[j]? with
  | some a, some b => decide (a.Rank < b.Rank)
  | _, _ => false

/-- The method `resultHeap.Swap`. -/
def Swap (h : resultHeap T) (i j : Nat) : resultHeap T :=
  match h[i]?, h[j]? with
  | some a, some b => (h.set i b).set j a
  | _, _ => h

/-- The method `resultHeap.Push`: append. -/
def Push (h : resultHeap T) (x : result T) : resultHeap T := h ++ [x]

/-- The method `resultHeap.Pop`: remove and return the last element. -/
def Pop (h : resultHeap T) : Option (result T) × resultHeap T := (h.getLast?, h.dropLast)

end resultHeap

/-! ### Package container/heap of the Go standard library -/

namespace heap

variable {T : Type}

/-- The function `heap.up`: sift the element at `j` towards the root. The first argument
is the fuel; every round decreases `j`, so a fuel above `j` is never used up. -/
def up : Nat → resultHeap T → Nat → resultHeap T
  | 0, h, _ => h
  | fuel + 1, h, j =>
    let i := (j - 1) / 2
    if i = j || !(h.Less j i) then h
    else up fuel (h.Swap i j) i

/-- The child that `heap.down` compares with its parent: the left child `j1`, or the
right child `j2 = j1 + 1` when it is inside the first `n` elements and less than `j1`. -/
def smallerChild (h : resultHeap T) (j1 n : Nat) : Nat :=
  if j1 + 1 < n && h.Less (j1 + 1) j1 then j1 + 1 else j1

/-- The function `heap.down`: sift the element at `i` towards the leaves of the first
`n` elements. The first argument is the fuel; every round increases `i`, so with a fuel
of at least `n - i` the fuel is used up only where the loop exits (`j1 >= n`). -/
def down : Nat → resultHeap T → Nat → Nat → resultHeap T
  | 0, h, _, _ => h
  | fuel + 1, h, i, n =>
    let j1 := 2 * i + 1
    if j1 ≥ n then h
    else
      let j := smallerChild h j1 n
      if !(h.Less j i) then h
      else down fuel (h.Swap i j) j n

/-- The loop of `heap.Init`: `down(h, i, n)` for `i` from `n/2 - 1` down to `0`; the first
argument is `i + 1`. -/
def initLoop : Nat → resultHeap T → Nat → resultHeap T
  | 0, h, _ => h
  | i + 1, h, n => initLoop i (down n h i n) n

/-- The function `heap.Init`. -/
def Init (h : resultHeap T) : resultHeap T := initLoop (h.Len / 2) h h.Len

/-- The function `heap.Push`. -/
def Push (h : resultHeap T) (x : result T) : resultHeap T :=
  let h1 := h.Push x
  up h1.Len h1 (h1.Len - 1)

/-- The function `heap.Pop`: the minimum and the remaining heap. -/
def Pop (h : resultHeap T) : Option (result T) × resultHeap T :=
  let n := h.Len - 1
  let h1 := h.Swap 0 n
  let h2 := down n h1 0 n
  h2.Pop

end heap

/-- State of the aggregation loop of `PrefixSearch`: the set `seen` and the heap. -/
structure SearchState (T ι : Type) where
  /-- Identities already met. -/
  seen : List ι
  /-- Min-heap of the best results so far. -/
  minHeap : resultHeap T

/-- The inner loop of `PrefixSearch` over the posting list of one token; leaving the
recursion early is the `break`. `minHeap[0]` is read only when the heap holds at least
`limit` entries, and `PrefixSearch` calls the loop with `limit >= 1`, so the heap is not
empty there; the branch `none` stands for the index-out-of-range panic and is not
reached. -/
def scanItems {T ι : Type} [IndexableItem T ι] [DecidableEq ι] (pfx tokenStr : String)
    (filterFn : ResultFilterFn T) (limit : Int) :
    List T → SearchState T ι → SearchState T ι
  | [], st => st
  | item :: rest, st =>
    if GetID item ∈ st.seen then scanItems pfx tokenStr filterFn limit rest st
    else
      let seen1 := GetID item :: st.seen
      let rejected := match filterFn with
        | none => false
        | some f => !(f pfx tokenStr item)
      if rejected then scanItems pfx tokenStr filterFn limit rest ⟨seen1, st.minHeap⟩
      else if (st.minHeap.length : Int) < limit then
        scanItems pfx tokenStr filterFn limit rest
          ⟨seen1, heap.Push st.minHeap ⟨item, GetRank item⟩⟩
      else
        match st.minHeap.head? with
        | none => ⟨seen1, st.minHeap⟩
        | some lowest =>
          if GetRank item > lowest.Rank then
            scanItems pfx tokenStr filterFn limit rest
              ⟨seen1, heap.Push (heap.Pop st.minHeap).2 ⟨item, GetRank item⟩⟩
          else ⟨seen1, st.minHeap⟩

/-- The outer loop of `PrefixSearch` over the tokens that the iterator yields. -/
def scanTokens {T ι : Type} [IndexableItem T ι] [DecidableEq ι] (pfx : String)
    (filterFn : ResultFilterFn T) (limit : Int) :
    List (String × List T) → SearchState T ι → SearchState T ι
  | [], st => st
  | (token, items) :: rest, st =>
    if items.length = 0 then scanTokens pfx filterFn limit rest st
    else scanTokens pfx filterFn limit rest (scanItems pfx token filterFn limit items st)

/-- The loop that empties the heap: results in ascending order of rank. The first
argument is the fuel; every round removes one entry, so a fuel of the length of the heap
runs out only when the heap is empty. -/
def drainHeap {T : Type} : Nat → resultHeap T → List T → List T
  | 0, _, results => results
  | fuel + 1, h, results =>
    if h.Len > 0 then
      match heap.Pop h with
      | (some r, h1) => drainHeap fuel h1 (results ++ [r.Value])
      | (none, _) => results
    else results

/-- The method `Index.PrefixSearch`: the returned items (the timing record is left out). -/
def Index.PrefixSearch {T ι : Type} [IndexableItem T ι] [DecidableEq ι] (idx : Index T)
    (pfx0 : String) (limit0 : Int) (filterFn : ResultFilterFn T) : List T :=
  let pfx := idx.tokenizer.NormalizeString pfx0
  if pfx = "" then []
  else
    let limit := if limit0 ≤ 0 then maxInt else limit0
    let st := scanTokens pfx filterFn limit (idx.index.SeekPrefix pfx)
      (⟨[], heap.Init []⟩ : SearchState T ι)
    let results := drainHeap st.minHeap.Len st.minHeap []
    ReverseSliceInPlace results

/-- The method `Index.Get`: the posting list and the found flag. -/
def Index.Get {T : Type} (idx : Index T) (value0 : String) : List T × Bool :=
  let value := idx.tokenizer.NormalizeString value0
  if value = "" then ([], false)
  else
    match idx.index.Get value with
    | some items => (items, true)
    | none => ([], false)

/-! ## The item type of the tests and of the example program -/

/-- The struct `ExampleItem` behind a pointer: `ptr` is the address, which `GetID`
returns. -/
structure ExampleItem where
  /-- Address of the struct. -/
  ptr : Nat
  /-- Field `Text`. -/
  Text : String
  /-- Field `Rank`. -/
  Rank : Int
  /-- Field `Aliases`. -/
  Aliases : List String
deriving DecidableEq, Repr

instance : IndexableItem ExampleItem Nat where
  GetValuesForIndexing := fun e => [e.Text] ++ e.Aliases
  GetRank := fun e => e.Rank
  GetID := fun e => e.ptr

/-- The function `setupIndexWithItems` of the tests: index a batch into a new index
(`none` stands for the nil pointer the call returns in place of an index). -/
def setupIndexWithItems (items : List ExampleItem) : Option (Index ExampleItem) :=
  ((New []).IndexItems items).1

/-- The items `testItems` of lodestar_test.go, at the addresses 1 to 5. -/
def testItems : List ExampleItem :=
  [⟨1, "apple", 10, ["fruit", "red"]⟩,
   ⟨2, "banana", 12, ["yellow", "fruit"]⟩,
   ⟨3, "application", 15, ["app", "software"]⟩,
   ⟨4, "apply", 8, ["use", "request"]⟩,
   ⟨5, "approach", 5, ["method", "way"]⟩]

/-- An index given by its entries, with the default tokenizer. -/
def exampleIndex (entries : List (String × List ExampleItem)) : Index ExampleItem :=
  { index := ⟨entries⟩, tokenizer := DefaultTokenizer ExampleItem }

/-- The index that `setupIndexWithItems` returns for a batch; the new empty index stands
in for the nil pointer. -/
def indexOf (items : List ExampleItem) : Index ExampleItem :=
  (setupIndexWithItems items).getD (New [])

/-! ## search.go, with the record of the calls of the filter -/

/-- A call `filterFn(normalizedQuery, token, item)` of the filter of a search. -/
structure FilterCall (T : Type) where
  /-- The normalized query. -/
  query : String
  /-- The matching token. -/
  token : String
  /-- The item. -/
  item : T

/-- The inner loop of `PrefixSearch` as in `scanItems`, together with the record of the
calls of the filter in the order in which the loop makes them: the condition
`filterFn != nil && !filterFn(prefix, tokenStr, item)` calls the filter exactly when a
filter is given and the item has not been skipped as seen. -/
def scanItemsCalls {T ι : Type} [IndexableItem T ι] [DecidableEq ι] (pfx tokenStr : String)
    (filterFn : ResultFilterFn T) (limit : Int) :
    List T → SearchState T ι → List (FilterCall T) → SearchState T ι × List (FilterCall T)
  | [], st, calls => (st, calls)
  | item :: rest, st, calls =>
    if GetID item ∈ st.seen then scanItemsCalls pfx tokenStr filterFn limit rest st calls
    else
      let seen1 := GetID item :: st.seen
      let calls1 := match filterFn with
        | none => calls
        | some _ => calls ++ [⟨pfx, tokenStr, item⟩]
      let rejected := match filterFn with
        | none => false
        | some f => !(f pfx tokenStr item)
      if rejected then
        scanItemsCalls pfx tokenStr filterFn limit rest ⟨seen1, st.minHeap⟩ calls1
      else if (st.minHeap.length : Int) < limit then
        scanItemsCalls pfx tokenStr filterFn limit rest
          ⟨seen1, heap.Push st.minHeap ⟨item, GetRank item⟩⟩ calls1
      else
        match st.minHeap.head? with
        | none => (⟨seen1, st.minHeap⟩, calls1)
        | some lowest =>
          if GetRank item > lowest.Rank then
            scanItemsCalls pfx tokenStr filterFn limit rest
              ⟨seen1, heap.Push (heap.Pop st.minHeap).2 ⟨item, GetRank item⟩⟩ calls1
          else (⟨seen1, st.minHeap⟩, calls1)

/-- The outer loop of `PrefixSearch` as in `scanTokens`, with the record of the calls of
the filter. -/
def scanTokensCalls {T ι : Type} [IndexableItem T ι] [DecidableEq ι] (pfx : String)
    (filterFn : ResultFilterFn T) (limit : Int) :
    List (String × List T) → SearchState T ι → List (FilterCall T) →
      SearchState T ι × List (FilterCall T)
  | [], st, calls => (st, calls)
  | (token, items) :: rest, st, calls =>
    if items.length = 0 then scanTokensCalls pfx filterFn limit rest st calls
    else
      let r := scanItemsCalls pfx token filterFn limit items st calls
      scanTokensCalls pfx filterFn limit rest r.1 r.2

/-- The calls of the filter that `PrefixSearch` makes, in order: none when the normalized
prefix is empty (the method returns before the loop). -/
def filterCalls {T ι : Type} [IndexableItem T ι] [DecidableEq ι] (idx : Index T)
    (pfx0 : String) (limit0 : Int) (filterFn : ResultFilterFn T) : List (FilterCall T) :=
  let pfx := idx.tokenizer.NormalizeString pfx0
  if pfx = "" then []
  else
    let limit := if limit0 ≤ 0 then maxInt else limit0
    (scanTokensCalls pfx filterFn limit (idx.index.SeekPrefix pfx)
      (⟨[], heap.Init []⟩ : SearchState T ι) []).2

/-- A batch in which the first item occurs twice, around a second item of lower rank. -/
def repeatedBatch : List ExampleItem :=
  [⟨1, "test", 10, ["example"]⟩, ⟨2, "text", 5, ["example"]⟩, ⟨1, "test", 10, ["example"]⟩]

/-- A filter that rejects every item under the token `app` and accepts it under any other
token. -/
def rejectUnderApp : String → String → ExampleItem → Bool :=
  fun _ token _ => token != "app"

/-! ## The heap of the Go program

The slices that `IndexItems` builds and sorts are mutable backing arrays, and an `Index`
is used through a pointer. This section embeds `IndexItems` once more, with the backing
arrays and the `Index` structs in an explicit heap, for the frame property of the
method. The radix tree is the persistent value of the imported package. -/

namespace Mem

/-- A slice value `[]T` of Go: the address of the backing array, the length and the
capacity. -/
structure Slice where
  /-- Address of the backing array. -/
  ptr : Nat
  /-- The length `len(s)`. -/
  len : Nat
  /-- The capacity `cap(s)`. -/
  cap : Nat

/-- The struct `Index` in the heap: the posting lists of its tree are slice values. -/
structure Index (T : Type) where
  /-- The radix tree of posting lists. -/
  index : Tree Slice
  /-- The tokenizer. -/
  tokenizer : Tokenizer T

/-- The heap: the backing arrays and the `Index` structs, by address. A backing array is
given by the elements assigned so far. -/
structure Heap (T : Type) where
  /-- The backing arrays of the item slices. -/
  arrays : List (List T)
  /-- The `Index` structs. -/
  structs : List (Mem.Index T)

variable {T : Type}

/-- The backing array at an address. -/
def Heap.array (h : Heap T) (p : Nat) : List T := (h.arrays[p]?).getD []

/-- The expression `make([]T, 0)`: a new backing array without elements. -/
def makeSlice (h : Heap T) : Heap T × Slice :=
  ({ h with arrays := h.arrays ++ [[]] }, ⟨h.arrays.length, 0, 0⟩)

/-- The elements `s[0], ..., s[len(s)-1]` of a slice. -/
def readSlice (h : Heap T) (s : Slice) : List T := (h.array s.ptr).take s.len

/-- The built-in `append(s, x)`: within the capacity the element is written into the
backing array of `s`; otherwise the elements are copied into a new backing array, whose
capacity the runtime chooses (`grow`, at least the new length). -/
def append (grow : Nat → Nat) (h : Heap T) (s : Slice) (x : T) : Heap T × Slice :=
  if s.len < s.cap then
    let arr := (h.array s.ptr).take s.len ++ [x] ++ (h.array s.ptr).drop (s.len + 1)
    ({ h with arrays := h.arrays.set s.ptr arr }, ⟨s.ptr, s.len + 1, s.cap⟩)
  else
    ({ h with arrays := h.arrays ++ [readSlice h s ++ [x]] },
      ⟨h.arrays.length, s.len + 1, max (s.len + 1) (grow s.cap)⟩)

/-- The function `slices.SortFunc` on a slice in the heap: the elements of the slice are
sorted in place. -/
def sortFunc (cmp : T → T → Int) (h : Heap T) (s : Slice) : Heap T :=
  let arr := Lodestar.sortFunc cmp (readSlice h s) ++ (h.array s.ptr).drop s.len
  { h with arrays := h.arrays.set s.ptr arr }

/-- The type `invertedIndex` in the heap: a Go map from token to slice value. -/
abbrev invertedIndex := List (String × Slice)

/-- The statements `if _, found := m[token]; !found ...; m[token] = append(m[token], item)`
of `addToInvertedIndex`. -/
def appendToken (grow : Nat → Nat) (token : String) (item : T) :
    Heap T → invertedIndex → Heap T × invertedIndex
  | h, [] =>
    let r := makeSlice h
    let a := append grow r.1 r.2 item
    (a.1, [(token, a.2)])
  | h, (k, s) :: rest =>
    if k = token then
      let a := append grow h s item
      (a.1, (k, a.2) :: rest)
    else
      let r := appendToken grow token item h rest
      (r.1, (k, s) :: r.2)

/-- The method `addToInvertedIndex`. -/
def addToInvertedIndex (grow : Nat → Nat) (idx : Mem.Index T) (h : Heap T)
    (inv : invertedIndex) (item : T) : Heap T × Except (IndexError T) invertedIndex :=
  let tokens := idx.tokenizer.Tokenize item
  if tokens.length = 0 then (h, .error (.noTokens item))
  else
    let r := tokens.foldl
      (fun (st : Heap T × invertedIndex) token => appendToken grow token item st.1 st.2)
      (h, inv)
    (r.1, .ok r.2)

/-- The first loop of `IndexItems`. -/
def buildInvertedIndex (grow : Nat → Nat) (idx : Mem.Index T) :
    List T → Heap T → invertedIndex → Heap T × Except (IndexError T) invertedIndex
  | [], h, inv => (h, .ok inv)
  | item :: rest, h, inv =>
    match addToInvertedIndex grow idx h inv item with
    | (h1, .error err) => (h1, .error (.failedToIndex item err))
    | (h1, .ok inv1) => buildInvertedIndex grow idx rest h1 inv1

/-- The body of the second loop of `IndexItems`. -/
def commitToken {ι : Type} [IndexableItem T ι] (st : Heap T × Tree Slice)
    (entry : String × Slice) : Heap T × Tree Slice :=
  let h1 := if entry.2.len > 1 then sortFunc rankCmp st.1 entry.2 else st.1
  (h1, st.2.Insert entry.1 entry.2)

/-- The method `Index.IndexItems`, called through the pointer `recv`: the heap after the
call, the returned pointer and the returned error. A receiver that points to no struct
makes the call panic where `idx.tokenizer` is read (`none`). -/
def IndexItems {ι : Type} [IndexableItem T ι] (grow : Nat → Nat) (h : Heap T) (recv : Nat)
    (items : List T) : Option (Heap T × Option Nat × Option (IndexError T)) :=
  if items.length = 0 then some (h, none, none)
  else
    match h.structs[recv]? with
    | none => none
    | some idx =>
      match buildInvertedIndex grow idx items h [] with
      | (h1, .error err) => some (h1, none, some err)
      | (h1, .ok inv) =>
        let r := inv.foldl commitToken (h1, idx.index)
        some ({ r.1 with structs := r.1.structs ++
            [{ tokenizer := idx.tokenizer, index := r.2 }] },
          some r.1.structs.length, none)

/-- The index that a struct of the heap stands for: every slice of the tree read from
its backing array. -/
def readIndex (h : Heap T) (idx : Mem.Index T) : Lodestar.Index T :=
  { index := ⟨idx.index.entries.map (fun e => (e.1, readSlice h e.2))⟩,
    tokenizer := idx.tokenizer }

/-- The index behind a pointer. -/
def Heap.indexAt (h : Heap T) (a : Nat) : Option (Lodestar.Index T) :=
  (h.structs[a]?).map (readIndex h)

/-- The method `Index.Len` called through a pointer. -/
def LenAt (h : Heap T) (a : Nat) : Option Nat := (h.indexAt a).map Lodestar.Index.Len

/-- The method `Index.Get` called through a pointer. -/
def GetAt (h : Heap T) (a : Nat) (value : String) : Option (List T × Bool) :=
  (h.indexAt a).map (fun idx => idx.Get value)

/-- The method `Index.PrefixSearch` called through a pointer. -/
def PrefixSearchAt {ι : Type} [IndexableItem T ι] [DecidableEq ι] (h : Heap T) (a : Nat)
    (pfx0 : String) (limit : Int) (filterFn : ResultFilterFn T) : Option (List T) :=
  (h.indexAt a).map (fun idx => idx.PrefixSearch pfx0 limit filterFn)

end Mem

/-- A heap for the examples: the struct of a new index at address 0 and, at address 1,
the struct of the index that `IndexItems` built from it for one item with the value
`test` and the alias `example`, as the call leaves them behind, with the backing arrays
of that call. -/
def exampleHeap : Mem.Heap ExampleItem :=
  { arrays := [[], [⟨1, "test", 10, ["example"]⟩], [], [⟨1, "test", 10, ["example"]⟩]],
    structs := [⟨Tree.New, DefaultTokenizer ExampleItem⟩,
      ⟨⟨[("example", ⟨3, 1, 2⟩), ("test", ⟨1, 1, 2⟩)]⟩, DefaultTokenizer ExampleItem⟩] }

/-- A growth policy for the examples: a new backing array has room for twice the old
capacity and two more elements. -/
def exampleGrow (c : Nat) : Nat := 2 * c + 2

/-! ## Vocabulary of the properties -/

/-- Rank stored at position `k` of a heap, `0` outside the heap. -/
def rankAt {T : Type} (h : resultHeap T) (k : Nat) : Int :=
  match h[k]? with
  | some r => r.Rank
  | none => 0

/-- The heap condition of container/heap on the first `n` elements: no element is less
than its parent. -/
def isHeapOn {T : Type} (n : Nat) (h : resultHeap T) : Prop :=
  ∀ c, 0 < c → c < n → rankAt h ((c - 1) / 2) ≤ rankAt h c

/-- The heap condition on the whole slice. -/
def isHeap {T : Type} (h : resultHeap T) : Prop := isHeapOn h.length h

/-- Loop invariant of `heap.up` at position `j`: the heap condition holds except between
`j` and its parent, and the parent of `j` is not above the children of `j`. -/
def upInv {T : Type} (h : resultHeap T) (j : Nat) : Prop :=
  (∀ c, 0 < c → c < h.length → c ≠ j → rankAt h ((c - 1) / 2) ≤ rankAt h c) ∧
  (∀ c, 0 < c → c < h.length → (c - 1) / 2 = j → 0 < j →
    rankAt h ((j - 1) / 2) ≤ rankAt h c)

/-- Loop invariant of `heap.down` at position `i` on the first `n` elements: the heap
condition holds except between `i` and its children, and the parent of `i` is not above
the children of `i`. -/
def downInv {T : Type} (h : resultHeap T) (i n : Nat) : Prop :=
  (∀ c, 0 < c → c < n → (c - 1) / 2 ≠ i → rankAt h ((c - 1) / 2) ≤ rankAt h c) ∧
  (∀ c, 0 < c → c < n → (c - 1) / 2 = i → 0 < i → rankAt h ((i - 1) / 2) ≤ rankAt h c)

/-- Invariant of the aggregation loop of `PrefixSearch`: `minHeap` is a heap, every entry
stores the rank of its item, the identities in the heap are pairwise different and all
of them are in `seen`. -/
def heapOK {T ι : Type} [IndexableItem T ι] (st : SearchState T ι) : Prop :=
  isHeap st.minHeap ∧ (∀ r ∈ st.minHeap, r.Rank = GetRank r.Value) ∧
  (st.minHeap.map (fun r => GetID r.Value)).Nodup ∧
  (∀ r ∈ st.minHeap, GetID r.Value ∈ st.seen)

/-- The state in which the aggregation loop of `PrefixSearch` ends. -/
def finalState {T ι : Type} [IndexableItem T ι] [DecidableEq ι] (idx : Index T) (pfx0 : String)
    (limit0 : Int) (filterFn : ResultFilterFn T) : SearchState T ι :=
  scanTokens (idx.tokenizer.NormalizeString pfx0) filterFn
    (if limit0 ≤ 0 then maxInt else limit0)
    (idx.index.SeekPrefix (idx.tokenizer.NormalizeString pfx0)) ⟨[], []⟩

/-- The matches of a prefix: the items of the posting lists of all tokens that start
with the normalized prefix, in iteration order, with repetitions. -/
def matchingItems {T : Type} (idx : Index T) (pfx0 : String) : List T :=
  (idx.index.SeekPrefix (idx.tokenizer.NormalizeString pfx0)).flatMap (fun e => e.2)

/-- The number of distinct identities among the matches of a prefix. -/
def totalMatches {T ι : Type} [IndexableItem T ι] [DecidableEq ι] (idx : Index T)
    (pfx0 : String) : Nat :=
  ((matchingItems idx pfx0).map GetID).dedup.length

/-- Invariant of the aggregation loop without filter, for the identities `S` offered so
far: the heap holds offered identities only, never more than `limit`, and as long as it
is not full it holds every identity offered or seen. -/
def sizeInv {T ι : Type} [IndexableItem T ι] (limit : Int) (S : List ι)
    (st : SearchState T ι) : Prop :=
  (∀ r ∈ st.minHeap, GetID r.Value ∈ S) ∧ ((st.minHeap.length : Int) ≤ limit) ∧
  ((st.minHeap.length : Int) < limit →
    (∀ i ∈ S, i ∈ st.minHeap.map (fun r => GetID r.Value)) ∧
    (∀ i ∈ st.seen, i ∈ st.minHeap.map (fun r => GetID r.Value)))

/-- Lookup in an inverted index: the Go expression `m[token]` with its found flag. -/
def invGet {T : Type} (inv : invertedIndex T) (token : String) : Option (List T) :=
  (inv.find? (fun e => e.1 = token)).map Prod.snd

/-- The entries that a batch appends under a token: each item once for every occurrence
of the token in its token list, in batch order. -/
def batchPostings {T : Type} (tk : Tokenizer T) (items : List T) (token : String) : List T :=
  items.flatMap (fun item => ((tk.Tokenize item).filter (fun t => t = token)).map (fun _ => item))

/-- The posting list that `IndexItems` commits for the accumulated list `l`: sorted with
`rankCmp` when it has more than one item. -/
def committed {T ι : Type} [IndexableItem T ι] (l : List T) : List T :=
  if l.length > 1 then sortFunc rankCmp l else l

/-- A map entry after appending the items `l` to it: untouched when `l` is empty,
otherwise the old list (empty when the key was absent) followed by `l`. -/
def extendPosting {T : Type} (old : Option (List T)) (l : List T) : Option (List T) :=
  match l with
  | [] => old
  | x :: rest => some (old.getD [] ++ x :: rest)

/-- A list of items in non-increasing order of rank. -/
def rankSorted {T ι : Type} [IndexableItem T ι] (l : List T) : Prop :=
  l.Pairwise (fun a b => GetRank a ≥ GetRank b)

/-- Every posting list of the index is in non-increasing order of rank. -/
def postingsSorted {T ι : Type} [IndexableItem T ι] (idx : Index T) : Prop :=
  ∀ e ∈ idx.index.entries, rankSorted e.2

/-- The difference of the ranks of any two items of the batch is representable in Go's
`int`, so that `b.GetRank() - a.GetRank()` does not wrap. -/
def rankDiffFits {T ι : Type} [IndexableItem T ι] (items : List T) : Prop :=
  ∀ a ∈ items, ∀ b ∈ items, inIntRange (GetRank b - GetRank a)

/-- Invariant of the aggregation loop without filter, for the items `S` offered so far
(scanned, or left behind by a `break`): every seen identity belongs to an offered item,
the heap holds offered items, and an offered item whose identity is not in the heap has
a rank that is at most every rank in the heap. -/
def topInv {T ι : Type} [IndexableItem T ι] (S : List T) (st : SearchState T ι) : Prop :=
  (∀ i ∈ st.seen, ∃ x ∈ S, GetID x = i) ∧
  (∀ r ∈ st.minHeap, r.Value ∈ S) ∧
  (∀ x ∈ S, GetID x ∉ st.minHeap.map (fun r => GetID r.Value) →
    ∀ r ∈ st.minHeap, GetRank x ≤ r.Rank)

/-- Well-formedness of a radix tree: the entries are in strictly ascending key order, so
that every key occurs once. Every tree built from `Tree.New` by `Tree.Insert` is
well-formed. -/
def Tree.WF {V : Type} (t : Tree V) : Prop :=
  t.entries.Pairwise (fun a b => keyLess a.1.data b.1.data = true)

/-- The keys of the tree of an index. -/
def Index.keys {T : Type} (idx : Index T) : List String := idx.index.entries.map Prod.fst

/-- The tokens that the tokenizer of an index produces for the items of a batch. -/
def batchTokens {T : Type} (idx : Index T) (items : List T) : List String :=
  items.flatMap idx.tokenizer.Tokenize

/-- Reference definition, in the words of the tokenizer's contract: every non-empty
suffix of a word list, joined by single spaces. -/
def suffixJoins (words : List String) : List String :=
  (words.tails.filter (fun ws => !ws.isEmpty)).map (fun ws => join ws " ")

/-- Reference definition, part (1): the suffixes of the whitespace-split words of the
normalized value. -/
def refTokensBase (v : String) : List String :=
  suffixJoins (fields (NormalizeString v))

/-- Reference definition, part (2): when the value contains `-` and has more than 3
bytes, the same suffixes after replacing `-` by a space in the normalized value. -/
def refTokensDashless (v : String) : List String :=
  if v.data.contains '-' && byteLen v > 3 then
    suffixJoins (fields (replaceAllChar (NormalizeString v) '-' ' '))
  else []

/-- Reference definition, part (3): every token of (1) or (2) that is at least 4 bytes
long and contains a bracket, with all brackets removed. -/
def refTokensBracketless (v : String) : List String :=
  ((refTokensBase v ++ refTokensDashless v).filter
    (fun t => decide (byteLen t ≥ 4) && t.data.any isBracket)).map removeBrackets

/-- Reference definition of the token set of an item with the given values: the union of
the three parts over the values. -/
def refTokens (values : List String) : List String :=
  values.flatMap (fun v => refTokensBase v ++ refTokensDashless v ++ refTokensBracketless v)

/-- A character list without leading and without trailing white space: neither its first
nor its last character is a space in the sense of `unicode.IsSpace`. -/
def noOuterSpace (l : List Char) : Prop :=
  l.head?.all (fun c => !isSpace c) = true ∧ l.getLast?.all (fun c => !isSpace c) = true

instance (l : List Char) : Decidable (noOuterSpace l) := by
  unfold noOuterSpace; infer_instance

/-- A lowercased string: `strings.ToLower` leaves it as it is. -/
def isLowercased (s : String) : Prop := toLower s = s

instance (s : String) : Decidable (isLowercased s) := by
  unfold isLowercased; infer_instance

/-- Invariant of the aggregation loop with its record of filter calls: the identities
seen are those of the calls, latest first, and every call whose item has the identity of
a heap entry was accepted by the filter. -/
def callsInv {T ι : Type} [IndexableItem T ι] (f : String → String → T → Bool)
    (st : SearchState T ι) (calls : List (FilterCall T)) : Prop :=
  st.seen = (calls.map (fun c => GetID c.item)).reverse ∧
  (∀ r ∈ st.minHeap, ∀ c ∈ calls, GetID c.item = GetID r.Value →
    f c.query c.token c.item = true)

/-- The rune that the range `cr` maps the rune `r` to, as in `unicode.to`. -/
def unicode.mapRune (cr : unicode.CaseRange) (r : Nat) : Nat :=
  if cr.Delta > unicode.MaxRune then cr.Lo + ((r - cr.Lo) / 2 * 2 + 1)
  else ((r : Int) + cr.Delta).toNat

/-- The runes of a range above ASCII are mapped above ASCII or to the letters `a` to `z`. -/
def unicode.targetOK (cr : unicode.CaseRange) : Bool :=
  decide (cr.Hi ≤ 127) ||
    (if cr.Delta > unicode.MaxRune then decide (127 < cr.Lo)
     else decide (127 < (cr.Lo : Int) + cr.Delta) ||
       (decide (97 ≤ (cr.Lo : Int) + cr.Delta) && decide ((cr.Hi : Int) + cr.Delta ≤ 122)))

/-- The range `other` holds no rune from `tlo` to `thi`. -/
def unicode.avoids (tlo thi : Nat) (other : unicode.CaseRange) : Bool :=
  decide (thi < other.Lo) || decide (other.Hi < tlo)

/-- The runes that the range `cr` maps to lie in no range of the table, or, for an
alternating range, at the odd offsets of the range itself. -/
def unicode.rangeOK (cr : unicode.CaseRange) : Bool :=
  if cr.Delta > unicode.MaxRune then
    decide ((cr.Hi - cr.Lo) % 2 = 1) &&
      unicode.CaseRanges.all (fun other =>
        (decide (other.Lo = cr.Lo) && decide (other.Delta > unicode.MaxRune)) ||
          unicode.avoids cr.Lo cr.Hi other)
  else
    decide (0 ≤ (cr.Lo : Int) + cr.Delta) &&
      unicode.CaseRanges.all
        (unicode.avoids ((cr.Lo : Int) + cr.Delta).toNat ((cr.Hi : Int) + cr.Delta).toNat)

/-- The heap `h` extends the heap `h0`: the backing arrays and the structs of `h0` are in
`h`, at their addresses and with their contents. -/
def Mem.Heap.extends {T : Type} (h0 h : Mem.Heap T) : Prop :=
  h0.arrays.length ≤ h.arrays.length ∧
  (∀ a, a < h0.arrays.length → h.arrays[a]? = h0.arrays[a]?) ∧
  h.structs = h0.structs

/-- The inverted index that a map of slice values stands for: every slice read as its
backing array. -/
def Mem.absInv {T : Type} (h : Mem.Heap T) (inv : Mem.invertedIndex) :
    Lodestar.invertedIndex T :=
  inv.map (fun e => (e.1, h.array e.2.ptr))

/-- Invariant of the map built by `addToInvertedIndex`: the slices have backing arrays of
their own, allocated in the heap, and each slice is all of its backing array. -/
def Mem.invOK {T : Type} (h : Mem.Heap T) (inv : Mem.invertedIndex) : Prop :=
  (inv.map (fun e => e.2.ptr)).Nodup ∧
  ∀ e ∈ inv, e.2.ptr < h.arrays.length ∧ e.2.len = (h.array e.2.ptr).length

/-- The tree that a tree of slice values stands for. -/
def Mem.readTree {T : Type} (h : Mem.Heap T) (t : Tree Mem.Slice) : Tree (List T) :=
  ⟨t.entries.map (fun e => (e.1, Mem.readSlice h e.2))⟩

/-! ## The binary heap of container/heap -/

section Heap

variable {T : Type}

theorem set_perm_cons {α : Type} (l : List α) (j : Nat) (a b : α) (hj : l[j]? = some b) :
    (b :: l.set j a).Perm (a :: l) := by
  induction l generalizing j with
  | nil => simp at hj
  | cons c t ih =>
    cases j with
    | zero =>
      simp at hj
      subst hj
      simpa using List.Perm.swap a c t
    | succ k =>
      simp at hj
      have h1 := ih k hj
      simp only [List.set_cons_succ]
      exact ((List.Perm.swap c b _).trans (h1.cons c)).trans (List.Perm.swap a c t)

theorem swap_set_perm {α : Type} (l : List α) (i j : Nat) (a b : α)
    (hi : l[i]? = some a) (hj : l[j]? = some b) : ((l.set i b).set j a).Perm l := by
  induction l generalizing i j with
  | nil => simp at hi
  | cons c t ih =>
    cases i with
    | zero =>
      cases j with
      | zero => simp at hi hj; subst hi; simp
      | succ k =>
        simp at hi hj
        subst hi
        simpa using set_perm_cons t k c b hj
    | succ i1 =>
      cases j with
      | zero =>
        simp at hi hj
        subst hj
        simpa using (set_perm_cons t i1 c a hi)
      | succ k =>
        simp at hi hj
        simpa using ih i1 k hi hj

theorem Swap_length (h : resultHeap T) (i j : Nat) : (h.Swap i j).length = h.length := by
  unfold resultHeap.Swap
  split <;> simp

theorem Swap_perm (h : resultHeap T) (i j : Nat) : (h.Swap i j).Perm h := by
  unfold resultHeap.Swap
  split
  · next a b hi hj => exact swap_set_perm h i j a b hi hj
  · exact List.Perm.refl _

theorem Swap_getElem? (h : resultHeap T) (i j k : Nat) (hi : i < h.length) (hj : j < h.length) :
    (h.Swap i j)[k]? = if k = j then h[i]? else if k = i then h[j]? else h[k]? := by
  unfold resultHeap.Swap
  rw [List.getElem?_eq_getElem hi, List.getElem?_eq_getElem hj]
  simp only [List.getElem?_set, List.length_set]
  by_cases hkj : k = j
  · subst hkj; simp [hj]
  · by_cases hki : k = i
    · subst hki; simp [hi, hkj, Ne.symm hkj]
    · simp [hkj, hki, Ne.symm hkj, Ne.symm hki]

theorem rankAt_Swap (h : resultHeap T) (i j k : Nat) (hi : i < h.length) (hj : j < h.length) :
    rankAt (h.Swap i j) k = if k = j then rankAt h i else if k = i then rankAt h j else rankAt h k := by
  unfold rankAt
  rw [Swap_getElem? h i j k hi hj]
  split_ifs <;> rfl

theorem Less_eq (h : resultHeap T) (i j : Nat) (hi : i < h.length) (hj : j < h.length) :
    h.Less i j = decide (rankAt h i < rankAt h j) := by
  unfold resultHeap.Less rankAt
  rw [List.getElem?_eq_getElem hi, List.getElem?_eq_getElem hj]

theorem up_length (fuel : Nat) (h : resultHeap T) (j : Nat) :
    (heap.up fuel h j).length = h.length := by
  induction fuel generalizing h j with
  | zero => rfl
  | succ f ih =>
    simp only [heap.up]
    split
    · rfl
    · rw [ih, Swap_length]

theorem up_perm (fuel : Nat) (h : resultHeap T) (j : Nat) : (heap.up fuel h j).Perm h := by
  induction fuel generalizing h j with
  | zero => exact List.Perm.refl _
  | succ f ih =>
    simp only [heap.up]
    split
    · exact List.Perm.refl _
    · exact (ih _ _).trans (Swap_perm _ _ _)

theorem up_isHeap (fuel : Nat) (h : resultHeap T) (j : Nat) (hj : j < h.length)
    (hf : j < fuel) (hinv : upInv h j) : isHeap (heap.up fuel h j) := by
  induction fuel generalizing h j with
  | zero => omega
  | succ f ih =>
    obtain ⟨h1, h2⟩ := hinv
    simp only [heap.up]
    have hi : (j - 1) / 2 < h.length := by omega
    by_cases h0 : (j - 1) / 2 = j
    · simp only [h0, true_or, if_true, decide_True, Bool.true_or]
      intro c hc0 hcl
      exact h1 c hc0 hcl (by omega)
    · by_cases hless : h.Less j ((j - 1) / 2) = true
      · have hlt : rankAt h j < rankAt h ((j - 1) / 2) := by
          rw [Less_eq h _ _ hj hi] at hless
          simpa using hless
        simp only [h0, hless, decide_False, Bool.not_true, Bool.or_self, Bool.false_eq_true,
          if_false]
        have hj0 : 0 < j := by omega
        apply ih
        · rw [Swap_length]; exact hi
        · omega
        · constructor
          · intro c hc0 hcl hci
            rw [Swap_length] at hcl
            rw [rankAt_Swap h _ _ _ hi hj, rankAt_Swap h _ _ _ hi hj]
            by_cases hcj : c = j
            · subst hcj
              simp [h0]
              omega
            · simp only [hcj, hci, if_false]
              by_cases hpj : (c - 1) / 2 = j
              · simp only [hpj, if_true]
                exact h2 c hc0 hcl hpj hj0
              · simp only [hpj, if_false]
                by_cases hpi : (c - 1) / 2 = (j - 1) / 2
                · simp only [hpi, if_true]
                  have := h1 c hc0 hcl hcj
                  rw [hpi] at this
                  omega
                · simp only [hpi, if_false]
                  exact h1 c hc0 hcl hcj
          · intro c hc0 hcl hpc hi0
            rw [Swap_length] at hcl
            rw [rankAt_Swap h _ _ _ hi hj, rankAt_Swap h _ _ _ hi hj]
            have e1 : ¬ ((j - 1) / 2 - 1) / 2 = j := by omega
            have e2 : ¬ ((j - 1) / 2 - 1) / 2 = (j - 1) / 2 := by omega
            have e3 : ¬ c = (j - 1) / 2 := by omega
            simp only [e1, e2, e3, if_false]
            have hpi := h1 ((j - 1) / 2) hi0 hi h0
            by_cases hcj : c = j
            · simp only [hcj, if_true]
              exact hpi
            · simp only [hcj, if_false]
              have := h1 c hc0 hcl hcj
              rw [hpc] at this
              omega
      · simp only [h0, hless, decide_False, Bool.false_or, Bool.not_false, if_true]
        have hge : rankAt h ((j - 1) / 2) ≤ rankAt h j := by
          rw [Less_eq h _ _ hj hi] at hless
          simpa using hless
        intro c hc0 hcl
        by_cases hcj : c = j
        · subst hcj; exact hge
        · exact h1 c hc0 hcl hcj

theorem down_succ (f : Nat) (h : resultHeap T) (i n : Nat) :
    heap.down (f + 1) h i n =
      if 2 * i + 1 ≥ n then h
      else if !(h.Less (heap.smallerChild h (2 * i + 1) n) i) then h
      else heap.down f (h.Swap i (heap.smallerChild h (2 * i + 1) n))
        (heap.smallerChild h (2 * i + 1) n) n := rfl

theorem smallerChild_spec (h : resultHeap T) (i n : Nat) (hn : n ≤ h.length)
    (hj1 : 2 * i + 1 < n) :
    heap.smallerChild h (2 * i + 1) n < n ∧
    (heap.smallerChild h (2 * i + 1) n - 1) / 2 = i ∧
    i < heap.smallerChild h (2 * i + 1) n ∧
    (∀ c, 0 < c → c < n → (c - 1) / 2 = i →
      rankAt h (heap.smallerChild h (2 * i + 1) n) ≤ rankAt h c) := by
  unfold heap.smallerChild
  by_cases hc : (decide (2 * i + 1 + 1 < n) && h.Less (2 * i + 1 + 1) (2 * i + 1)) = true
  · rw [if_pos hc]
    simp only [Bool.and_eq_true, decide_eq_true_eq] at hc
    obtain ⟨hc1, hc2⟩ := hc
    rw [Less_eq h _ _ (by omega) (by omega)] at hc2
    have hc3 : rankAt h (2 * i + 1 + 1) < rankAt h (2 * i + 1) := by simpa using hc2
    refine ⟨hc1, by omega, by omega, ?_⟩
    intro c hc0 hcn hpar
    have : c = 2 * i + 1 ∨ c = 2 * i + 1 + 1 := by omega
    rcases this with rfl | rfl
    · omega
    · exact le_refl _
  · rw [if_neg hc]
    refine ⟨hj1, by omega, by omega, ?_⟩
    intro c hc0 hcn hpar
    have : c = 2 * i + 1 ∨ c = 2 * i + 1 + 1 := by omega
    rcases this with rfl | rfl
    · exact le_refl _
    · simp only [Bool.and_eq_true, decide_eq_true_eq, not_and] at hc
      have hc2 := hc hcn
      rw [Less_eq h _ _ (by omega) (by omega)] at hc2
      simpa using hc2

theorem down_length (fuel : Nat) (h : resultHeap T) (i n : Nat) :
    (heap.down fuel h i n).length = h.length := by
  induction fuel generalizing h i with
  | zero => rfl
  | succ f ih =>
    rw [down_succ]
    split
    · rfl
    · split
      · rfl
      · rw [ih, Swap_length]

theorem down_perm (fuel : Nat) (h : resultHeap T) (i n : Nat) :
    (heap.down fuel h i n).Perm h := by
  induction fuel generalizing h i with
  | zero => exact List.Perm.refl _
  | succ f ih =>
    rw [down_succ]
    split
    · exact List.Perm.refl _
    · split
      · exact List.Perm.refl _
      · exact (ih _ _).trans (Swap_perm _ _ _)

theorem down_getElem?_ge (fuel : Nat) (h : resultHeap T) (i n k : Nat) (hn : n ≤ h.length)
    (hi : i < n) (hk : n ≤ k) : (heap.down fuel h i n)[k]? = h[k]? := by
  induction fuel generalizing h i with
  | zero => rfl
  | succ f ih =>
    rw [down_succ]
    split
    · rfl
    · next hj1 =>
      split
      · rfl
      · obtain ⟨hjn, _, _, _⟩ := smallerChild_spec h i n hn (by omega)
        rw [ih _ _ (by rw [Swap_length]; exact hn) hjn]
        rw [Swap_getElem? h _ _ _ (by omega) (by omega)]
        have e1 : ¬ k = heap.smallerChild h (2 * i + 1) n := by omega
        have e2 : ¬ k = i := by omega
        simp only [e1, e2, if_false]

theorem down_isHeapOn (fuel : Nat) (h : resultHeap T) (i n : Nat) (hn : n ≤ h.length)
    (hf : n ≤ i + fuel) (hinv : downInv h i n) : isHeapOn n (heap.down fuel h i n) := by
  induction fuel generalizing h i with
  | zero =>
    obtain ⟨h1, h2⟩ := hinv
    intro c hc0 hcn
    exact h1 c hc0 hcn (by omega)
  | succ f ih =>
    obtain ⟨h1, h2⟩ := hinv
    rw [down_succ]
    by_cases hj1 : 2 * i + 1 ≥ n
    · simp only [hj1, if_true]
      intro c hc0 hcn
      exact h1 c hc0 hcn (by omega)
    · simp only [hj1, if_false]
      have hil : i < h.length := by omega
      obtain ⟨hjn, hjpar, hij, hjmin⟩ := smallerChild_spec h i n hn (by omega)
      generalize heap.smallerChild h (2 * i + 1) n = j at hjn hjpar hij hjmin
      have hjl : j < h.length := by omega
      by_cases hless : h.Less j i = true
      · have hlt : rankAt h j < rankAt h i := by
          rw [Less_eq h _ _ hjl hil] at hless
          simpa using hless
        simp only [hless, Bool.not_true, Bool.false_eq_true, if_false]
        apply ih
        · rw [Swap_length]; exact hn
        · omega
        · constructor
          · intro c hc0 hcn hpj
            rw [rankAt_Swap h _ _ _ hil hjl, rankAt_Swap h _ _ _ hil hjl]
            simp only [hpj, if_false]
            by_cases hpi : (c - 1) / 2 = i
            · simp only [hpi, if_true]
              by_cases hcj : c = j
              · simp only [hcj, if_true]; omega
              · have hci : ¬ c = i := by omega
                simp only [hcj, hci, if_false]
                exact hjmin c hc0 hcn hpi
            · simp only [hpi, if_false]
              have hcj : ¬ c = j := by
                intro hcj; rw [hcj] at hpi; exact hpi hjpar
              simp only [hcj, if_false]
              by_cases hci : c = i
              · simp only [hci, if_true]
                have := h2 j (by omega) hjn hjpar (by omega)
                rw [hci] at hpi hc0
                exact this
              · simp only [hci, if_false]
                exact h1 c hc0 hcn hpi
          · intro c hc0 hcn hpc hj0
            rw [rankAt_Swap h _ _ _ hil hjl, rankAt_Swap h _ _ _ hil hjl]
            have e1 : ¬ (j - 1) / 2 = j := by omega
            have e2 : ¬ c = j := by omega
            have e3 : ¬ c = i := by omega
            have e4 : ¬ i = j := by omega
            simp only [e2, e3, e4, hjpar, if_true, if_false]
            have := h1 c hc0 hcn (by omega)
            rw [hpc] at this
            exact this
      · simp only [hless, Bool.not_false, if_true]
        have hge : rankAt h i ≤ rankAt h j := by
          rw [Less_eq h _ _ hjl hil] at hless
          simpa using hless
        intro c hc0 hcn
        by_cases hpi : (c - 1) / 2 = i
        · rw [hpi]
          exact le_trans hge (hjmin c hc0 hcn hpi)
        · exact h1 c hc0 hcn hpi

theorem rankAt_of_getElem? (h : resultHeap T) (k : Nat) (r : result T) (hk : h[k]? = some r) :
    rankAt h k = r.Rank := by
  unfold rankAt; rw [hk]

theorem isHeap_root_le (h : resultHeap T) (hh : isHeap h) (k : Nat) (hk : k < h.length) :
    rankAt h 0 ≤ rankAt h k := by
  induction k using Nat.strong_induction_on with
  | _ k ih =>
    by_cases h0 : k = 0
    · subst h0; exact le_refl _
    · have h1 := hh k (by omega) hk
      have h2 := ih ((k - 1) / 2) (by omega) (by omega)
      exact le_trans h2 h1

theorem isHeap_head_le (h : resultHeap T) (hh : isHeap h) (m : result T)
    (hm : h.head? = some m) : ∀ x ∈ h, m.Rank ≤ x.Rank := by
  intro x hx
  obtain ⟨k, hk, hkx⟩ := List.getElem_of_mem hx
  have h0 : h[0]? = some m := by
    cases h with
    | nil => simp at hm
    | cons a t => simpa using hm
  have := isHeap_root_le h hh k hk
  rw [rankAt_of_getElem? h 0 m h0,
    rankAt_of_getElem? h k x (by rw [List.getElem?_eq_getElem hk, hkx])] at this
  exact this

theorem rankAt_append_left (h : resultHeap T) (x : result T) (k : Nat) (hk : k < h.length) :
    rankAt (h ++ [x]) k = rankAt h k := by
  unfold rankAt
  rw [List.getElem?_append_left hk]

theorem Push_isHeap (h : resultHeap T) (x : result T) (hh : isHeap h) :
    isHeap (heap.Push h x) := by
  unfold heap.Push resultHeap.Push resultHeap.Len
  apply up_isHeap
  · simp
  · simp
  · constructor
    · intro c hc0 hcl hcj
      simp only [List.length_append, List.length_singleton, Nat.add_sub_cancel] at hcl hcj
      have hc : c < h.length := by omega
      rw [rankAt_append_left h x c hc, rankAt_append_left h x _ (by omega)]
      exact hh c hc0 hc
    · intro c hc0 hcl hpar
      simp only [List.length_append, List.length_singleton, Nat.add_sub_cancel] at hcl hpar
      omega

theorem Push_perm (h : resultHeap T) (x : result T) : (heap.Push h x).Perm (x :: h) := by
  unfold heap.Push resultHeap.Push
  exact (up_perm _ _ _).trans (List.perm_append_singleton x h)

theorem Push_length (h : resultHeap T) (x : result T) :
    (heap.Push h x).length = h.length + 1 := by
  rw [(Push_perm h x).length_eq]; rfl

/-- `heap.Pop` on a non-empty heap returns its first element. -/
theorem Pop_spec (h : resultHeap T) (m : result T) (hm : h.head? = some m) (hh : isHeap h) :
    ∃ h1, heap.Pop h = (some m, h1) ∧ h.Perm (m :: h1) ∧ isHeap h1 := by
  have hne : h ≠ [] := by intro e; rw [e] at hm; simp at hm
  have hlen : 0 < h.length := List.length_pos.mpr hne
  have h0 : h[0]? = some m := by
    cases h with
    | nil => simp at hm
    | cons a t => simpa using hm
  unfold heap.Pop resultHeap.Pop resultHeap.Len
  set n := h.length - 1 with hn
  set h1 := h.Swap 0 n with hh1
  set h2 := heap.down n h1 0 n with hh2
  have hl1 : h1.length = h.length := Swap_length _ _ _
  have hl2 : h2.length = h.length := by rw [hh2, down_length, hl1]
  have hinv : downInv h1 0 n := by
    constructor
    · intro c hc0 hcn hpar
      rw [hh1, rankAt_Swap h _ _ _ hlen (by omega), rankAt_Swap h _ _ _ hlen (by omega)]
      have e1 : ¬ (c - 1) / 2 = n := by omega
      have e2 : ¬ c = n := by omega
      have e3 : ¬ c = 0 := by omega
      simp only [e1, e2, e3, hpar, if_false]
      exact hh c hc0 (by omega)
    · intro c _ _ _ h00
      omega
  have hheap : isHeapOn n h2 := down_isHeapOn n h1 0 n (by omega) (by omega) hinv
  have hlast : h2[n]? = some m := by
    by_cases hn0 : n = 0
    · have hlen1 : h.length = 1 := by omega
      have : h2 = h := by
        rw [hh2, hn0]; simp only [heap.down]; rw [hh1, hn0]
        unfold resultHeap.Swap
        rw [h0]; simp
        cases h with
        | nil => simp at hm
        | cons a t => simp at h0; simp [h0]
      rw [this, hn0]; exact h0
    · rw [hh2, down_getElem?_ge n h1 0 n n (by omega) (by omega) (le_refl _)]
      rw [hh1, Swap_getElem? h _ _ _ hlen (by omega)]
      simp [h0]
  have hsplit : h2 = h2.dropLast ++ [m] := by
    have hne2 : h2 ≠ [] := by
      intro e; rw [e] at hl2; simp at hl2; omega
    have hgl : h2.getLast? = some m := by
      rw [List.getLast?_eq_getElem?, hl2]; exact hlast
    have := List.dropLast_append_getLast? m (by simpa using hgl)
    exact this.symm
  refine ⟨h2.dropLast, ?_, ?_, ?_⟩
  · have hgl : h2.getLast? = some m := by
      rw [List.getLast?_eq_getElem?, hl2]; exact hlast
    show (h2.getLast?, h2.dropLast) = (some m, h2.dropLast)
    rw [hgl]
  · have p1 : h2.Perm h := (down_perm _ _ _ _).trans (Swap_perm _ _ _)
    have p2 : h2.Perm (m :: h2.dropLast) := by
      conv_lhs => rw [hsplit]
      exact List.perm_append_singleton m _
    exact p1.symm.trans p2
  · intro c hc0 hcl
    simp only [List.length_dropLast, hl2] at hcl
    have e1 : rankAt h2.dropLast c = rankAt h2 c := by
      unfold rankAt
      conv_rhs => rw [hsplit]
      rw [List.getElem?_append_left (by simp [hl2]; omega)]
    have e2 : rankAt h2.dropLast ((c - 1) / 2) = rankAt h2 ((c - 1) / 2) := by
      unfold rankAt
      conv_rhs => rw [hsplit]
      rw [List.getElem?_append_left (by simp [hl2]; omega)]
    rw [e1, e2]
    exact hheap c hc0 (by omega)

theorem drainHeap_spec (fuel : Nat) (h : resultHeap T) (acc : List T)
    (hf : h.length ≤ fuel) (hh : isHeap h) :
    ∃ rs : List (result T), rs.Perm h ∧ rs.Pairwise (fun a b => a.Rank ≤ b.Rank) ∧
      drainHeap fuel h acc = acc ++ rs.map (fun r => r.Value) := by
  induction fuel generalizing h acc with
  | zero =>
    have : h = [] := List.length_eq_zero.mp (by omega)
    subst this
    exact ⟨[], List.Perm.refl _, List.Pairwise.nil, by simp [drainHeap]⟩
  | succ f ih =>
    cases hcase : h with
    | nil => exact ⟨[], List.Perm.refl _, List.Pairwise.nil, by simp [drainHeap, resultHeap.Len]⟩
    | cons m t =>
      rw [← hcase]
      have hm : h.head? = some m := by rw [hcase]; rfl
      obtain ⟨h1, hpop, hperm, hheap1⟩ := Pop_spec h m hm hh
      have hlen1 : h1.length ≤ f := by
        have := hperm.length_eq
        simp at this
        omega
      obtain ⟨rs1, hp1, hs1, hd1⟩ := ih h1 (acc ++ [m.Value]) hlen1 hheap1
      refine ⟨m :: rs1, ?_, ?_, ?_⟩
      · exact (hp1.cons m).trans hperm.symm
      · refine List.Pairwise.cons ?_ hs1
        intro x hx
        apply isHeap_head_le h hh m hm
        exact hperm.symm.subset (List.mem_cons_of_mem _ (hp1.subset hx))
      · have hpos : h.Len > 0 := by rw [hcase]; simp [resultHeap.Len]
        simp only [drainHeap, hpos, if_true, hpop, hd1]
        simp

theorem reverseLoop_length {α : Type} (fuel : Nat) (l : List α) (i j : Nat) :
    (reverseLoop fuel l i j).length = l.length := by
  induction fuel generalizing l i j with
  | zero => rfl
  | succ f ih =>
    simp only [reverseLoop]
    split
    · split
      · rw [ih]; simp
      · rfl
    · rfl

theorem reverseLoop_getElem? {α : Type} (fuel : Nat) (l : List α) (i j k : Nat)
    (hj : i < j → j < l.length) (hf : j ≤ i + 2 * fuel) :
    (reverseLoop fuel l i j)[k]? = if i ≤ k ∧ k ≤ j then l[i + j - k]? else l[k]? := by
  induction fuel generalizing l i j with
  | zero =>
    simp only [reverseLoop]
    split
    · next hc => have : k = i + j - k := by omega
                 rw [← this]
    · rfl
  | succ f ih =>
    simp only [reverseLoop]
    by_cases hij : i < j
    · have hjl := hj hij
      have hil : i < l.length := by omega
      rw [if_pos hij, List.getElem?_eq_getElem hil, List.getElem?_eq_getElem hjl]
      simp only
      rw [ih _ _ _ (by intro _; simp; omega) (by omega)]
      simp only [List.getElem?_set, List.length_set]
      have e : i + 1 + (j - 1) = i + j := by omega
      rw [e]
      by_cases h1 : i + 1 ≤ k ∧ k ≤ j - 1
      · have h2 : i ≤ k ∧ k ≤ j := by omega
        have e1 : ¬ j = i + j - k := by omega
        have e2 : ¬ i = i + j - k := by omega
        simp only [h1, h2, e1, e2, and_self, if_true, if_false]
      · rw [if_neg h1]
        by_cases hkj : j = k
        · subst hkj
          have h2 : i ≤ j ∧ j ≤ j := by omega
          simp [h2, hil, hjl]
        · by_cases hki : i = k
          · subst hki
            have h2 : i ≤ i ∧ i ≤ j := by omega
            simp [h2, hil, hjl, hkj]
          · have h2 : ¬ (i ≤ k ∧ k ≤ j) := by omega
            simp only [hkj, hki, h2, if_false]
    · rw [if_neg hij]
      split
      · next hc => have : k = i + j - k := by omega
                   rw [← this]
      · rfl

theorem ReverseSliceInPlace_eq {α : Type} (l : List α) : ReverseSliceInPlace l = l.reverse := by
  unfold ReverseSliceInPlace
  apply List.ext_getElem?
  intro k
  rw [reverseLoop_getElem? _ _ _ _ _ (by intro h; omega) (by omega)]
  by_cases hk : k < l.length
  · have h1 : 0 ≤ k ∧ k ≤ l.length - 1 := by omega
    rw [if_pos h1, List.getElem?_reverse hk]
    congr 1
    omega
  · have h1 : ¬ (0 ≤ k ∧ k ≤ l.length - 1) ∨ l.length = 0 := by omega
    rcases h1 with h1 | h1
    · rw [if_neg h1, List.getElem?_eq_none (by omega), List.getElem?_eq_none (by simp; omega)]
    · have : l = [] := List.length_eq_zero.mp h1
      subst this
      simp

end Heap

/-! ## The aggregation loop of PrefixSearch -/

section Search

variable {T ι : Type} [IndexableItem T ι]

theorem scanItems_cons [DecidableEq ι] (pfx tokenStr : String) (filterFn : ResultFilterFn T) (limit : Int)
    (item : T) (rest : List T) (st : SearchState T ι) :
    scanItems pfx tokenStr filterFn limit (item :: rest) st =
      if GetID item ∈ st.seen then scanItems pfx tokenStr filterFn limit rest st
      else if (match filterFn with
          | none => false
          | some f => !(f pfx tokenStr item)) = true then
        scanItems pfx tokenStr filterFn limit rest ⟨GetID item :: st.seen, st.minHeap⟩
      else if (st.minHeap.length : Int) < limit then
        scanItems pfx tokenStr filterFn limit rest
          ⟨GetID item :: st.seen, heap.Push st.minHeap ⟨item, GetRank item⟩⟩
      else
        match st.minHeap.head? with
        | none => ⟨GetID item :: st.seen, st.minHeap⟩
        | some lowest =>
          if GetRank item > lowest.Rank then
            scanItems pfx tokenStr filterFn limit rest
              ⟨GetID item :: st.seen, heap.Push (heap.Pop st.minHeap).2 ⟨item, GetRank item⟩⟩
          else ⟨GetID item :: st.seen, st.minHeap⟩ := rfl

theorem heapOK_seen (st : SearchState T ι) (i : ι) (h : heapOK st) :
    heapOK (⟨i :: st.seen, st.minHeap⟩ : SearchState T ι) := by
  obtain ⟨h1, h2, h3, h4⟩ := h
  exact ⟨h1, h2, h3, fun r hr => List.mem_cons_of_mem _ (h4 r hr)⟩

theorem heapOK_push (seen : List ι) (hp : resultHeap T) (item : T)
    (h : heapOK (⟨seen, hp⟩ : SearchState T ι)) (hnew : GetID item ∉ seen) :
    heapOK (⟨GetID item :: seen, heap.Push hp ⟨item, GetRank item⟩⟩ : SearchState T ι) := by
  obtain ⟨h1, h2, h3, h4⟩ := h
  have hperm := Push_perm hp ⟨item, GetRank item⟩
  refine ⟨Push_isHeap _ _ h1, ?_, ?_, ?_⟩
  · intro r hr
    rcases List.mem_cons.mp (hperm.subset hr) with rfl | hr
    · rfl
    · exact h2 r hr
  · rw [(hperm.map _).nodup_iff]
    simp only [List.map_cons, List.nodup_cons]
    refine ⟨?_, h3⟩
    intro hmem
    obtain ⟨r, hr, hre⟩ := List.mem_map.mp hmem
    exact hnew (hre ▸ h4 r hr)
  · intro r hr
    rcases List.mem_cons.mp (hperm.subset hr) with rfl | hr
    · exact List.mem_cons_self _ _
    · exact List.mem_cons_of_mem _ (h4 r hr)

theorem heapOK_pop (seen : List ι) (hp : resultHeap T) (m : result T)
    (h : heapOK (⟨seen, hp⟩ : SearchState T ι)) (hm : hp.head? = some m) :
    heapOK (⟨seen, (heap.Pop hp).2⟩ : SearchState T ι) := by
  obtain ⟨h1, h2, h3, h4⟩ := h
  obtain ⟨hp1, hpop, hperm, hheap⟩ := Pop_spec hp m hm h1
  rw [hpop]
  have hsub : ∀ r ∈ hp1, r ∈ hp := fun r hr => hperm.symm.subset (List.mem_cons_of_mem _ hr)
  refine ⟨hheap, fun r hr => h2 r (hsub r hr), ?_, fun r hr => h4 r (hsub r hr)⟩
  have := (hperm.map (fun r => GetID r.Value)).nodup_iff.mp h3
  simp only [List.map_cons, List.nodup_cons] at this
  exact this.2

theorem scanItems_heapOK [DecidableEq ι] (pfx tokenStr : String) (filterFn : ResultFilterFn T) (limit : Int)
    (items : List T) (st : SearchState T ι) (h : heapOK st) :
    heapOK (scanItems pfx tokenStr filterFn limit items st) := by
  induction items generalizing st with
  | nil => exact h
  | cons item rest ih =>
    rw [scanItems_cons]
    split
    · exact ih st h
    · next hnew =>
      split
      · exact ih _ (heapOK_seen st _ h)
      · split
        · exact ih _ (heapOK_push st.seen st.minHeap item h hnew)
        · split
          · exact heapOK_seen st _ h
          · next lowest hlow =>
            split
            · apply ih
              apply heapOK_push
              · exact heapOK_pop st.seen st.minHeap lowest h hlow
              · exact hnew
            · exact heapOK_seen st _ h

theorem scanTokens_heapOK [DecidableEq ι] (pfx : String) (filterFn : ResultFilterFn T) (limit : Int)
    (entries : List (String × List T)) (st : SearchState T ι) (h : heapOK st) :
    heapOK (scanTokens pfx filterFn limit entries st) := by
  induction entries generalizing st with
  | nil => exact h
  | cons e rest ih =>
    obtain ⟨token, items⟩ := e
    simp only [scanTokens]
    split
    · exact ih st h
    · exact ih _ (scanItems_heapOK _ _ _ _ _ _ h)

theorem heapOK_init : heapOK (⟨[], []⟩ : SearchState T ι) := by
  refine ⟨?_, ?_, ?_, ?_⟩
  · intro c _ hc; simp at hc
  · intro r hr; simp at hr
  · simp
  · intro r hr; simp at hr

theorem PrefixSearch_eq [DecidableEq ι] (idx : Index T) (pfx0 : String) (limit0 : Int)
    (filterFn : ResultFilterFn T) (hne : idx.tokenizer.NormalizeString pfx0 ≠ "") :
    ∃ rs : List (result T), rs.Perm (finalState idx pfx0 limit0 filterFn).minHeap ∧
      rs.Pairwise (fun a b => a.Rank ≤ b.Rank) ∧
      idx.PrefixSearch pfx0 limit0 filterFn = (rs.map (fun r => r.Value)).reverse := by
  have hok : heapOK (finalState idx pfx0 limit0 filterFn) :=
    scanTokens_heapOK _ _ _ _ _ heapOK_init
  obtain ⟨rs, hp, hs, hd⟩ := drainHeap_spec (finalState idx pfx0 limit0 filterFn).minHeap.Len
    (finalState idx pfx0 limit0 filterFn).minHeap [] (le_refl _) hok.1
  refine ⟨rs, hp, hs, ?_⟩
  unfold Index.PrefixSearch
  simp only [hne, if_false]
  rw [ReverseSliceInPlace_eq]
  unfold finalState at hd
  have hinit : heap.Init ([] : resultHeap T) = [] := by
    simp [heap.Init, heap.initLoop, resultHeap.Len]
  rw [hinit, hd]
  simp

theorem PrefixSearch_empty [DecidableEq ι] (idx : Index T) (pfx0 : String) (limit0 : Int)
    (filterFn : ResultFilterFn T) (he : idx.tokenizer.NormalizeString pfx0 = "") :
    idx.PrefixSearch pfx0 limit0 filterFn = [] := by
  unfold Index.PrefixSearch
  simp [he]


theorem Pop_length (hp : resultHeap T) (m : result T) (hm : hp.head? = some m) (hh : isHeap hp) :
    (heap.Pop hp).2.length + 1 = hp.length := by
  obtain ⟨hp1, hpop, hperm, _⟩ := Pop_spec hp m hm hh
  rw [hpop, hperm.length_eq]
  rfl

theorem Pop_subset (hp : resultHeap T) (m : result T) (hm : hp.head? = some m) (hh : isHeap hp) :
    ∀ r ∈ (heap.Pop hp).2, r ∈ hp := by
  obtain ⟨hp1, hpop, hperm, _⟩ := Pop_spec hp m hm hh
  rw [hpop]
  exact fun r hr => hperm.symm.subset (List.mem_cons_of_mem _ hr)

theorem scanItems_sizeInv [DecidableEq ι] (pfx tokenStr : String) (limit : Int)
    (items : List T) (S : List ι) (st : SearchState T ι) (hok : heapOK st)
    (h : sizeInv limit S st) :
    sizeInv limit (S ++ items.map GetID) (scanItems pfx tokenStr none limit items st) := by
  induction items generalizing S st with
  | nil => simpa using h
  | cons item rest ih =>
    obtain ⟨k1, k2, k3⟩ := h
    have hS : S ++ (item :: rest).map GetID = (S ++ [GetID item]) ++ rest.map GetID := by simp
    rw [scanItems_cons]
    split
    · next hseen =>
      rw [hS]
      apply ih _ _ hok
      refine ⟨fun r hr => List.mem_append_left _ (k1 r hr), k2, fun hlt => ⟨?_, (k3 hlt).2⟩⟩
      intro i hi
      rcases List.mem_append.mp hi with hi | hi
      · exact (k3 hlt).1 i hi
      · simp only [List.mem_singleton] at hi
        subst hi
        exact (k3 hlt).2 _ hseen
    · next hnew =>
      simp only [Bool.false_eq_true, if_false]
      split
      · next hlt =>
        rw [hS]
        have hperm := Push_perm st.minHeap ⟨item, GetRank item⟩
        apply ih _ _ (heapOK_push st.seen st.minHeap item hok hnew)
        have hmemPush : ∀ i, (i = GetID item ∨ i ∈ st.minHeap.map (fun r => GetID r.Value)) →
            i ∈ (heap.Push st.minHeap ⟨item, GetRank item⟩).map (fun r => GetID r.Value) := by
          intro i hi
          rw [(hperm.map _).mem_iff]
          simpa using hi
        refine ⟨?_, ?_, fun _ => ⟨?_, ?_⟩⟩
        · intro r hr
          rcases List.mem_cons.mp (hperm.subset hr) with rfl | hr
          · simp
          · exact List.mem_append_left _ (k1 r hr)
        · show ((heap.Push st.minHeap ⟨item, GetRank item⟩).length : Int) ≤ limit
          rw [Push_length]; push_cast; omega
        · intro i hi
          apply hmemPush
          rcases List.mem_append.mp hi with hi | hi
          · exact Or.inr ((k3 hlt).1 i hi)
          · simp only [List.mem_singleton] at hi
            exact Or.inl hi
        · intro i hi
          apply hmemPush
          rcases List.mem_cons.mp hi with hi | hi
          · exact Or.inl hi
          · exact Or.inr ((k3 hlt).2 i hi)
      · next hnlt =>
        have hfull : ∀ (sn : List ι) (S1 : List ι), (∀ i ∈ S, i ∈ S1) →
            sizeInv limit S1 (⟨sn, st.minHeap⟩ : SearchState T ι) :=
          fun sn S1 hsub => ⟨fun r hr => hsub _ (k1 r hr), k2, fun hlt => absurd hlt hnlt⟩
        split
        · exact hfull _ _ (fun i hi => List.mem_append_left _ hi)
        · next lowest hlow =>
          split
          · rw [hS]
            have hok1 := heapOK_pop st.seen st.minHeap lowest hok hlow
            have hperm := Push_perm (heap.Pop st.minHeap).2 ⟨item, GetRank item⟩
            have hlen : (heap.Push (heap.Pop st.minHeap).2 ⟨item, GetRank item⟩).length
                = st.minHeap.length := by
              rw [Push_length, Pop_length st.minHeap lowest hlow hok.1]
            apply ih _ _ (heapOK_push st.seen _ item hok1 hnew)
            refine ⟨?_, ?_, fun hlt => ?_⟩
            · intro r hr
              rcases List.mem_cons.mp (hperm.subset hr) with rfl | hr
              · simp
              · exact List.mem_append_left _
                  (k1 r (Pop_subset st.minHeap lowest hlow hok.1 r hr))
            · show ((heap.Push (heap.Pop st.minHeap).2 ⟨item, GetRank item⟩).length : Int) ≤ limit
              rw [hlen]; exact k2
            · exfalso
              apply hnlt
              have : ((heap.Push (heap.Pop st.minHeap).2 ⟨item, GetRank item⟩).length : Int)
                  < limit := hlt
              rw [hlen] at this
              exact this
          · exact hfull _ _ (fun i hi => List.mem_append_left _ hi)

theorem scanTokens_sizeInv [DecidableEq ι] (pfx : String) (limit : Int)
    (entries : List (String × List T)) (S : List ι) (st : SearchState T ι) (hok : heapOK st)
    (h : sizeInv limit S st) :
    sizeInv limit (S ++ (entries.flatMap (fun e => e.2)).map GetID)
      (scanTokens pfx none limit entries st) := by
  induction entries generalizing S st with
  | nil => simpa using h
  | cons e rest ih =>
    obtain ⟨token, items⟩ := e
    have hS : S ++ (((token, items) :: rest).flatMap (fun e => e.2)).map GetID
        = (S ++ items.map GetID) ++ (rest.flatMap (fun e => e.2)).map GetID := by
      simp
    simp only [scanTokens]
    split
    · next hlen =>
      have : items = [] := List.length_eq_zero.mp hlen
      subst this
      simpa using ih S st hok h
    · rw [hS]
      exact ih _ _ (scanItems_heapOK _ _ _ _ _ _ hok)
        (scanItems_sizeInv pfx token limit items S st hok h)

theorem nodup_length_le_dedup [DecidableEq ι] (l m : List ι) (hl : l.Nodup) (hsub : ∀ i ∈ l, i ∈ m) :
    l.length ≤ m.dedup.length := by
  rw [← List.toFinset_card_of_nodup hl, ← List.card_toFinset]
  apply Finset.card_le_card
  intro i hi
  simp only [List.mem_toFinset] at hi ⊢
  exact hsub i hi

theorem nodup_length_eq_dedup [DecidableEq ι] (l m : List ι) (hl : l.Nodup)
    (hsub : ∀ i ∈ l, i ∈ m) (hsup : ∀ i ∈ m, i ∈ l) : l.length = m.dedup.length := by
  rw [← List.toFinset_card_of_nodup hl, ← List.card_toFinset]
  congr 1
  ext i
  simp only [List.mem_toFinset]
  exact ⟨hsub i, hsup i⟩

theorem finalState_length [DecidableEq ι] (idx : Index T) (pfx0 : String) (limit0 : Int) :
    ((finalState idx pfx0 limit0 none).minHeap.length : Int)
      = min (if limit0 ≤ 0 then maxInt else limit0) (totalMatches idx pfx0 : Int) := by
  have hlim : (1 : Int) ≤ (if limit0 ≤ 0 then maxInt else limit0) := by
    split
    · unfold maxInt; omega
    · omega
  have hok : heapOK (finalState idx pfx0 limit0 none) :=
    scanTokens_heapOK _ _ _ _ _ heapOK_init
  have hinit : sizeInv (if limit0 ≤ 0 then maxInt else limit0) ([] : List ι)
      (⟨[], []⟩ : SearchState T ι) := by
    refine ⟨by intro r hr; simp at hr, ?_, fun _ => ⟨by intro i hi; simp at hi, by intro i hi; simp at hi⟩⟩
    simp only [List.length_nil, Nat.cast_zero]; omega
  have hinv := scanTokens_sizeInv (idx.tokenizer.NormalizeString pfx0) _
    (idx.index.SeekPrefix (idx.tokenizer.NormalizeString pfx0)) [] ⟨[], []⟩ heapOK_init hinit
  simp only [List.nil_append] at hinv
  obtain ⟨k1, k2, k3⟩ := hinv
  have hlen : (finalState idx pfx0 limit0 none).minHeap.length
      = ((finalState idx pfx0 limit0 none).minHeap.map (fun r => GetID r.Value)).length := by
    simp
  have hsub : ∀ i ∈ (finalState idx pfx0 limit0 none).minHeap.map (fun r => GetID r.Value),
      i ∈ (matchingItems idx pfx0).map GetID := by
    intro i hi
    obtain ⟨r, hr, rfl⟩ := List.mem_map.mp hi
    exact k1 r hr
  have hle := nodup_length_le_dedup _ _ hok.2.2.1 hsub
  rw [← hlen] at hle
  by_cases hlt : ((finalState idx pfx0 limit0 none).minHeap.length : Int)
      < (if limit0 ≤ 0 then maxInt else limit0)
  · have heq := nodup_length_eq_dedup _ _ hok.2.2.1 hsub (k3 hlt).1
    rw [← hlen] at heq
    unfold totalMatches
    rw [← heq]
    exact (min_eq_right (le_of_lt hlt)).symm
  · have heq : ((finalState idx pfx0 limit0 none).minHeap.length : Int)
        = (if limit0 ≤ 0 then maxInt else limit0) := le_antisymm k2 (not_lt.mp hlt)
    have : (if limit0 ≤ 0 then maxInt else limit0) ≤ (totalMatches idx pfx0 : Int) := by
      rw [← heq]
      unfold totalMatches
      exact_mod_cast hle
    rw [heq]
    exact (min_eq_left this).symm

theorem sizeInv_step [DecidableEq ι] (pfx tokenStr : String) (limit : Int) (item : T)
    (S : List T) (st : SearchState T ι) (hok : heapOK st)
    (h : sizeInv limit (S.map GetID) st) :
    sizeInv limit ((S ++ [item]).map GetID) (scanItems pfx tokenStr none limit [item] st) := by
  have := scanItems_sizeInv pfx tokenStr limit [item] (S.map GetID) st hok h
  simpa using this

theorem scanItems_topInv [DecidableEq ι] (pfx tokenStr : String) (limit : Int)
    (U : List T)
    (hfun : ∀ x ∈ U, ∀ y ∈ U, GetID x = GetID y → GetRank x = GetRank y)
    (items : List T) (S : List T) (st : SearchState T ι)
    (hS : ∀ x ∈ S, x ∈ U) (hI : ∀ x ∈ items, x ∈ U) (hsorted : rankSorted items)
    (hok : heapOK st) (hsz : sizeInv limit (S.map GetID) st) (h : topInv S st) :
    topInv (S ++ items) (scanItems pfx tokenStr none limit items st) := by
  induction items generalizing S st with
  | nil => simpa using h
  | cons item rest ih =>
    obtain ⟨t1, t2, t3⟩ := h
    have hSe : S ++ item :: rest = (S ++ [item]) ++ rest := by simp
    have hS1 : ∀ x ∈ S ++ [item], x ∈ U := by
      intro x hx
      rcases List.mem_append.mp hx with hx | hx
      · exact hS x hx
      · simp only [List.mem_singleton] at hx
        subst hx
        exact hI _ (List.mem_cons_self _ _)
    have hI1 : ∀ x ∈ rest, x ∈ U := fun x hx => hI x (List.mem_cons_of_mem _ hx)
    have hsorted1 : rankSorted rest := (List.pairwise_cons.mp hsorted).2
    have hstep := sizeInv_step pfx tokenStr limit item S st hok hsz
    have hokstep := scanItems_heapOK pfx tokenStr none limit [item] st hok
    rw [scanItems_cons] at hstep hokstep
    rw [scanItems_cons]
    by_cases hseen : GetID item ∈ st.seen
    · simp only [hseen, if_true] at hstep hokstep ⊢
      simp only [scanItems] at hstep hokstep
      rw [hSe]
      apply ih _ _ hS1 hI1 hsorted1 hok hstep
      refine ⟨?_, ?_, ?_⟩
      · intro i hi
        obtain ⟨x, hx, hxi⟩ := t1 i hi
        exact ⟨x, List.mem_append_left _ hx, hxi⟩
      · exact fun r hr => List.mem_append_left _ (t2 r hr)
      · intro x hx hnot r hr
        rcases List.mem_append.mp hx with hx | hx
        · exact t3 x hx hnot r hr
        · simp only [List.mem_singleton] at hx
          subst hx
          obtain ⟨x0, hx0, hx0i⟩ := t1 _ hseen
          have hr0 := t3 x0 hx0 (by rw [hx0i]; exact hnot) r hr
          rw [hfun x (hI _ (List.mem_cons_self _ _)) x0 (hS _ hx0) hx0i.symm]
          exact hr0
    · simp only [hseen, if_false, Bool.false_eq_true] at hstep hokstep ⊢
      have t1new : ∀ (S1 : List T), item ∈ S1 → (∀ x ∈ S, x ∈ S1) →
          ∀ i ∈ GetID item :: st.seen, ∃ x ∈ S1, GetID x = i := by
        intro S1 hitem hsub i hi
        rcases List.mem_cons.mp hi with hi | hi
        · exact ⟨item, hitem, hi.symm⟩
        · obtain ⟨x, hx, hxi⟩ := t1 i hi
          exact ⟨x, hsub x hx, hxi⟩
      by_cases hlt : (st.minHeap.length : Int) < limit
      · simp only [hlt, if_true] at hstep hokstep ⊢
        simp only [scanItems] at hstep hokstep
        rw [hSe]
        apply ih _ _ hS1 hI1 hsorted1 hokstep hstep
        have hperm := Push_perm st.minHeap ⟨item, GetRank item⟩
        refine ⟨t1new _ (by simp) (fun x hx => List.mem_append_left _ hx), ?_, ?_⟩
        · intro r hr
          rcases List.mem_cons.mp (hperm.subset hr) with rfl | hr
          · simp
          · exact List.mem_append_left _ (t2 r hr)
        · intro x hx hnot r hr
          exfalso
          apply hnot
          rw [(hperm.map _).mem_iff]
          rcases List.mem_append.mp hx with hx | hx
          · have := (hsz.2.2 hlt).1 (GetID x) (List.mem_map_of_mem _ hx)
            exact List.mem_cons_of_mem _ this
          · simp only [List.mem_singleton] at hx
            subst hx
            simp
      · simp only [hlt, if_false] at hstep hokstep ⊢
        cases hhead : st.minHeap.head? with
        | none =>
          have hnil : st.minHeap = [] := by
            cases hm : st.minHeap with
            | nil => rfl
            | cons a t => rw [hm] at hhead; simp at hhead
          simp only
          refine ⟨t1new _ (by simp) (fun x hx => List.mem_append_left _ hx), ?_, ?_⟩
          · intro r hr; simp only [hnil] at hr; simp at hr
          · intro x _ _ r hr; simp only [hnil] at hr; simp at hr
        | some lowest =>
          simp only [hhead] at hstep hokstep ⊢
          have hmin := isHeap_head_le st.minHeap hok.1 lowest hhead
          have hlowmem : lowest ∈ st.minHeap := by
            cases hm : st.minHeap with
            | nil => rw [hm] at hhead; simp at hhead
            | cons a t => rw [hm] at hhead; simp at hhead; subst hhead; simp
          by_cases hgt : GetRank item > lowest.Rank
          · simp only [hgt, if_true] at hstep hokstep ⊢
            simp only [scanItems] at hstep hokstep
            rw [hSe]
            apply ih _ _ hS1 hI1 hsorted1 hokstep hstep
            obtain ⟨hp1, hpop, hpermPop, _⟩ := Pop_spec st.minHeap lowest hhead hok.1
            have hperm := Push_perm (heap.Pop st.minHeap).2 ⟨item, GetRank item⟩
            rw [hpop] at hperm ⊢
            simp only at hperm ⊢
            have hsub1 : ∀ r ∈ hp1, r ∈ st.minHeap :=
              fun r hr => hpermPop.symm.subset (List.mem_cons_of_mem _ hr)
            refine ⟨t1new _ (by simp) (fun x hx => List.mem_append_left _ hx), ?_, ?_⟩
            · intro r hr
              rcases List.mem_cons.mp (hperm.subset hr) with rfl | hr
              · simp
              · exact List.mem_append_left _ (t2 r (hsub1 r hr))
            · intro x hx hnot r hr
              have hnot1 : GetID x ≠ GetID item ∧
                  GetID x ∉ hp1.map (fun r => GetID r.Value) := by
                rw [(hperm.map _).mem_iff] at hnot
                simp only [List.map_cons, List.mem_cons, not_or] at hnot
                exact hnot
              have hxS : x ∈ S := by
                rcases List.mem_append.mp hx with hx | hx
                · exact hx
                · simp only [List.mem_singleton] at hx
                  exact absurd (by rw [hx]) hnot1.1
              -- the rank of x is at most the rank of the popped minimum
              have hxlow : GetRank x ≤ lowest.Rank := by
                by_cases hold : GetID x ∈ st.minHeap.map (fun r => GetID r.Value)
                · rw [(hpermPop.map _).mem_iff] at hold
                  simp only [List.map_cons, List.mem_cons] at hold
                  rcases hold with hold | hold
                  · rw [hfun x (hS x hxS) lowest.Value (hS _ (t2 _ hlowmem)) hold,
                      ← hok.2.1 lowest hlowmem]
                  · exact absurd hold hnot1.2
                · exact t3 x hxS hold lowest hlowmem
              rcases List.mem_cons.mp (hperm.subset hr) with rfl | hr
              · simp only; omega
              · exact le_trans hxlow (hmin r (hsub1 r hr))
          · simp only [hgt, if_false]
            refine ⟨t1new _ (by simp) (fun x hx => List.mem_append_left _ hx),
              fun r hr => List.mem_append_left _ (t2 r hr), ?_⟩
            intro x hx hnot r hr
            rcases List.mem_append.mp hx with hx | hx
            · exact t3 x hx hnot r hr
            · have hxi : GetRank x ≤ GetRank item := by
                rcases List.mem_cons.mp hx with rfl | hx
                · exact le_refl _
                · exact (List.pairwise_cons.mp hsorted).1 x hx
              have := hmin r hr
              omega

theorem scanTokens_topInv [DecidableEq ι] (pfx : String) (limit : Int) (U : List T)
    (hfun : ∀ x ∈ U, ∀ y ∈ U, GetID x = GetID y → GetRank x = GetRank y)
    (entries : List (String × List T)) (S : List T) (st : SearchState T ι)
    (hS : ∀ x ∈ S, x ∈ U) (hE : ∀ x ∈ entries.flatMap (fun e => e.2), x ∈ U)
    (hsorted : ∀ e ∈ entries, rankSorted e.2)
    (hok : heapOK st) (hsz : sizeInv limit (S.map GetID) st) (h : topInv S st) :
    topInv (S ++ entries.flatMap (fun e => e.2)) (scanTokens pfx none limit entries st) := by
  induction entries generalizing S st with
  | nil => simpa using h
  | cons e rest ih =>
    obtain ⟨token, items⟩ := e
    have hSe : S ++ ((token, items) :: rest).flatMap (fun e => e.2)
        = (S ++ items) ++ rest.flatMap (fun e => e.2) := by simp
    have hI : ∀ x ∈ items, x ∈ U := by
      intro x hx
      apply hE
      simp only [List.flatMap_cons, List.mem_append]
      exact Or.inl hx
    have hE1 : ∀ x ∈ rest.flatMap (fun e => e.2), x ∈ U := by
      intro x hx
      apply hE
      simp only [List.flatMap_cons, List.mem_append]
      exact Or.inr hx
    have hsorted1 : ∀ e ∈ rest, rankSorted e.2 :=
      fun e he => hsorted e (List.mem_cons_of_mem _ he)
    simp only [scanTokens]
    split
    · next hlen =>
      have : items = [] := List.length_eq_zero.mp hlen
      subst this
      simpa using ih S st hS hE1 hsorted1 hok hsz h
    · rw [hSe]
      have hS1 : ∀ x ∈ S ++ items, x ∈ U := by
        intro x hx
        rcases List.mem_append.mp hx with hx | hx
        · exact hS x hx
        · exact hI x hx
      apply ih _ _ hS1 hE1 hsorted1 (scanItems_heapOK _ _ _ _ _ _ hok)
      · have := scanItems_sizeInv pfx token limit items (S.map GetID) st hok hsz
        simpa using this
      · exact scanItems_topInv pfx token limit U hfun items S st hS hI
          (hsorted _ (List.mem_cons_self _ _)) hok hsz h

/-- Top-K optimality on an index whose posting lists are in non-increasing order of rank,
for items whose identity determines their rank: a match whose identity is not in the
result of `PrefixSearch(prefix, k, nil)` has a rank that is at most the rank of every
returned item. -/
theorem PrefixSearch_topK_of_sorted [DecidableEq ι] (idx : Index T) (pfx0 : String) (k : Int)
    (hsorted : postingsSorted idx)
    (hfun : ∀ x ∈ matchingItems idx pfx0, ∀ y ∈ matchingItems idx pfx0,
      GetID x = GetID y → GetRank x = GetRank y) :
    ∀ x ∈ matchingItems idx pfx0,
      GetID x ∉ (idx.PrefixSearch pfx0 k none).map GetID →
      ∀ y ∈ idx.PrefixSearch pfx0 k none, GetRank x ≤ GetRank y := by
  intro x hx hnot y hy
  by_cases hne : idx.tokenizer.NormalizeString pfx0 = ""
  · rw [PrefixSearch_empty idx pfx0 k none hne] at hy
    simp at hy
  · obtain ⟨rs, hp, _, he⟩ := PrefixSearch_eq idx pfx0 k none hne
    have hok : heapOK (finalState idx pfx0 k none) :=
      scanTokens_heapOK _ _ _ _ _ heapOK_init
    have hlim : (0 : Int) ≤ (if k ≤ 0 then maxInt else k) := by
      split
      · unfold maxInt; omega
      · omega
    have hinit : sizeInv (if k ≤ 0 then maxInt else k) (([] : List T).map GetID)
        (⟨[], []⟩ : SearchState T ι) := by
      refine ⟨by intro r hr; simp at hr, ?_,
        fun _ => ⟨by intro i hi; simp at hi, by intro i hi; simp at hi⟩⟩
      simpa using hlim
    have htop0 : topInv ([] : List T) (⟨[], []⟩ : SearchState T ι) :=
      ⟨by intro i hi; simp at hi, by intro r hr; simp at hr, by intro x hx; simp at hx⟩
    have hsortedE : ∀ e ∈ idx.index.SeekPrefix (idx.tokenizer.NormalizeString pfx0),
        rankSorted e.2 := by
      intro e he
      unfold Tree.SeekPrefix at he
      exact hsorted e (List.mem_filter.mp he).1
    have htop := scanTokens_topInv (idx.tokenizer.NormalizeString pfx0)
      (if k ≤ 0 then maxInt else k) (matchingItems idx pfx0) hfun
      (idx.index.SeekPrefix (idx.tokenizer.NormalizeString pfx0)) [] ⟨[], []⟩
      (by intro x hx; simp at hx) (fun x hx => hx) hsortedE heapOK_init hinit htop0
    simp only [List.nil_append] at htop
    obtain ⟨_, _, t3⟩ := htop
    rw [he] at hy hnot
    simp only [List.mem_reverse, List.mem_map] at hy
    obtain ⟨r, hr, rfl⟩ := hy
    have hrh := hp.subset hr
    rw [← hok.2.1 r hrh]
    apply t3 x hx _ r hrh
    intro hmem
    apply hnot
    simp only [List.map_reverse, List.mem_reverse, List.map_map]
    exact ((hp.map _).mem_iff).mpr hmem


theorem scanItems_reject [DecidableEq ι] (pfx tokenStr : String) (limit : Int)
    (f : String → String → T → Bool) (hf : ∀ q t x, f q t x = false)
    (items : List T) (st : SearchState T ι) (h : st.minHeap = []) :
    (scanItems pfx tokenStr (some f) limit items st).minHeap = [] := by
  induction items generalizing st with
  | nil => exact h
  | cons item rest ih =>
    rw [scanItems_cons]
    split
    · exact ih st h
    · simp only [hf, Bool.not_false, if_true]
      exact ih _ h

theorem scanTokens_reject [DecidableEq ι] (pfx : String) (limit : Int)
    (f : String → String → T → Bool) (hf : ∀ q t x, f q t x = false)
    (entries : List (String × List T)) (st : SearchState T ι) (h : st.minHeap = []) :
    (scanTokens pfx (some f) limit entries st).minHeap = [] := by
  induction entries generalizing st with
  | nil => exact h
  | cons e rest ih =>
    obtain ⟨token, items⟩ := e
    simp only [scanTokens]
    split
    · exact ih st h
    · exact ih _ (scanItems_reject pfx token limit f hf items st h)


theorem scanItemsCalls_cons [DecidableEq ι] (pfx tokenStr : String) (filterFn : ResultFilterFn T)
    (limit : Int) (item : T) (rest : List T) (st : SearchState T ι) (calls : List (FilterCall T)) :
    scanItemsCalls pfx tokenStr filterFn limit (item :: rest) st calls =
      if GetID item ∈ st.seen then scanItemsCalls pfx tokenStr filterFn limit rest st calls
      else if (match filterFn with
          | none => false
          | some f => !(f pfx tokenStr item)) = true then
        scanItemsCalls pfx tokenStr filterFn limit rest ⟨GetID item :: st.seen, st.minHeap⟩
          (match filterFn with
            | none => calls
            | some _ => calls ++ [⟨pfx, tokenStr, item⟩])
      else if (st.minHeap.length : Int) < limit then
        scanItemsCalls pfx tokenStr filterFn limit rest
          ⟨GetID item :: st.seen, heap.Push st.minHeap ⟨item, GetRank item⟩⟩
          (match filterFn with
            | none => calls
            | some _ => calls ++ [⟨pfx, tokenStr, item⟩])
      else
        match st.minHeap.head? with
        | none => (⟨GetID item :: st.seen, st.minHeap⟩,
            match filterFn with
            | none => calls
            | some _ => calls ++ [⟨pfx, tokenStr, item⟩])
        | some lowest =>
          if GetRank item > lowest.Rank then
            scanItemsCalls pfx tokenStr filterFn limit rest
              ⟨GetID item :: st.seen, heap.Push (heap.Pop st.minHeap).2 ⟨item, GetRank item⟩⟩
              (match filterFn with
                | none => calls
                | some _ => calls ++ [⟨pfx, tokenStr, item⟩])
          else (⟨GetID item :: st.seen, st.minHeap⟩,
            match filterFn with
            | none => calls
            | some _ => calls ++ [⟨pfx, tokenStr, item⟩]) := rfl

theorem scanItemsCalls_state [DecidableEq ι] (pfx tokenStr : String) (filterFn : ResultFilterFn T)
    (limit : Int) (items : List T) (st : SearchState T ι) (calls : List (FilterCall T)) :
    (scanItemsCalls pfx tokenStr filterFn limit items st calls).1
      = scanItems pfx tokenStr filterFn limit items st := by
  induction items generalizing st calls with
  | nil => rfl
  | cons item rest ih =>
    rw [scanItemsCalls_cons, scanItems_cons]
    by_cases hseen : GetID item ∈ st.seen
    · simp only [hseen, if_true]
      exact ih _ _
    · simp only [hseen, if_false]
      cases filterFn with
      | none =>
        simp only [Bool.false_eq_true, if_false]
        by_cases hlt : (st.minHeap.length : Int) < limit
        · simp only [hlt, if_true]
          exact ih _ _
        · simp only [hlt, if_false]
          cases st.minHeap.head? with
          | none => rfl
          | some lowest =>
            simp only
            by_cases hgt : GetRank item > lowest.Rank
            · simp only [hgt, if_true]
              exact ih _ _
            · simp only [hgt, if_false]
      | some f =>
        simp only
        by_cases hrej : (!(f pfx tokenStr item)) = true
        · simp only [hrej, if_true]
          exact ih _ _
        · simp only [hrej, Bool.false_eq_true, if_false]
          by_cases hlt : (st.minHeap.length : Int) < limit
          · simp only [hlt, if_true]
            exact ih _ _
          · simp only [hlt, if_false]
            cases st.minHeap.head? with
            | none => rfl
            | some lowest =>
              simp only
              by_cases hgt : GetRank item > lowest.Rank
              · simp only [hgt, if_true]
                exact ih _ _
              · simp only [hgt, if_false]

theorem scanTokensCalls_state [DecidableEq ι] (pfx : String) (filterFn : ResultFilterFn T)
    (limit : Int) (entries : List (String × List T)) (st : SearchState T ι)
    (calls : List (FilterCall T)) :
    (scanTokensCalls pfx filterFn limit entries st calls).1
      = scanTokens pfx filterFn limit entries st := by
  induction entries generalizing st calls with
  | nil => rfl
  | cons e rest ih =>
    obtain ⟨token, items⟩ := e
    simp only [scanTokensCalls, scanTokens]
    split
    · exact ih _ _
    · rw [ih, scanItemsCalls_state]

theorem callsInv_step [DecidableEq ι] (f : String → String → T → Bool) (pfx tokenStr : String)
    (item : T) (st : SearchState T ι) (calls : List (FilterCall T)) (hp : resultHeap T)
    (hok : heapOK st) (h : callsInv f st calls) (hnew : GetID item ∉ st.seen)
    (hheap : ∀ r ∈ hp, r ∈ st.minHeap ∨
      (r.Value = item ∧ f pfx tokenStr item = true)) :
    callsInv f (⟨GetID item :: st.seen, hp⟩ : SearchState T ι)
      (calls ++ [⟨pfx, tokenStr, item⟩]) := by
  obtain ⟨h1, h2⟩ := h
  constructor
  · simp [h1]
  · intro r hr c hc hid
    rcases List.mem_append.mp hc with hc | hc
    · rcases hheap r hr with hr1 | ⟨hv, _⟩
      · exact h2 r hr1 c hc hid
      · exfalso
        apply hnew
        rw [h1, List.mem_reverse, ← hv, ← hid]
        exact List.mem_map_of_mem _ hc
    · simp only [List.mem_singleton] at hc
      subst hc
      rcases hheap r hr with hr1 | ⟨_, hacc⟩
      · exfalso
        apply hnew
        simp only at hid
        rw [hid]
        exact hok.2.2.2 r hr1
      · exact hacc

theorem scanItemsCalls_inv [DecidableEq ι] (f : String → String → T → Bool)
    (pfx tokenStr : String) (limit : Int) (items : List T) (st : SearchState T ι)
    (calls : List (FilterCall T)) (hok : heapOK st) (h : callsInv f st calls) :
    callsInv f (scanItemsCalls pfx tokenStr (some f) limit items st calls).1
      (scanItemsCalls pfx tokenStr (some f) limit items st calls).2 := by
  induction items generalizing st calls with
  | nil => exact h
  | cons item rest ih =>
    have hokstep := scanItems_heapOK pfx tokenStr (some f) limit [item] st hok
    rw [scanItems_cons] at hokstep
    rw [scanItemsCalls_cons]
    by_cases hseen : GetID item ∈ st.seen
    · simp only [hseen, if_true]
      exact ih st calls hok h
    · simp only [hseen, if_false] at hokstep ⊢
      by_cases hrej : f pfx tokenStr item = false
      · simp only [hrej, Bool.not_false, if_true] at hokstep ⊢
        simp only [scanItems] at hokstep
        apply ih _ _ hokstep
        exact callsInv_step f pfx tokenStr item st calls st.minHeap hok h hseen
          (fun r hr => Or.inl hr)
      · have hacc : f pfx tokenStr item = true := by
          cases hv : f pfx tokenStr item with
          | true => rfl
          | false => exact absurd hv hrej
        simp only [hacc, Bool.not_true, Bool.false_eq_true, if_false] at hokstep ⊢
        by_cases hlt : (st.minHeap.length : Int) < limit
        · simp only [hlt, if_true] at hokstep ⊢
          simp only [scanItems] at hokstep
          apply ih _ _ hokstep
          apply callsInv_step f pfx tokenStr item st calls _ hok h hseen
          intro r hr
          rcases List.mem_cons.mp ((Push_perm _ _).subset hr) with rfl | hr
          · exact Or.inr ⟨rfl, hacc⟩
          · exact Or.inl hr
        · simp only [hlt, if_false] at hokstep ⊢
          cases hhead : st.minHeap.head? with
          | none =>
            simp only
            exact callsInv_step f pfx tokenStr item st calls st.minHeap hok h hseen
              (fun r hr => Or.inl hr)
          | some lowest =>
            simp only [hhead] at hokstep ⊢
            by_cases hgt : GetRank item > lowest.Rank
            · simp only [hgt, if_true] at hokstep ⊢
              simp only [scanItems] at hokstep
              apply ih _ _ hokstep
              apply callsInv_step f pfx tokenStr item st calls _ hok h hseen
              intro r hr
              rcases List.mem_cons.mp ((Push_perm _ _).subset hr) with rfl | hr
              · exact Or.inr ⟨rfl, hacc⟩
              · exact Or.inl (Pop_subset st.minHeap lowest hhead hok.1 r hr)
            · simp only [hgt, if_false]
              exact callsInv_step f pfx tokenStr item st calls st.minHeap hok h hseen
                (fun r hr => Or.inl hr)

theorem scanTokensCalls_inv [DecidableEq ι] (f : String → String → T → Bool)
    (pfx : String) (limit : Int) (entries : List (String × List T)) (st : SearchState T ι)
    (calls : List (FilterCall T)) (hok : heapOK st) (h : callsInv f st calls) :
    callsInv f (scanTokensCalls pfx (some f) limit entries st calls).1
      (scanTokensCalls pfx (some f) limit entries st calls).2 := by
  induction entries generalizing st calls with
  | nil => exact h
  | cons e rest ih =>
    obtain ⟨token, items⟩ := e
    simp only [scanTokensCalls]
    split
    · exact ih st calls hok h
    · apply ih
      · rw [scanItemsCalls_state]
        exact scanItems_heapOK _ _ _ _ _ _ hok
      · exact scanItemsCalls_inv f pfx token limit items st calls hok h

theorem scanItems_seen_nodup [DecidableEq ι] (pfx tokenStr : String) (filterFn : ResultFilterFn T)
    (limit : Int) (items : List T) (st : SearchState T ι) (h : st.seen.Nodup) :
    (scanItems pfx tokenStr filterFn limit items st).seen.Nodup := by
  induction items generalizing st with
  | nil => exact h
  | cons item rest ih =>
    rw [scanItems_cons]
    split
    · exact ih st h
    · next hnew =>
      have h1 : (GetID item :: st.seen).Nodup := List.nodup_cons.mpr ⟨hnew, h⟩
      split
      · exact ih _ h1
      · split
        · exact ih _ h1
        · split
          · exact h1
          · split
            · exact ih _ h1
            · exact h1

theorem scanTokens_seen_nodup [DecidableEq ι] (pfx : String) (filterFn : ResultFilterFn T)
    (limit : Int) (entries : List (String × List T)) (st : SearchState T ι) (h : st.seen.Nodup) :
    (scanTokens pfx filterFn limit entries st).seen.Nodup := by
  induction entries generalizing st with
  | nil => exact h
  | cons e rest ih =>
    obtain ⟨token, items⟩ := e
    simp only [scanTokens]
    split
    · exact ih st h
    · exact ih _ (scanItems_seen_nodup _ _ _ _ _ _ h)

theorem scanItemsCalls_origin [DecidableEq ι] (pfx tokenStr : String) (filterFn : ResultFilterFn T)
    (limit : Int) (items : List T) (st : SearchState T ι) (calls : List (FilterCall T)) :
    ∀ c ∈ (scanItemsCalls pfx tokenStr filterFn limit items st calls).2,
      c ∈ calls ∨ (c.query = pfx ∧ c.token = tokenStr ∧ c.item ∈ items) := by
  induction items generalizing st calls with
  | nil => intro c hc; exact Or.inl hc
  | cons item rest ih =>
    have hlift : ∀ (st1 : SearchState T ι) (calls1 : List (FilterCall T)),
        (∀ c ∈ calls1, c ∈ calls ∨ (c.query = pfx ∧ c.token = tokenStr ∧ c.item = item)) →
        ∀ c ∈ (scanItemsCalls pfx tokenStr filterFn limit rest st1 calls1).2,
          c ∈ calls ∨ (c.query = pfx ∧ c.token = tokenStr ∧ c.item ∈ item :: rest) := by
      intro st1 calls1 h1 c hc
      rcases ih st1 calls1 c hc with h | ⟨hq, ht, hi⟩
      · rcases h1 c h with h | ⟨hq, ht, hi⟩
        · exact Or.inl h
        · exact Or.inr ⟨hq, ht, hi ▸ List.mem_cons_self _ _⟩
      · exact Or.inr ⟨hq, ht, List.mem_cons_of_mem _ hi⟩
    have hcalls1 : ∀ c ∈ (match filterFn with
          | none => calls
          | some _ => calls ++ [(⟨pfx, tokenStr, item⟩ : FilterCall T)]),
        c ∈ calls ∨ (c.query = pfx ∧ c.token = tokenStr ∧ c.item = item) := by
      intro c hc
      cases filterFn with
      | none => exact Or.inl hc
      | some f =>
        simp only [List.mem_append, List.mem_singleton] at hc
        rcases hc with hc | hc
        · exact Or.inl hc
        · subst hc; exact Or.inr ⟨rfl, rfl, rfl⟩
    have hfinal : ∀ c ∈ (match filterFn with
          | none => calls
          | some _ => calls ++ [(⟨pfx, tokenStr, item⟩ : FilterCall T)]),
        c ∈ calls ∨ (c.query = pfx ∧ c.token = tokenStr ∧ c.item ∈ item :: rest) := by
      intro c hc
      rcases hcalls1 c hc with h | ⟨hq, ht, hi⟩
      · exact Or.inl h
      · exact Or.inr ⟨hq, ht, hi ▸ List.mem_cons_self _ _⟩
    rw [scanItemsCalls_cons]
    split
    · exact hlift st calls (fun c hc => Or.inl hc)
    · split
      · exact hlift _ _ hcalls1
      · split
        · exact hlift _ _ hcalls1
        · split
          · exact hfinal
          · split
            · exact hlift _ _ hcalls1
            · exact hfinal

theorem scanTokensCalls_origin [DecidableEq ι] (pfx : String) (filterFn : ResultFilterFn T)
    (limit : Int) (entries : List (String × List T)) (st : SearchState T ι)
    (calls : List (FilterCall T)) :
    ∀ c ∈ (scanTokensCalls pfx filterFn limit entries st calls).2,
      c ∈ calls ∨ (c.query = pfx ∧ ∃ e ∈ entries, e.1 = c.token ∧ c.item ∈ e.2) := by
  induction entries generalizing st calls with
  | nil => intro c hc; exact Or.inl hc
  | cons e rest ih =>
    obtain ⟨token, items⟩ := e
    intro c hc
    simp only [scanTokensCalls] at hc
    split at hc
    · rcases ih st calls c hc with h | ⟨hq, e, he, h2⟩
      · exact Or.inl h
      · exact Or.inr ⟨hq, e, List.mem_cons_of_mem _ he, h2⟩
    · rcases ih _ _ c hc with h | ⟨hq, e, he, h2⟩
      · rcases scanItemsCalls_origin pfx token filterFn limit items st calls c h with
          h | ⟨hq, ht, hi⟩
        · exact Or.inl h
        · exact Or.inr ⟨hq, (token, items), List.mem_cons_self _ _, ht.symm, hi⟩
      · exact Or.inr ⟨hq, e, List.mem_cons_of_mem _ he, h2⟩


end Search

/-! ## IndexItems -/

section Indexing

variable {T ι : Type} [IndexableItem T ι]

theorem Tree_Get_Insert {V : Type} (t : Tree V) (k k1 : String) (v : V) :
    (t.Insert k v).Get k1 = if k1 = k then some v else t.Get k1 := by
  obtain ⟨es⟩ := t
  unfold Tree.Insert Tree.Get
  simp only
  induction es with
  | nil =>
    simp only [Tree.insertEntry, List.find?]
    by_cases h : k1 = k
    · simp [h]
    · have : ¬ k = k1 := fun e => h e.symm
      simp [h, this]
  | cons e rest ih =>
    obtain ⟨k2, v2⟩ := e
    simp only [Tree.insertEntry]
    by_cases h1 : k = k2
    · subst h1
      simp only [if_true, List.find?]
      by_cases h : k1 = k
      · simp [h]
      · have : ¬ k = k1 := fun e => h e.symm
        simp [h, this]
    · simp only [h1, if_false]
      split
      · simp only [List.find?]
        by_cases h : k1 = k
        · simp [h]
        · have : ¬ k = k1 := fun e => h e.symm
          simp [h, this]
      · simp only [List.find?]
        by_cases h2 : k2 = k1
        · have : ¬ k1 = k := by rw [← h2]; exact fun e => h1 e.symm
          simp [h2, this]
        · simp only [h2, decide_False]
          exact ih

theorem invGet_appendToken (inv : invertedIndex T) (token t : String) (item : T) :
    invGet (appendToken token item inv) t =
      if t = token then some ((invGet inv t).getD [] ++ [item]) else invGet inv t := by
  unfold invGet
  induction inv with
  | nil =>
    simp only [appendToken, List.find?]
    by_cases h : t = token
    · simp [h]
    · have : ¬ token = t := fun e => h e.symm
      simp [h, this]
  | cons e rest ih =>
    obtain ⟨k, v⟩ := e
    simp only [appendToken]
    by_cases h1 : k = token
    · subst h1
      simp only [if_true, List.find?]
      by_cases h : t = k
      · simp [h]
      · have : ¬ k = t := fun e => h e.symm
        simp [h, this]
    · simp only [h1, if_false, List.find?]
      by_cases h2 : k = t
      · have : ¬ t = token := by rw [← h2]; exact h1
        simp [h2, this]
      · simp only [h2, decide_False]
        exact ih

theorem keys_appendToken (inv : invertedIndex T) (token : String) (item : T)
    (hnd : (inv.map Prod.fst).Nodup) :
    ((appendToken token item inv).map Prod.fst).Nodup ∧
    ∀ k, k ∈ (appendToken token item inv).map Prod.fst ↔ k = token ∨ k ∈ inv.map Prod.fst := by
  induction inv with
  | nil => simp [appendToken]
  | cons e rest ih =>
    obtain ⟨k, v⟩ := e
    simp only [List.map_cons, List.nodup_cons] at hnd
    obtain ⟨ih1, ih2⟩ := ih hnd.2
    simp only [appendToken]
    by_cases h1 : k = token
    · subst h1
      simp only [if_true, List.map_cons, List.nodup_cons, List.mem_cons]
      exact ⟨hnd, fun k1 => by tauto⟩
    · simp only [h1, if_false, List.map_cons, List.nodup_cons, List.mem_cons]
      refine ⟨⟨?_, ih1⟩, fun k1 => by rw [ih2]; tauto⟩
      rw [ih2]
      intro hc
      rcases hc with hc | hc
      · exact h1 hc
      · exact hnd.1 hc

theorem extendPosting_nil (o : Option (List T)) : extendPosting o [] = o := rfl

theorem extendPosting_append (o : Option (List T)) (l1 l2 : List T) :
    extendPosting (extendPosting o l1) l2 = extendPosting o (l1 ++ l2) := by
  cases l1 with
  | nil => rfl
  | cons a t1 =>
    cases l2 with
    | nil => simp [extendPosting]
    | cons b t2 => simp [extendPosting]

theorem invGet_appendToken_ext (inv : invertedIndex T) (token t : String) (item : T) :
    invGet (appendToken token item inv) t =
      extendPosting (invGet inv t) (if t = token then [item] else []) := by
  rw [invGet_appendToken]
  by_cases h : t = token
  · simp [h, extendPosting]
  · simp [h, extendPosting]

theorem invGet_foldl_appendToken (tokens : List String) (inv : invertedIndex T) (t : String)
    (item : T) :
    invGet (tokens.foldl (fun m token => appendToken token item m) inv) t =
      extendPosting (invGet inv t) ((tokens.filter (fun s => s = t)).map (fun _ => item)) := by
  induction tokens generalizing inv with
  | nil => simp [extendPosting_nil]
  | cons tok rest ih =>
    simp only [List.foldl_cons]
    rw [ih, invGet_appendToken_ext, extendPosting_append]
    congr 1
    by_cases h : t = tok
    · subst h; simp
    · have : ¬ tok = t := fun e => h e.symm
      simp [h, this]

theorem keys_foldl_appendToken (tokens : List String) (inv : invertedIndex T) (item : T)
    (hnd : (inv.map Prod.fst).Nodup) :
    ((tokens.foldl (fun m token => appendToken token item m) inv).map Prod.fst).Nodup := by
  induction tokens generalizing inv with
  | nil => exact hnd
  | cons tok rest ih =>
    simp only [List.foldl_cons]
    exact ih _ (keys_appendToken inv tok item hnd).1

theorem buildInvertedIndex_ok (idx : Index T) (items : List T) (inv inv1 : invertedIndex T)
    (h : buildInvertedIndex idx items inv = .ok inv1) (hnd : (inv.map Prod.fst).Nodup) :
    (inv1.map Prod.fst).Nodup ∧
    ∀ t, invGet inv1 t = extendPosting (invGet inv t) (batchPostings idx.tokenizer items t) := by
  induction items generalizing inv with
  | nil =>
    simp only [buildInvertedIndex, Except.ok.injEq] at h
    subst h
    exact ⟨hnd, fun t => by simp [batchPostings, extendPosting_nil]⟩
  | cons item rest ih =>
    simp only [buildInvertedIndex, addToInvertedIndex] at h
    by_cases hlen : (idx.tokenizer.Tokenize item).length = 0
    · simp [hlen] at h
    · simp only [hlen, if_false] at h
      obtain ⟨h1, h2⟩ := ih _ h (keys_foldl_appendToken _ inv item hnd)
      refine ⟨h1, fun t => ?_⟩
      rw [h2, invGet_foldl_appendToken, extendPosting_append]
      simp [batchPostings]

theorem buildInvertedIndex_error_iff (idx : Index T) (items : List T) (inv : invertedIndex T) :
    (∃ err, buildInvertedIndex idx items inv = .error err) ↔
      ∃ item ∈ items, idx.tokenizer.Tokenize item = [] := by
  induction items generalizing inv with
  | nil => simp [buildInvertedIndex]
  | cons item rest ih =>
    simp only [buildInvertedIndex, addToInvertedIndex]
    by_cases htok : idx.tokenizer.Tokenize item = []
    · simp [htok]
    · have hlen : ¬ (idx.tokenizer.Tokenize item).length = 0 := by
        intro e; exact htok (List.length_eq_zero.mp e)
      simp only [hlen, if_false, List.mem_cons, exists_eq_or_imp, htok, false_or]
      exact ih _

theorem invGet_isSome_iff (inv : invertedIndex T) (t : String) :
    (invGet inv t).isSome ↔ t ∈ inv.map Prod.fst := by
  unfold invGet
  induction inv with
  | nil => simp
  | cons e rest ih =>
    obtain ⟨k, v⟩ := e
    simp only [List.find?, List.map_cons, List.mem_cons]
    by_cases h : k = t
    · simp [h]
    · have : ¬ t = k := fun e => h e.symm
      simp only [h, decide_False, this, false_or]
      exact ih

theorem Get_foldl_commitToken (inv : invertedIndex T) (tree : Tree (List T)) (t : String)
    (hnd : (inv.map Prod.fst).Nodup) :
    (inv.foldl commitToken tree).Get t =
      match invGet inv t with
      | some l => some (committed l)
      | none => tree.Get t := by
  induction inv generalizing tree with
  | nil => simp [invGet]
  | cons e rest ih =>
    obtain ⟨k, v⟩ := e
    simp only [List.map_cons, List.nodup_cons] at hnd
    simp only [List.foldl_cons]
    rw [ih _ hnd.2]
    by_cases h : k = t
    · subst h
      have hnone : invGet rest k = none := by
        have := invGet_isSome_iff rest k
        cases hg : invGet rest k with
        | none => rfl
        | some l =>
          rw [hg] at this
          exact absurd (this.mp rfl) hnd.1
      rw [hnone]
      simp only [invGet, List.find?, decide_True, Option.map_some']
      simp [commitToken, Tree_Get_Insert, committed]
    · have hinv : invGet ((k, v) :: rest) t = invGet rest t := by
        simp [invGet, List.find?, h]
      rw [hinv]
      cases invGet rest t with
      | some l => rfl
      | none =>
        have : ¬ t = k := fun e => h e.symm
        simp [commitToken, Tree_Get_Insert, this]

theorem insertLeft_perm {α : Type} (cmp : α → α → Int) (x : α) (ys : List α) :
    (insertLeft cmp x ys).Perm (x :: ys) := by
  induction ys with
  | nil => exact List.Perm.refl _
  | cons y t ih =>
    simp only [insertLeft]
    split
    · exact (ih.cons y).trans (List.Perm.swap x y t)
    · exact List.Perm.refl _

theorem foldl_insertLeft_perm {α : Type} (cmp : α → α → Int) (l acc : List α) :
    (l.foldl (fun sorted x => insertLeft cmp x sorted) acc).Perm (l ++ acc) := by
  induction l generalizing acc with
  | nil => exact List.Perm.refl _
  | cons x t ih =>
    simp only [List.foldl_cons]
    refine (ih _).trans ?_
    refine (List.Perm.append_left t (insertLeft_perm cmp x acc)).trans ?_
    exact List.perm_middle

theorem sortFunc_perm {α : Type} (cmp : α → α → Int) (l : List α) : (sortFunc cmp l).Perm l := by
  unfold sortFunc
  refine (List.reverse_perm _).trans ?_
  simpa using foldl_insertLeft_perm cmp l []

theorem committed_perm (l : List T) : (committed l).Perm l := by
  unfold committed
  split
  · exact sortFunc_perm _ _
  · exact List.Perm.refl _

theorem mem_batchPostings (tk : Tokenizer T) (items : List T) (t : String) (x : T) :
    x ∈ batchPostings tk items t ↔ x ∈ items ∧ t ∈ tk.Tokenize x := by
  unfold batchPostings
  simp only [List.mem_flatMap, List.mem_map, List.mem_filter, decide_eq_true_eq]
  constructor
  · rintro ⟨item, hitem, s, ⟨hs, rfl⟩, rfl⟩
    exact ⟨hitem, hs⟩
  · rintro ⟨hx, ht⟩
    exact ⟨x, hx, t, ⟨ht, rfl⟩, rfl⟩

theorem IndexItems_ok (idx idx2 : Index T) (items : List T)
    (h : (idx.IndexItems items).1 = some idx2) :
    idx2.tokenizer = idx.tokenizer ∧
    ∀ t, idx2.index.Get t =
      match batchPostings idx.tokenizer items t with
      | [] => idx.index.Get t
      | x :: rest => some (committed (x :: rest)) := by
  unfold Index.IndexItems at h
  by_cases hlen : items.length = 0
  · simp [hlen] at h
  · simp only [hlen, if_false] at h
    cases hb : buildInvertedIndex idx items [] with
    | error err => rw [hb] at h; simp at h
    | ok inv =>
      rw [hb] at h
      simp only [Option.some.injEq] at h
      subst h
      obtain ⟨hnd, hget⟩ := buildInvertedIndex_ok idx items [] inv hb (by simp)
      refine ⟨rfl, fun t => ?_⟩
      simp only
      rw [Get_foldl_commitToken inv idx.index t hnd, hget t]
      cases batchPostings idx.tokenizer items t with
      | nil => simp [extendPosting, invGet]
      | cons x rest => simp [extendPosting, invGet]


theorem wrapInt_of_inIntRange (x : Int) (h : inIntRange x) : wrapInt x = x := by
  unfold inIntRange minInt maxInt at h
  unfold wrapInt
  omega

theorem insertLeft_sorted (x : T) (ys : List T)
    (hfit : ∀ y ∈ ys, inIntRange (GetRank y - GetRank x))
    (hs : ys.Pairwise (fun a b => GetRank a ≤ GetRank b)) :
    (insertLeft rankCmp x ys).Pairwise (fun a b => GetRank a ≤ GetRank b) := by
  induction ys with
  | nil => simp [insertLeft]
  | cons y t ih =>
    have hy := List.pairwise_cons.mp hs
    have hxy : rankCmp x y = GetRank y - GetRank x :=
      wrapInt_of_inIntRange _ (hfit y (List.mem_cons_self _ _))
    simp only [insertLeft]
    split
    · next hlt =>
      rw [hxy] at hlt
      refine List.pairwise_cons.mpr ⟨?_, ih (fun z hz => hfit z (List.mem_cons_of_mem _ hz)) hy.2⟩
      intro z hz
      rcases List.mem_cons.mp ((insertLeft_perm rankCmp x t).subset hz) with rfl | hz
      · omega
      · exact hy.1 z hz
    · next hge =>
      rw [hxy] at hge
      refine List.pairwise_cons.mpr ⟨?_, hs⟩
      intro z hz
      rcases List.mem_cons.mp hz with rfl | hz
      · omega
      · have := hy.1 z hz
        omega

theorem foldl_insertLeft_sorted (l acc : List T) (hfit : rankDiffFits (l ++ acc))
    (hs : acc.Pairwise (fun a b => GetRank a ≤ GetRank b)) :
    (l.foldl (fun sorted x => insertLeft rankCmp x sorted) acc).Pairwise
      (fun a b => GetRank a ≤ GetRank b) := by
  induction l generalizing acc with
  | nil => exact hs
  | cons x t ih =>
    simp only [List.foldl_cons]
    apply ih
    · intro a ha b hb
      have hmem : ∀ z, z ∈ t ++ insertLeft rankCmp x acc → z ∈ x :: t ++ acc := by
        intro z hz
        rcases List.mem_append.mp hz with hz | hz
        · simp [hz]
        · rcases List.mem_cons.mp ((insertLeft_perm rankCmp x acc).subset hz) with rfl | hz
          · simp
          · simp [hz]
      exact hfit a (hmem a ha) b (hmem b hb)
    · apply insertLeft_sorted x acc _ hs
      intro y hy
      exact hfit x (by simp) y (by simp [hy])

theorem sortFunc_sorted (l : List T) (hfit : rankDiffFits l) :
    rankSorted (sortFunc rankCmp l) := by
  unfold sortFunc rankSorted
  rw [List.pairwise_reverse]
  exact foldl_insertLeft_sorted l [] (by simpa using hfit) List.Pairwise.nil

theorem committed_sorted (l : List T) (hfit : rankDiffFits l) : rankSorted (committed l) := by
  unfold committed
  split
  · exact sortFunc_sorted l hfit
  · next hlen =>
    unfold rankSorted
    match l, hlen with
    | [], _ => exact List.Pairwise.nil
    | [a], _ => exact List.pairwise_singleton _ _
    | a :: b :: t, hlen => simp at hlen

theorem mem_insertEntry {V : Type} (k : String) (v : V) (es : List (String × V))
    (e : String × V) (h : e ∈ Tree.insertEntry k v es) : e = (k, v) ∨ e ∈ es := by
  induction es with
  | nil => simpa [Tree.insertEntry] using h
  | cons e1 rest ih =>
    obtain ⟨k1, v1⟩ := e1
    simp only [Tree.insertEntry] at h
    split at h
    · rcases List.mem_cons.mp h with h | h
      · exact Or.inl h
      · exact Or.inr (List.mem_cons_of_mem _ h)
    · split at h
      · rcases List.mem_cons.mp h with h | h
        · exact Or.inl h
        · exact Or.inr h
      · rcases List.mem_cons.mp h with h | h
        · exact Or.inr (h ▸ List.mem_cons_self _ _)
        · rcases ih h with h | h
          · exact Or.inl h
          · exact Or.inr (List.mem_cons_of_mem _ h)

theorem mem_foldl_commitToken (inv : invertedIndex T) (tree : Tree (List T))
    (e : String × List T) (h : e ∈ (inv.foldl commitToken tree).entries) :
    e ∈ tree.entries ∨ ∃ kv ∈ inv, e = (kv.1, committed kv.2) := by
  induction inv generalizing tree with
  | nil => exact Or.inl h
  | cons kv rest ih =>
    simp only [List.foldl_cons] at h
    rcases ih _ h with h1 | ⟨kv1, hkv1, he⟩
    · rcases mem_insertEntry _ _ _ _ h1 with h2 | h2
      · exact Or.inr ⟨kv, List.mem_cons_self _ _, h2⟩
      · exact Or.inl h2
    · exact Or.inr ⟨kv1, List.mem_cons_of_mem _ hkv1, he⟩

theorem invGet_of_mem (inv : invertedIndex T) (kv : String × List T)
    (hnd : (inv.map Prod.fst).Nodup) (h : kv ∈ inv) : invGet inv kv.1 = some kv.2 := by
  induction inv with
  | nil => simp at h
  | cons e rest ih =>
    simp only [List.map_cons, List.nodup_cons] at hnd
    rcases List.mem_cons.mp h with h | h
    · subst h
      simp [invGet, List.find?]
    · have hne : ¬ e.1 = kv.1 := by
        intro heq
        apply hnd.1
        rw [heq]
        exact List.mem_map_of_mem _ h
      simp only [invGet, List.find?, hne, decide_False]
      exact ih hnd.2 h

theorem buildInvertedIndex_mem (idx : Index T) (items : List T) (inv : invertedIndex T)
    (h : buildInvertedIndex idx items [] = .ok inv) (kv : String × List T) (hkv : kv ∈ inv) :
    kv.2 = batchPostings idx.tokenizer items kv.1 := by
  obtain ⟨hnd, hget⟩ := buildInvertedIndex_ok idx items [] inv h (by simp)
  have h1 := invGet_of_mem inv kv hnd hkv
  rw [hget] at h1
  cases hb : batchPostings idx.tokenizer items kv.1 with
  | nil => rw [hb] at h1; simp [extendPosting, invGet] at h1
  | cons x rest =>
    rw [hb] at h1
    simp [extendPosting, invGet] at h1
    exact h1.symm

theorem postingsSorted_New (opts : List (IndexOption T)) : postingsSorted (New opts) := by
  intro e he
  simp [New, Tree.New] at he

theorem IndexItems_postingsSorted (idx idx2 : Index T) (items : List T)
    (h : (idx.IndexItems items).1 = some idx2) (hs : postingsSorted idx)
    (hfit : rankDiffFits items) : postingsSorted idx2 := by
  unfold Index.IndexItems at h
  by_cases hlen : items.length = 0
  · simp [hlen] at h
  · simp only [hlen, if_false] at h
    cases hb : buildInvertedIndex idx items [] with
    | error err => rw [hb] at h; simp at h
    | ok inv =>
      rw [hb] at h
      simp only [Option.some.injEq] at h
      subst h
      intro e he
      rcases mem_foldl_commitToken inv idx.index e he with h1 | ⟨kv, hkv, rfl⟩
      · exact hs e h1
      · apply committed_sorted
        rw [buildInvertedIndex_mem idx items inv hb kv hkv]
        intro a ha b hb1
        exact hfit a ((mem_batchPostings _ _ _ _).mp ha).1 b ((mem_batchPostings _ _ _ _).mp hb1).1

theorem keyLess_irrefl (a : List Char) : keyLess a a = false := by
  induction a with
  | nil => rfl
  | cons c t ih => simp [keyLess, ih]

theorem keyLess_trans (a b c : List Char) (h1 : keyLess a b = true) (h2 : keyLess b c = true) :
    keyLess a c = true := by
  induction a generalizing b c with
  | nil =>
    cases b with
    | nil => simp [keyLess] at h1
    | cons y bs =>
      cases c with
      | nil => simp [keyLess] at h2
      | cons z cs => simp [keyLess]
  | cons x as ih =>
    cases b with
    | nil => simp [keyLess] at h1
    | cons y bs =>
      cases c with
      | nil => simp [keyLess] at h2
      | cons z cs =>
        simp only [keyLess] at h1 h2 ⊢
        by_cases hxy : x.toNat < y.toNat
        · by_cases hyz : y.toNat < z.toNat
          · have : x.toNat < z.toNat := by omega
            simp [this]
          · simp only [hyz, if_false] at h2
            by_cases hzy : z.toNat < y.toNat
            · simp [hzy] at h2
            · have : x.toNat < z.toNat := by omega
              simp [this]
        · simp only [hxy, if_false] at h1
          by_cases hyx : y.toNat < x.toNat
          · simp [hyx] at h1
          · simp only [hyx, if_false] at h1
            have hxy' : x.toNat = y.toNat := by omega
            by_cases hyz : y.toNat < z.toNat
            · have : x.toNat < z.toNat := by omega
              simp [this]
            · simp only [hyz, if_false] at h2
              by_cases hzy : z.toNat < y.toNat
              · simp [hzy] at h2
              · simp only [hzy, if_false] at h2
                have e1 : ¬ x.toNat < z.toNat := by omega
                have e2 : ¬ z.toNat < x.toNat := by omega
                simp only [e1, e2, if_false]
                exact ih bs cs h1 h2

theorem char_eq_of_toNat_eq (x y : Char) (h : x.toNat = y.toNat) : x = y := by
  apply Char.ext
  apply UInt32.ext
  exact h

theorem keyLess_total (a b : List Char) (hne : a ≠ b) :
    keyLess a b = true ∨ keyLess b a = true := by
  induction a generalizing b with
  | nil =>
    cases b with
    | nil => exact absurd rfl hne
    | cons y bs => left; simp [keyLess]
  | cons x as ih =>
    cases b with
    | nil => right; simp [keyLess]
    | cons y bs =>
      simp only [keyLess]
      by_cases hxy : x.toNat < y.toNat
      · left; simp [hxy]
      · by_cases hyx : y.toNat < x.toNat
        · right; simp [hyx]
        · have hxy' : x = y := char_eq_of_toNat_eq x y (by omega)
          subst hxy'
          have hne' : as ≠ bs := by
            intro e; exact hne (by rw [e])
          simp only [hxy, if_false]
          exact ih bs hne'

theorem string_data_ne (k k1 : String) (h : k ≠ k1) : k.data ≠ k1.data := by
  intro e
  apply h
  cases k; cases k1
  simp at e
  rw [e]

theorem insertEntry_WF {V : Type} (k : String) (v : V) (es : List (String × V))
    (h : es.Pairwise (fun a b => keyLess a.1.data b.1.data = true)) :
    (Tree.insertEntry k v es).Pairwise (fun a b => keyLess a.1.data b.1.data = true) := by
  induction es with
  | nil => simp [Tree.insertEntry]
  | cons e rest ih =>
    obtain ⟨k1, v1⟩ := e
    have hc := List.pairwise_cons.mp h
    simp only [Tree.insertEntry]
    split
    · next hk =>
      subst hk
      exact List.pairwise_cons.mpr ⟨hc.1, hc.2⟩
    · next hk =>
      split
      · next hlt =>
        refine List.pairwise_cons.mpr ⟨?_, h⟩
        intro b hb
        rcases List.mem_cons.mp hb with rfl | hb
        · exact hlt
        · exact keyLess_trans _ _ _ hlt (hc.1 b hb)
      · next hnlt =>
        have hgt : keyLess k1.data k.data = true := by
          rcases keyLess_total k.data k1.data (string_data_ne k k1 hk) with h1 | h1
          · exact absurd h1 hnlt
          · exact h1
        refine List.pairwise_cons.mpr ⟨?_, ih hc.2⟩
        intro b hb
        rcases mem_insertEntry k v rest b hb with rfl | hb
        · exact hgt
        · exact hc.1 b hb

theorem mem_keys_insertEntry {V : Type} (k : String) (v : V) (es : List (String × V))
    (t : String) :
    t ∈ (Tree.insertEntry k v es).map Prod.fst ↔ t = k ∨ t ∈ es.map Prod.fst := by
  induction es with
  | nil => simp [Tree.insertEntry]
  | cons e rest ih =>
    obtain ⟨k1, v1⟩ := e
    simp only [Tree.insertEntry]
    split
    · next hk => subst hk; simp
    · split
      · simp
      · simp only [List.map_cons, List.mem_cons, ih]
        tauto

theorem WF_foldl_commitToken (inv : invertedIndex T) (tree : Tree (List T)) (h : tree.WF) :
    (inv.foldl commitToken tree).WF := by
  induction inv generalizing tree with
  | nil => exact h
  | cons e rest ih =>
    simp only [List.foldl_cons]
    apply ih
    exact insertEntry_WF _ _ _ h

theorem mem_keys_foldl_commitToken (inv : invertedIndex T) (tree : Tree (List T)) (t : String) :
    t ∈ (inv.foldl commitToken tree).entries.map Prod.fst ↔
      t ∈ tree.entries.map Prod.fst ∨ t ∈ inv.map Prod.fst := by
  induction inv generalizing tree with
  | nil => simp
  | cons e rest ih =>
    simp only [List.foldl_cons, List.map_cons, List.mem_cons]
    rw [ih]
    simp only [commitToken, Tree.Insert, mem_keys_insertEntry]
    tauto

theorem WF_keys_nodup {V : Type} (t : Tree V) (h : t.WF) : (t.entries.map Prod.fst).Nodup := by
  unfold Tree.WF at h
  rw [List.Nodup, List.pairwise_map]
  refine h.imp ?_
  intro a b hab heq
  rw [heq, keyLess_irrefl] at hab
  exact absurd hab (by simp)

theorem WF_New (opts : List (IndexOption T)) : (New opts).index.WF := by
  simp [New, Tree.New, Tree.WF]

theorem mem_inv_keys_iff (idx : Index T) (items : List T) (inv : invertedIndex T)
    (h : buildInvertedIndex idx items [] = .ok inv) (t : String) :
    t ∈ inv.map Prod.fst ↔ t ∈ batchTokens idx items := by
  obtain ⟨_, hget⟩ := buildInvertedIndex_ok idx items [] inv h (by simp)
  rw [← invGet_isSome_iff, hget t]
  unfold batchTokens
  simp only [List.mem_flatMap]
  cases hb : batchPostings idx.tokenizer items t with
  | nil =>
    simp only [extendPosting, invGet, List.find?, Option.map_none', Option.isSome_none,
      Bool.false_eq_true, false_iff, not_exists, not_and]
    intro item hitem htok
    have : item ∈ batchPostings idx.tokenizer items t :=
      (mem_batchPostings _ _ _ _).mpr ⟨hitem, htok⟩
    rw [hb] at this
    simp at this
  | cons x rest =>
    simp only [extendPosting, Option.isSome_some, true_iff]
    have : x ∈ batchPostings idx.tokenizer items t := by rw [hb]; simp
    exact ⟨x, (mem_batchPostings _ _ _ _).mp this⟩

theorem IndexItems_WF (idx idx2 : Index T) (items : List T)
    (h : (idx.IndexItems items).1 = some idx2) (hwf : idx.index.WF) : idx2.index.WF := by
  unfold Index.IndexItems at h
  by_cases hlen : items.length = 0
  · simp [hlen] at h
  · simp only [hlen, if_false] at h
    cases hb : buildInvertedIndex idx items [] with
    | error err => rw [hb] at h; simp at h
    | ok inv =>
      rw [hb] at h
      simp only [Option.some.injEq] at h
      subst h
      exact WF_foldl_commitToken inv idx.index hwf

theorem IndexItems_keys (idx idx2 : Index T) (items : List T)
    (h : (idx.IndexItems items).1 = some idx2) (t : String) :
    t ∈ idx2.keys ↔ t ∈ idx.keys ∨ t ∈ batchTokens idx items := by
  unfold Index.IndexItems at h
  by_cases hlen : items.length = 0
  · simp [hlen] at h
  · simp only [hlen, if_false] at h
    cases hb : buildInvertedIndex idx items [] with
    | error err => rw [hb] at h; simp at h
    | ok inv =>
      rw [hb] at h
      simp only [Option.some.injEq] at h
      subst h
      unfold Index.keys
      simp only
      rw [mem_keys_foldl_commitToken, mem_inv_keys_iff idx items inv hb]


theorem filter_eq_of_nodup (l : List String) (t : String) (h : l.Nodup) :
    l.filter (fun s => s = t) = if t ∈ l then [t] else [] := by
  induction l with
  | nil => simp
  | cons a r ih =>
    have hc := List.nodup_cons.mp h
    simp only [List.filter_cons]
    by_cases hat : a = t
    · subst hat
      have hnot : a ∉ r := hc.1
      simp only [decide_True, if_true, List.mem_cons, true_or, ih hc.2, hnot, if_false]
    · have hta : ¬ t = a := fun e => hat e.symm
      simp only [hat, decide_False, Bool.false_eq_true, if_false, ih hc.2, List.mem_cons, hta,
        false_or]

theorem batchPostings_eq_filter (tk : Tokenizer T) (items : List T) (t : String)
    (h : ∀ item ∈ items, (tk.Tokenize item).Nodup) :
    batchPostings tk items t = items.filter (fun item => decide (t ∈ tk.Tokenize item)) := by
  unfold batchPostings
  induction items with
  | nil => rfl
  | cons a r ih =>
    have ih1 := ih (fun x hx => h x (List.mem_cons_of_mem _ hx))
    simp only [List.flatMap_cons, ih1, List.filter_cons]
    rw [filter_eq_of_nodup _ t (h a (List.mem_cons_self _ _))]
    by_cases hm : t ∈ tk.Tokenize a
    · simp [hm]
    · simp [hm]


end Indexing

/-! ## The heap model of IndexItems: frame and agreement with the value model -/

section MemFrame
variable {T ι : Type} [IndexableItem T ι]

theorem extends_refl (h : Mem.Heap T) : Mem.Heap.extends h h :=
  ⟨le_refl _, fun _ _ => rfl, rfl⟩

theorem extends_trans (h0 h1 h2 : Mem.Heap T) (h01 : Mem.Heap.extends h0 h1)
    (h12 : Mem.Heap.extends h1 h2) : Mem.Heap.extends h0 h2 := by
  refine ⟨le_trans h01.1 h12.1, fun a ha => ?_, h12.2.2.trans h01.2.2⟩
  rw [h12.2.1 a (lt_of_lt_of_le ha h01.1), h01.2.1 a ha]

theorem makeSlice_extends (h : Mem.Heap T) :
    Mem.Heap.extends h (Mem.makeSlice h).1 ∧ (Mem.makeSlice h).2.ptr = h.arrays.length := by
  refine ⟨⟨?_, fun a ha => ?_, rfl⟩, rfl⟩
  · simp [Mem.makeSlice]
  · simp only [Mem.makeSlice]
    exact List.getElem?_append_left ha

theorem append_extends (grow : Nat → Nat) (h0 h : Mem.Heap T) (s : Mem.Slice) (x : T)
    (hext : Mem.Heap.extends h0 h) (hfresh : h0.arrays.length ≤ s.ptr) :
    Mem.Heap.extends h0 (Mem.append grow h s x).1 ∧
      h0.arrays.length ≤ (Mem.append grow h s x).2.ptr := by
  unfold Mem.append
  split
  · refine ⟨⟨?_, fun a ha => ?_, hext.2.2⟩, hfresh⟩
    · simp only [List.length_set]; exact hext.1
    · simp only
      rw [List.getElem?_set_ne (by omega)]
      exact hext.2.1 a ha
  · refine ⟨⟨?_, fun a ha => ?_, hext.2.2⟩, hext.1⟩
    · simp only [List.length_append, List.length_singleton]
      have := hext.1
      omega
    · simp only
      rw [List.getElem?_append_left (lt_of_lt_of_le ha hext.1)]
      exact hext.2.1 a ha

theorem appendToken_extends (grow : Nat → Nat) (token : String) (item : T) (h0 h : Mem.Heap T)
    (inv : Mem.invertedIndex) (hext : Mem.Heap.extends h0 h)
    (hfresh : ∀ e ∈ inv, h0.arrays.length ≤ e.2.ptr) :
    Mem.Heap.extends h0 (Mem.appendToken grow token item h inv).1 ∧
      ∀ e ∈ (Mem.appendToken grow token item h inv).2, h0.arrays.length ≤ e.2.ptr := by
  induction inv with
  | nil =>
    simp only [Mem.appendToken]
    obtain ⟨h1, h2⟩ := makeSlice_extends h
    have hx := extends_trans h0 h _ hext h1
    have := append_extends grow h0 (Mem.makeSlice h).1 (Mem.makeSlice h).2 item hx
      (by rw [h2]; exact hext.1)
    refine ⟨this.1, fun e he => ?_⟩
    simp only [List.mem_singleton] at he
    subst he
    exact this.2
  | cons e rest ih =>
    obtain ⟨k, s⟩ := e
    simp only [Mem.appendToken]
    split
    · have := append_extends grow h0 h s item hext (hfresh (k, s) (List.mem_cons_self _ _))
      refine ⟨this.1, fun e he => ?_⟩
      rcases List.mem_cons.mp he with he | he
      · subst he; exact this.2
      · exact hfresh e (List.mem_cons_of_mem _ he)
    · have := ih (fun e he => hfresh e (List.mem_cons_of_mem _ he))
      refine ⟨this.1, fun e he => ?_⟩
      rcases List.mem_cons.mp he with he | he
      · subst he; exact hfresh (k, s) (List.mem_cons_self _ _)
      · exact this.2 e he

theorem foldl_appendToken_extends (grow : Nat → Nat) (item : T) (tokens : List String)
    (h0 h : Mem.Heap T) (inv : Mem.invertedIndex) (hext : Mem.Heap.extends h0 h)
    (hfresh : ∀ e ∈ inv, h0.arrays.length ≤ e.2.ptr) :
    Mem.Heap.extends h0 (tokens.foldl (fun (st : Mem.Heap T × Mem.invertedIndex) token =>
        Mem.appendToken grow token item st.1 st.2) (h, inv)).1 ∧
      ∀ e ∈ (tokens.foldl (fun (st : Mem.Heap T × Mem.invertedIndex) token =>
        Mem.appendToken grow token item st.1 st.2) (h, inv)).2, h0.arrays.length ≤ e.2.ptr := by
  induction tokens generalizing h inv with
  | nil => exact ⟨hext, hfresh⟩
  | cons t rest ih =>
    simp only [List.foldl_cons]
    have := appendToken_extends grow t item h0 h inv hext hfresh
    exact ih _ _ this.1 this.2

theorem buildInvertedIndex_extends (grow : Nat → Nat) (idx : Mem.Index T) (items : List T)
    (h0 h : Mem.Heap T) (inv : Mem.invertedIndex) (hext : Mem.Heap.extends h0 h)
    (hfresh : ∀ e ∈ inv, h0.arrays.length ≤ e.2.ptr) :
    Mem.Heap.extends h0 (Mem.buildInvertedIndex grow idx items h inv).1 ∧
      ∀ inv1, (Mem.buildInvertedIndex grow idx items h inv).2 = .ok inv1 →
        ∀ e ∈ inv1, h0.arrays.length ≤ e.2.ptr := by
  induction items generalizing h inv with
  | nil =>
    simp only [Mem.buildInvertedIndex]
    refine ⟨hext, fun inv1 h1 => ?_⟩
    simp only [Except.ok.injEq] at h1
    subst h1
    exact hfresh
  | cons item rest ih =>
    simp only [Mem.buildInvertedIndex]
    by_cases hlen : (idx.tokenizer.Tokenize item).length = 0
    · simp only [Mem.addToInvertedIndex, hlen, if_true]
      refine ⟨hext, fun inv1 h1 => ?_⟩
      simp at h1
    · simp only [Mem.addToInvertedIndex, hlen, if_false]
      have := foldl_appendToken_extends grow item (idx.tokenizer.Tokenize item) h0 h inv
        hext hfresh
      exact ih _ _ this.1 this.2

theorem sortFunc_extends (cmp : T → T → Int) (h0 h : Mem.Heap T) (s : Mem.Slice)
    (hext : Mem.Heap.extends h0 h) (hfresh : h0.arrays.length ≤ s.ptr) :
    Mem.Heap.extends h0 (Mem.sortFunc cmp h s) := by
  refine ⟨?_, fun a ha => ?_, hext.2.2⟩
  · simp only [Mem.sortFunc, List.length_set]; exact hext.1
  · simp only [Mem.sortFunc]
    rw [List.getElem?_set_ne (by omega)]
    exact hext.2.1 a ha

theorem foldl_commitToken_extends (inv : Mem.invertedIndex) (h0 h : Mem.Heap T)
    (tx : Tree Mem.Slice) (hext : Mem.Heap.extends h0 h)
    (hfresh : ∀ e ∈ inv, h0.arrays.length ≤ e.2.ptr) :
    Mem.Heap.extends h0 (inv.foldl Mem.commitToken (h, tx)).1 := by
  induction inv generalizing h tx with
  | nil => exact hext
  | cons e rest ih =>
    simp only [List.foldl_cons]
    apply ih
    · simp only [Mem.commitToken]
      split
      · exact sortFunc_extends _ h0 h e.2 hext (hfresh e (List.mem_cons_self _ _))
      · exact hext
    · exact fun e1 he1 => hfresh e1 (List.mem_cons_of_mem _ he1)

end MemFrame

section MemRefine
variable {T ι : Type} [IndexableItem T ι]

theorem array_set_eq (h : Mem.Heap T) (p : Nat) (arr : List T) (hp : p < h.arrays.length) :
    ({ h with arrays := h.arrays.set p arr } : Mem.Heap T).array p = arr := by
  simp [Mem.Heap.array, List.getElem?_set_self hp]

theorem array_set_ne (h : Mem.Heap T) (p q : Nat) (arr : List T) (hq : q ≠ p) :
    ({ h with arrays := h.arrays.set p arr } : Mem.Heap T).array q = h.array q := by
  simp only [Mem.Heap.array]
  rw [List.getElem?_set_ne (Ne.symm hq)]

theorem array_append_lt (h : Mem.Heap T) (q : Nat) (arr : List T) (hq : q < h.arrays.length) :
    ({ h with arrays := h.arrays ++ [arr] } : Mem.Heap T).array q = h.array q := by
  simp only [Mem.Heap.array]
  rw [List.getElem?_append_left hq]

theorem array_append_eq (h : Mem.Heap T) (arr : List T) :
    ({ h with arrays := h.arrays ++ [arr] } : Mem.Heap T).array h.arrays.length = arr := by
  simp [Mem.Heap.array]

theorem append_spec (grow : Nat → Nat) (h : Mem.Heap T) (s : Mem.Slice) (x : T)
    (hp : s.ptr < h.arrays.length) (hl : s.len = (h.array s.ptr).length) :
    (Mem.append grow h s x).1.array (Mem.append grow h s x).2.ptr = h.array s.ptr ++ [x] ∧
    (Mem.append grow h s x).2.len = (h.array s.ptr ++ [x]).length ∧
    (Mem.append grow h s x).2.ptr < (Mem.append grow h s x).1.arrays.length ∧
    h.arrays.length ≤ (Mem.append grow h s x).1.arrays.length ∧
    ((Mem.append grow h s x).2.ptr = s.ptr ∨ (Mem.append grow h s x).2.ptr = h.arrays.length) ∧
    (∀ q, q ≠ s.ptr → q < h.arrays.length →
      (Mem.append grow h s x).1.array q = h.array q) := by
  by_cases hc : s.len < s.cap
  · have he : Mem.append grow h s x =
        ((⟨h.arrays.set s.ptr
            ((h.array s.ptr).take s.len ++ [x] ++ (h.array s.ptr).drop (s.len + 1)),
            h.structs⟩ : Mem.Heap T), (⟨s.ptr, s.len + 1, s.cap⟩ : Mem.Slice)) := by
      simp only [Mem.append, hc, if_true]
    rw [he]
    refine ⟨?_, ?_, ?_, ?_, Or.inl rfl, fun q hq _ => array_set_ne h s.ptr q _ hq⟩
    · show Mem.Heap.array _ s.ptr = _
      rw [array_set_eq h s.ptr _ hp, hl]
      simp
    · show s.len + 1 = _
      simp [hl]
    · show s.ptr < (h.arrays.set s.ptr _).length
      rw [List.length_set]; exact hp
    · show h.arrays.length ≤ (h.arrays.set s.ptr _).length
      rw [List.length_set]
  · have he : Mem.append grow h s x =
        ((⟨h.arrays ++ [Mem.readSlice h s ++ [x]], h.structs⟩ : Mem.Heap T),
          (⟨h.arrays.length, s.len + 1, max (s.len + 1) (grow s.cap)⟩ : Mem.Slice)) := by
      simp only [Mem.append, hc, if_false]
    rw [he]
    refine ⟨?_, ?_, ?_, ?_, Or.inr rfl, fun q _ hq => array_append_lt h q _ hq⟩
    · show Mem.Heap.array _ h.arrays.length = _
      rw [array_append_eq]
      simp [Mem.readSlice, hl]
    · show s.len + 1 = _
      simp [hl]
    · show h.arrays.length < (h.arrays ++ [_]).length
      simp
    · show h.arrays.length ≤ (h.arrays ++ [_]).length
      simp

theorem appendToken_spec (grow : Nat → Nat) (token : String) (item : T) (h : Mem.Heap T)
    (inv : Mem.invertedIndex) (hok : Mem.invOK h inv) :
    Mem.invOK (Mem.appendToken grow token item h inv).1 (Mem.appendToken grow token item h inv).2 ∧
    Mem.absInv (Mem.appendToken grow token item h inv).1 (Mem.appendToken grow token item h inv).2
      = Lodestar.appendToken token item (Mem.absInv h inv) ∧
    h.arrays.length ≤ (Mem.appendToken grow token item h inv).1.arrays.length ∧
    (∀ e ∈ (Mem.appendToken grow token item h inv).2,
      e.2.ptr ∈ inv.map (fun e => e.2.ptr) ∨ h.arrays.length ≤ e.2.ptr) ∧
    (∀ q, q ∉ inv.map (fun e => e.2.ptr) → q < h.arrays.length →
      (Mem.appendToken grow token item h inv).1.array q = h.array q) := by
  induction inv with
  | nil =>
    simp only [Mem.appendToken]
    have hm : (Mem.makeSlice h).2.ptr < (Mem.makeSlice h).1.arrays.length := by
      simp [Mem.makeSlice]
    have hma : (Mem.makeSlice h).1.array (Mem.makeSlice h).2.ptr = [] := by
      simp only [Mem.makeSlice]
      exact array_append_eq h []
    have hml : (Mem.makeSlice h).2.len = ((Mem.makeSlice h).1.array (Mem.makeSlice h).2.ptr).length := by
      rw [hma]; rfl
    obtain ⟨a1, a2, a3, a4, a5, a6⟩ :=
      append_spec grow (Mem.makeSlice h).1 (Mem.makeSlice h).2 item hm hml
    have hlen : (Mem.makeSlice h).1.arrays.length = h.arrays.length + 1 := by
      simp [Mem.makeSlice]
    have hptr : (Mem.makeSlice h).2.ptr = h.arrays.length := rfl
    refine ⟨⟨by simp, ?_⟩, ?_, by omega, ?_, ?_⟩
    · intro e he
      simp only [List.mem_singleton] at he
      subst he
      exact ⟨a3, by rw [a2, a1]⟩
    · simp only [Mem.absInv, List.map_cons, List.map_nil, Lodestar.appendToken, a1, hma,
        List.nil_append]
    · intro e he
      simp only [List.mem_singleton] at he
      subst he
      right
      simp only
      rcases a5 with a5 | a5
      · rw [a5, hptr]
      · rw [a5, hlen]; omega
    · intro q _ hq
      rw [a6 q (by rw [hptr]; omega) (by rw [hlen]; omega)]
      simp only [Mem.makeSlice]
      exact array_append_lt h q _ hq
  | cons e rest ih =>
    obtain ⟨k, s⟩ := e
    obtain ⟨hnd, hall⟩ := hok
    simp only [List.map_cons, List.nodup_cons] at hnd
    have hs : s.ptr < h.arrays.length ∧ s.len = (h.array s.ptr).length :=
      hall (k, s) (List.mem_cons_self _ _)
    have hrest : Mem.invOK h rest :=
      ⟨hnd.2, fun e he => hall e (List.mem_cons_of_mem _ he)⟩
    simp only [Mem.appendToken]
    by_cases hk : k = token
    · simp only [hk, if_true]
      obtain ⟨a1, a2, a3, a4, a5, a6⟩ := append_spec grow h s item hs.1 hs.2
      have hne : ∀ e ∈ rest, e.2.ptr ≠ s.ptr := by
        intro e he heq
        exact hnd.1 (List.mem_map.mpr ⟨e, he, heq⟩)
      refine ⟨⟨?_, ?_⟩, ?_, a4, ?_, ?_⟩
      · simp only [List.map_cons, List.nodup_cons]
        refine ⟨?_, hnd.2⟩
        rcases a5 with a5 | a5
        · rw [a5]; exact hnd.1
        · rw [a5]
          intro hmem
          obtain ⟨e, he, heq⟩ := List.mem_map.mp hmem
          have := (hall e (List.mem_cons_of_mem _ he)).1
          omega
      · intro e he
        rcases List.mem_cons.mp he with he | he
        · subst he
          exact ⟨a3, by rw [a2, a1]⟩
        · have h1 := hall e (List.mem_cons_of_mem _ he)
          rw [a6 e.2.ptr (hne e he) h1.1]
          exact ⟨lt_of_lt_of_le h1.1 a4, h1.2⟩
      · simp only [Mem.absInv, List.map_cons, Lodestar.appendToken, if_true, a1]
        congr 1
        apply List.map_congr_left
        intro e he
        rw [a6 e.2.ptr (hne e he) (hall e (List.mem_cons_of_mem _ he)).1]
      · intro e he
        rcases List.mem_cons.mp he with he | he
        · subst he
          rcases a5 with a5 | a5
          · left; simp [a5]
          · right; simp [a5]
        · left
          exact List.mem_cons_of_mem _ (List.mem_map.mpr ⟨e, he, rfl⟩)
      · intro q hq hlt
        apply a6 q _ hlt
        intro heq
        apply hq
        rw [heq]
        exact List.mem_cons_self _ _
    · simp only [hk, if_false]
      obtain ⟨i1, i2, i3, i4, i5⟩ := ih hrest
      refine ⟨⟨?_, ?_⟩, ?_, i3, ?_, ?_⟩
      · simp only [List.map_cons, List.nodup_cons]
        refine ⟨?_, i1.1⟩
        intro hmem
        obtain ⟨e, he, heq⟩ := List.mem_map.mp hmem
        rcases i4 e he with h1 | h1
        · rw [heq] at h1; exact hnd.1 h1
        · rw [heq] at h1
          have := hs.1
          omega
      · intro e he
        rcases List.mem_cons.mp he with he | he
        · subst he
          rw [i5 s.ptr hnd.1 hs.1]
          exact ⟨lt_of_lt_of_le hs.1 i3, hs.2⟩
        · exact i1.2 e he
      · simp only [Mem.absInv, List.map_cons, Lodestar.appendToken, hk, if_false]
        rw [i5 s.ptr hnd.1 hs.1]
        congr 1
      · intro e he
        rcases List.mem_cons.mp he with he | he
        · subst he; left; exact List.mem_cons_self _ _
        · rcases i4 e he with h1 | h1
          · left; exact List.mem_cons_of_mem _ h1
          · right; exact h1
      · intro q hq hlt
        apply i5 q _ hlt
        intro hmem
        exact hq (List.mem_cons_of_mem _ hmem)

end MemRefine

section MemRefine2
variable {T ι : Type} [IndexableItem T ι]

theorem foldl_appendToken_spec (grow : Nat → Nat) (item : T) (tokens : List String)
    (h : Mem.Heap T) (inv : Mem.invertedIndex) (hok : Mem.invOK h inv) :
    Mem.invOK
      (tokens.foldl (fun (st : Mem.Heap T × Mem.invertedIndex) token =>
        Mem.appendToken grow token item st.1 st.2) (h, inv)).1
      (tokens.foldl (fun (st : Mem.Heap T × Mem.invertedIndex) token =>
        Mem.appendToken grow token item st.1 st.2) (h, inv)).2 ∧
    Mem.absInv
      (tokens.foldl (fun (st : Mem.Heap T × Mem.invertedIndex) token =>
        Mem.appendToken grow token item st.1 st.2) (h, inv)).1
      (tokens.foldl (fun (st : Mem.Heap T × Mem.invertedIndex) token =>
        Mem.appendToken grow token item st.1 st.2) (h, inv)).2
      = tokens.foldl (fun m token => Lodestar.appendToken token item m) (Mem.absInv h inv) := by
  induction tokens generalizing h inv with
  | nil => exact ⟨hok, rfl⟩
  | cons t rest ih =>
    simp only [List.foldl_cons]
    obtain ⟨a1, a2, _⟩ := appendToken_spec grow t item h inv hok
    rw [← a2]
    exact ih _ _ a1

theorem buildInvertedIndex_spec (grow : Nat → Nat) (idx : Mem.Index T) (idxA : Lodestar.Index T)
    (htk : idxA.tokenizer = idx.tokenizer) (items : List T) (h : Mem.Heap T)
    (inv : Mem.invertedIndex) (hok : Mem.invOK h inv) :
    match (Mem.buildInvertedIndex grow idx items h inv).2 with
    | .ok inv1 =>
      Mem.invOK (Mem.buildInvertedIndex grow idx items h inv).1 inv1 ∧
      Lodestar.buildInvertedIndex idxA items (Mem.absInv h inv)
        = .ok (Mem.absInv (Mem.buildInvertedIndex grow idx items h inv).1 inv1)
    | .error err =>
      Lodestar.buildInvertedIndex idxA items (Mem.absInv h inv) = .error err := by
  induction items generalizing h inv with
  | nil =>
    simp only [Mem.buildInvertedIndex, Lodestar.buildInvertedIndex]
    exact ⟨hok, trivial⟩
  | cons item rest ih =>
    simp only [Mem.buildInvertedIndex, Lodestar.buildInvertedIndex]
    by_cases hlen : (idx.tokenizer.Tokenize item).length = 0
    · simp only [Mem.addToInvertedIndex, Lodestar.addToInvertedIndex, htk, hlen, if_true]
    · simp only [Mem.addToInvertedIndex, Lodestar.addToInvertedIndex, htk, hlen, if_false]
      obtain ⟨f1, f2⟩ := foldl_appendToken_spec grow item (idx.tokenizer.Tokenize item) h inv hok
      rw [← f2]
      exact ih _ _ f1

theorem insertEntry_map {V W : Type} (f : V → W) (k : String) (v : V)
    (es : List (String × V)) :
    (Tree.insertEntry k v es).map (fun e => (e.1, f e.2))
      = Tree.insertEntry k (f v) (es.map (fun e => (e.1, f e.2))) := by
  induction es with
  | nil => rfl
  | cons e rest ih =>
    obtain ⟨k1, v1⟩ := e
    simp only [Tree.insertEntry, List.map_cons]
    split
    · rfl
    · split
      · rfl
      · simp only [List.map_cons, ih]

theorem readTree_congr (h h1 : Mem.Heap T) (tx : Tree Mem.Slice)
    (hsame : ∀ e ∈ tx.entries, h1.array e.2.ptr = h.array e.2.ptr) :
    Mem.readTree h1 tx = Mem.readTree h tx := by
  unfold Mem.readTree
  congr 1
  apply List.map_congr_left
  intro e he
  simp only [Mem.readSlice, hsame e he]

theorem sortFunc_length {α : Type} (cmp : α → α → Int) (l : List α) :
    (Lodestar.sortFunc cmp l).length = l.length :=
  (sortFunc_perm cmp l).length_eq

theorem commitToken_spec (h : Mem.Heap T) (tx : Tree Mem.Slice) (e : String × Mem.Slice)
    (hp : e.2.ptr < h.arrays.length) (hl : e.2.len = (h.array e.2.ptr).length)
    (hstable : ∀ e1 ∈ tx.entries, e1.2.ptr ≠ e.2.ptr) :
    Mem.readTree (Mem.commitToken (h, tx) e).1 (Mem.commitToken (h, tx) e).2
      = Lodestar.commitToken (Mem.readTree h tx) (e.1, h.array e.2.ptr) ∧
    (Mem.commitToken (h, tx) e).1.arrays.length = h.arrays.length ∧
    (∀ q, q ≠ e.2.ptr → (Mem.commitToken (h, tx) e).1.array q = h.array q) ∧
    (∀ e1 ∈ (Mem.commitToken (h, tx) e).2.entries, e1 = e ∨ e1 ∈ tx.entries) := by
  have hins : ∀ h1 : Mem.Heap T, Mem.readTree h1 (tx.Insert e.1 e.2)
      = (Mem.readTree h1 tx).Insert e.1 (Mem.readSlice h1 e.2) := by
    intro h1
    unfold Mem.readTree Tree.Insert
    simp only
    rw [insertEntry_map (fun s => Mem.readSlice h1 s)]
  have hmem : ∀ e1 ∈ (tx.Insert e.1 e.2).entries, e1 = e ∨ e1 ∈ tx.entries := by
    intro e1 he1
    exact mem_insertEntry e.1 e.2 tx.entries e1 he1
  by_cases hlen : e.2.len > 1
  · have hc : Mem.commitToken (h, tx) e = (Mem.sortFunc rankCmp h e.2, tx.Insert e.1 e.2) := by
      simp only [Mem.commitToken, hlen, if_true]
    rw [hc]
    have harr : ∀ q, q ≠ e.2.ptr → (Mem.sortFunc rankCmp h e.2).array q = h.array q :=
      fun q hq => array_set_ne h e.2.ptr q _ hq
    refine ⟨?_, ?_, harr, hmem⟩
    · show Mem.readTree (Mem.sortFunc rankCmp h e.2) (tx.Insert e.1 e.2) = _
      rw [hins, readTree_congr h _ tx (fun e1 he1 => harr _ (hstable e1 he1))]
      have hread : Mem.readSlice h e.2 = h.array e.2.ptr := by
        simp [Mem.readSlice, hl]
      have hsorted : Mem.readSlice (Mem.sortFunc rankCmp h e.2) e.2
          = Lodestar.sortFunc rankCmp (h.array e.2.ptr) := by
        unfold Mem.readSlice
        have : (Mem.sortFunc rankCmp h e.2).array e.2.ptr
            = Lodestar.sortFunc rankCmp (Mem.readSlice h e.2) ++ (h.array e.2.ptr).drop e.2.len :=
          array_set_eq h e.2.ptr _ hp
        rw [this, hread, hl]
        simp [sortFunc_length]
      rw [hsorted]
      have hlen2 : (h.array e.2.ptr).length > 1 := by rw [← hl]; exact hlen
      simp only [Lodestar.commitToken, hlen2, if_true]
    · show (h.arrays.set e.2.ptr _).length = _
      rw [List.length_set]
  · have hc : Mem.commitToken (h, tx) e = (h, tx.Insert e.1 e.2) := by
      simp only [Mem.commitToken, hlen, if_false]
    rw [hc]
    refine ⟨?_, rfl, fun _ _ => rfl, hmem⟩
    show Mem.readTree h (tx.Insert e.1 e.2) = _
    rw [hins]
    have hread : Mem.readSlice h e.2 = h.array e.2.ptr := by
      simp [Mem.readSlice, hl]
    have hlen2 : ¬ (h.array e.2.ptr).length > 1 := by rw [← hl]; exact hlen
    simp only [Lodestar.commitToken, hlen2, if_false, hread]

theorem foldl_commitToken_spec (inv : Mem.invertedIndex) (h : Mem.Heap T)
    (tx : Tree Mem.Slice) (hok : Mem.invOK h inv)
    (hstable : ∀ e1 ∈ tx.entries, e1.2.ptr ∉ inv.map (fun e => e.2.ptr)) :
    Mem.readTree (inv.foldl Mem.commitToken (h, tx)).1 (inv.foldl Mem.commitToken (h, tx)).2
      = (Mem.absInv h inv).foldl Lodestar.commitToken (Mem.readTree h tx) := by
  induction inv generalizing h tx with
  | nil => rfl
  | cons e rest ih =>
    obtain ⟨hnd, hall⟩ := hok
    simp only [List.map_cons, List.nodup_cons] at hnd
    have he := hall e (List.mem_cons_self _ _)
    have hst : ∀ e1 ∈ tx.entries, e1.2.ptr ≠ e.2.ptr := by
      intro e1 he1 heq
      exact hstable e1 he1 (by rw [heq]; exact List.mem_cons_self _ _)
    obtain ⟨c1, c2, c3, c4⟩ := commitToken_spec h tx e he.1 he.2 hst
    have hne : ∀ e1 ∈ rest, e1.2.ptr ≠ e.2.ptr := by
      intro e1 he1 heq
      exact hnd.1 (List.mem_map.mpr ⟨e1, he1, heq⟩)
    have hok1 : Mem.invOK (Mem.commitToken (h, tx) e).1 rest := by
      refine ⟨hnd.2, fun e1 he1 => ?_⟩
      have h1 := hall e1 (List.mem_cons_of_mem _ he1)
      rw [c2, c3 _ (hne e1 he1)]
      exact h1
    have hst1 : ∀ e1 ∈ (Mem.commitToken (h, tx) e).2.entries,
        e1.2.ptr ∉ rest.map (fun e => e.2.ptr) := by
      intro e1 he1
      rcases c4 e1 he1 with h1 | h1
      · rw [h1]; exact hnd.1
      · intro hmem
        exact hstable e1 h1 (List.mem_cons_of_mem _ hmem)
    have habs : Mem.absInv (Mem.commitToken (h, tx) e).1 rest = Mem.absInv h rest := by
      unfold Mem.absInv
      apply List.map_congr_left
      intro e1 he1
      rw [c3 _ (hne e1 he1)]
    have := ih (Mem.commitToken (h, tx) e).1 (Mem.commitToken (h, tx) e).2 hok1 hst1
    simp only [List.foldl_cons, Mem.absInv, List.map_cons]
    rw [habs, c1] at this
    exact this

end MemRefine2

section MemIndexItems
variable {T ι : Type} [IndexableItem T ι]

theorem array_of_extends (h0 h : Mem.Heap T) (hext : Mem.Heap.extends h0 h) (p : Nat)
    (hp : p < h0.arrays.length) : h.array p = h0.array p := by
  simp only [Mem.Heap.array, hext.2.1 p hp]

theorem readIndex_of_arrays (h h1 : Mem.Heap T) (idx : Mem.Index T)
    (hsame : ∀ e ∈ idx.index.entries, h1.array e.2.ptr = h.array e.2.ptr) :
    Mem.readIndex h1 idx = Mem.readIndex h idx := by
  unfold Mem.readIndex
  have := readTree_congr h h1 idx.index hsame
  unfold Mem.readTree at this
  rw [this]

theorem IndexItems_heap (grow : Nat → Nat) (h : Mem.Heap T) (recv : Nat) (items : List T)
    (idx : Mem.Index T) (hrecv : h.structs[recv]? = some idx) :
    ∃ h1 ret err, Mem.IndexItems grow h recv items = some (h1, ret, err) ∧
      (∀ p, p < h.arrays.length → h1.array p = h.array p) ∧
      (∀ a, a < h.arrays.length → h1.arrays[a]? = h.arrays[a]?) ∧
      (∀ a, a < h.structs.length → h1.structs[a]? = h.structs[a]?) := by
  unfold Mem.IndexItems
  by_cases hlen : items.length = 0
  · simp only [hlen, if_true]
    exact ⟨h, none, none, rfl, fun _ _ => rfl, fun _ _ => rfl, fun _ _ => rfl⟩
  · simp only [hlen, if_false, hrecv]
    have hb := buildInvertedIndex_extends grow idx items h h [] (extends_refl h)
      (by intro e he; simp at he)
    cases hr : Mem.buildInvertedIndex grow idx items h [] with
    | mk h1 res =>
      rw [hr] at hb
      cases res with
      | error err =>
        exact ⟨h1, none, some err, rfl, fun p hp => array_of_extends h h1 hb.1 p hp,
          hb.1.2.1, fun a _ => by rw [hb.1.2.2]⟩
      | ok inv =>
        have hc := foldl_commitToken_extends inv h h1 idx.index hb.1 (hb.2 inv rfl)
        refine ⟨_, _, _, rfl, fun p hp => ?_, hc.2.1, fun a ha => ?_⟩
        · exact array_of_extends h (inv.foldl Mem.commitToken (h1, idx.index)).1 hc p hp
        · simp only
          rw [hc.2.2]
          exact List.getElem?_append_left ha

theorem IndexItems_refines (grow : Nat → Nat) (h : Mem.Heap T) (recv : Nat) (items : List T)
    (idx : Mem.Index T) (hrecv : h.structs[recv]? = some idx)
    (hvalid : ∀ e ∈ idx.index.entries, e.2.ptr < h.arrays.length) :
    ∃ h1 ret err, Mem.IndexItems grow h recv items = some (h1, ret, err) ∧
      err = ((Mem.readIndex h idx).IndexItems items).2 ∧
      ret.bind h1.indexAt = ((Mem.readIndex h idx).IndexItems items).1 ∧
      ret.isSome = ((Mem.readIndex h idx).IndexItems items).1.isSome := by
  unfold Mem.IndexItems Lodestar.Index.IndexItems
  by_cases hlen : items.length = 0
  · simp only [hlen, if_true]
    exact ⟨h, none, none, rfl, rfl, rfl, rfl⟩
  · simp only [hlen, if_false, hrecv]
    have hb := buildInvertedIndex_extends grow idx items h h [] (extends_refl h)
      (by intro e he; simp at he)
    have hs := buildInvertedIndex_spec grow idx (Mem.readIndex h idx) rfl items h []
      ⟨by simp, by intro e he; simp at he⟩
    have habs0 : Mem.absInv h ([] : Mem.invertedIndex) = [] := rfl
    rw [habs0] at hs
    cases hr : Mem.buildInvertedIndex grow idx items h [] with
    | mk h1 res =>
      rw [hr] at hb hs
      cases res with
      | error err =>
        simp only at hs
        rw [hs]
        exact ⟨h1, none, some err, rfl, rfl, rfl, rfl⟩
      | ok inv =>
        simp only at hs
        obtain ⟨hok, hval⟩ := hs
        rw [hval]
        have hfresh := hb.2 inv rfl
        have hstable : ∀ e1 ∈ idx.index.entries, e1.2.ptr ∉ inv.map (fun e => e.2.ptr) := by
          intro e1 he1 hmem
          obtain ⟨e, he, heq⟩ := List.mem_map.mp hmem
          have h1 := hfresh e he
          have h2 := hvalid e1 he1
          omega
        have hc := foldl_commitToken_spec inv h1 idx.index hok hstable
        have hcx := foldl_commitToken_extends inv h h1 idx.index hb.1 hfresh
        have hold : Mem.readTree h1 idx.index = Mem.readTree h idx.index :=
          readTree_congr h h1 idx.index
            (fun e he => array_of_extends h h1 hb.1 _ (hvalid e he))
        rw [hold] at hc
        refine ⟨_, _, _, rfl, rfl, ?_, rfl⟩
        simp only [Option.bind, Mem.Heap.indexAt, List.getElem?_concat_length, Option.map_some',
          Option.some.injEq]
        show Mem.readIndex _ _ = _
        unfold Mem.readIndex
        simp only
        congr 1

end MemIndexItems


/-! ## The default tokenizer -/

section DefaultTokenizerProps

theorem setAdd_nodup (set : List String) (token : String) (h : set.Nodup) :
    (setAdd set token).Nodup := by
  unfold setAdd
  split
  · exact h
  · next hn =>
    rw [List.nodup_append]
    refine ⟨h, List.nodup_singleton _, ?_⟩
    intro a ha hb
    simp only [List.mem_singleton] at hb
    subst hb
    exact hn ha

theorem foldl_setAdd_nodup (l acc : List String) (h : acc.Nodup) :
    (l.foldl setAdd acc).Nodup := by
  induction l generalizing acc with
  | nil => exact h
  | cons x t ih => exact ih _ (setAdd_nodup acc x h)

theorem mem_setAdd (set : List String) (token t : String) :
    t ∈ setAdd set token ↔ t ∈ set ∨ t = token := by
  unfold setAdd
  split
  · next hm =>
    constructor
    · exact Or.inl
    · rintro (h | h)
      · exact h
      · rw [h]; exact hm
  · simp

theorem mem_foldl_setAdd (l acc : List String) (t : String) :
    t ∈ l.foldl setAdd acc ↔ t ∈ acc ∨ t ∈ l := by
  induction l generalizing acc with
  | nil => simp
  | cons x r ih =>
    simp only [List.foldl_cons, ih, mem_setAdd, List.mem_cons]
    tauto

theorem mergeUniqueTokens_nodup (a b : List String) : (mergeUniqueTokens a b).Nodup :=
  foldl_setAdd_nodup _ _ List.nodup_nil

theorem mem_mergeUniqueTokens (a b : List String) (t : String) :
    t ∈ mergeUniqueTokens a b ↔ t ∈ a ∨ t ∈ b := by
  unfold mergeUniqueTokens
  rw [mem_foldl_setAdd]
  simp

theorem tokenizeValues_nodup_aux (values acc : List String) (h : acc.Nodup) :
    (values.foldl
      (fun allTokens value =>
        let tokens := tokenizeString value
        if tokens ≠ [] then mergeUniqueTokens allTokens tokens else allTokens)
      acc).Nodup := by
  induction values generalizing acc with
  | nil => exact h
  | cons v r ih =>
    simp only [List.foldl_cons]
    apply ih
    split
    · exact mergeUniqueTokens_nodup _ _
    · exact h

theorem computePrefixCombinations_eq (ws : List String) :
    computePrefixCombinations ws = suffixJoins ws := by
  induction ws with
  | nil => simp [computePrefixCombinations, suffixJoins]
  | cons t ts ih =>
    simp only [computePrefixCombinations, ih, suffixJoins, List.tails]
    simp

theorem join_data_aux (sep e : String) (rest : List String) :
    (rest.foldl (fun acc x => acc ++ sep ++ x) e).data =
      e.data ++ rest.flatMap (fun x => sep.data ++ x.data) := by
  induction rest generalizing e with
  | nil => simp
  | cons x r ih =>
    simp only [List.foldl_cons, ih, String.data_append, List.flatMap_cons, List.append_assoc]

theorem join_cons_cons_data (sep t t2 : String) (ts : List String) :
    (join (t :: t2 :: ts) sep).data = t.data ++ sep.data ++ (join (t2 :: ts) sep).data := by
  simp only [join, join_data_aux, List.flatMap_cons, List.append_assoc]

theorem computePrefixCombinations_length_le (t : String) (ts : List String) :
    ∀ s ∈ computePrefixCombinations (t :: ts), s.data.length ≤ (join (t :: ts) " ").data.length := by
  induction ts generalizing t with
  | nil => simp [computePrefixCombinations]
  | cons t2 r ih =>
    intro s hs
    simp only [computePrefixCombinations, List.mem_cons] at hs
    rcases hs with rfl | hs
    · exact le_refl _
    · have h2 := ih t2 s (by simpa [computePrefixCombinations] using hs)
      rw [join_cons_cons_data]
      simp only [List.length_append, List.length_singleton]
      omega

theorem computePrefixCombinations_nodup (ws : List String) :
    (computePrefixCombinations ws).Nodup := by
  induction ws with
  | nil => simp [computePrefixCombinations]
  | cons t ts ih =>
    simp only [computePrefixCombinations, List.nodup_cons]
    refine ⟨?_, ih⟩
    intro hmem
    cases ts with
    | nil => simp [computePrefixCombinations] at hmem
    | cons t2 r =>
      have h1 := computePrefixCombinations_length_le t2 r _ hmem
      rw [join_cons_cons_data] at h1
      simp only [List.length_append, List.length_singleton] at h1
      omega

theorem mem_foldl_addVariation (tokens acc : List String) (t : String) :
    t ∈ tokens.foldl addVariation acc ↔
      t ∈ acc ∨ t ∈ tokens ∨
      ∃ t0 ∈ tokens, (decide (byteLen t0 ≥ 4) && t0.data.any isBracket) = true ∧
        t = removeBrackets t0 := by
  induction tokens generalizing acc with
  | nil => simp
  | cons x r ih =>
    simp only [List.foldl_cons, ih, List.mem_cons, exists_eq_or_imp]
    have hstep : t ∈ addVariation acc x ↔
        t ∈ acc ∨ t = x ∨
        ((decide (byteLen x ≥ 4) && x.data.any isBracket) = true ∧ t = removeBrackets x) := by
      unfold addVariation
      by_cases h4 : byteLen x < 4
      · have : ¬ byteLen x ≥ 4 := by omega
        simp [h4, this, mem_setAdd]
      · have h4' : byteLen x ≥ 4 := by omega
        simp only [h4, if_false, h4', decide_True, Bool.true_and]
        by_cases hb : x.data.any isBracket = true
        · simp only [hb, if_true, true_and]
          by_cases hne : removeBrackets x ≠ x
          · simp only [hne, ne_eq, not_false_eq_true, if_true, mem_setAdd]
            tauto
          · simp only [hne, if_false, mem_setAdd]
            have heq : removeBrackets x = x := by
              by_contra hc; exact hne hc
            rw [heq]
            tauto
        · simp only [hb, Bool.false_eq_true, if_false, mem_setAdd, false_and, or_false]
    rw [hstep]
    tauto

theorem foldl_addVariation_nodup (tokens acc : List String) (h : acc.Nodup) :
    (tokens.foldl addVariation acc).Nodup := by
  induction tokens generalizing acc with
  | nil => exact h
  | cons x r ih =>
    simp only [List.foldl_cons]
    apply ih
    unfold addVariation
    simp only
    split
    · exact setAdd_nodup _ _ h
    · split
      · split
        · exact setAdd_nodup _ _ (setAdd_nodup _ _ h)
        · exact setAdd_nodup _ _ h
      · exact setAdd_nodup _ _ h

theorem mem_computeTokenVariations (tokens : List String) (hnd : tokens.Nodup) (t : String) :
    t ∈ computeTokenVariations tokens ↔
      t ∈ tokens ∨
      ∃ t0 ∈ tokens, (decide (byteLen t0 ≥ 4) && t0.data.any isBracket) = true ∧
        t = removeBrackets t0 := by
  unfold computeTokenVariations
  simp only
  split
  · next hlen =>
    constructor
    · exact Or.inl
    · intro h
      have hmem : t ∈ tokens.foldl addVariation [] := by
        rw [mem_foldl_addVariation]
        exact Or.inr h
      have hsub : tokens.toFinset ⊆ (tokens.foldl addVariation []).toFinset := by
        intro x hx
        simp only [List.mem_toFinset] at hx ⊢
        rw [mem_foldl_addVariation]
        exact Or.inr (Or.inl hx)
      have hcard : (tokens.foldl addVariation []).toFinset.card ≤ tokens.toFinset.card := by
        rw [List.toFinset_card_of_nodup hnd,
          List.toFinset_card_of_nodup (foldl_addVariation_nodup _ _ List.nodup_nil), hlen]
      have heq := Finset.eq_of_subset_of_card_le hsub hcard
      have : t ∈ tokens.toFinset := by
        rw [heq]
        exact List.mem_toFinset.mpr hmem
      exact List.mem_toFinset.mp this
  · rw [mem_foldl_addVariation]
    simp

theorem fieldsAux_ne_empty (l cur : List Char) : ∀ x ∈ fieldsAux l cur, x ≠ "" := by
  induction l generalizing cur with
  | nil =>
    intro x hx
    simp only [fieldsAux] at hx
    split at hx
    · simp at hx
    · next hc =>
      simp only [List.mem_singleton] at hx
      subst hx
      intro e
      have : cur.reverse = [] := by
        have := congrArg String.data e
        simpa using this
      simp at this
      simp [this] at hc
  | cons c cs ih =>
    intro x hx
    simp only [fieldsAux] at hx
    split at hx
    · split at hx
      · exact ih [] x hx
      · next hc =>
        rcases List.mem_cons.mp hx with rfl | hx
        · intro e
          have : cur.reverse = [] := by
            have := congrArg String.data e
            simpa using this
          simp at this
          simp [this] at hc
        · exact ih [] x hx
    · exact ih _ x hx

theorem splitOnWhitespace_eq (s : String) : splitOnWhitespace s = fields s := by
  unfold splitOnWhitespace
  apply List.filter_eq_self.mpr
  intro x hx
  have := fieldsAux_ne_empty s.data [] x hx
  simpa using this

theorem fieldsAux_eq_nil (l cur : List Char) (h : fieldsAux l cur = []) :
    cur = [] ∧ ∀ c ∈ l, isSpace c = true := by
  induction l generalizing cur with
  | nil =>
    simp only [fieldsAux] at h
    split at h
    · next hc => exact ⟨by simpa using hc, by simp⟩
    · simp at h
  | cons c cs ih =>
    simp only [fieldsAux] at h
    split at h
    · next hs =>
      split at h
      · next hc =>
        have := ih [] h
        refine ⟨by simpa using hc, ?_⟩
        intro x hx
        rcases List.mem_cons.mp hx with rfl | hx
        · exact hs
        · exact this.2 x hx
      · simp at h
    · have := ih _ h
      simp at this

theorem map_eq_self_of_space (f : Char → Char) (hf : ∀ c, isSpace c = true → f c = c)
    (l : List Char) (h : ∀ c ∈ l, isSpace c = true) : l.map f = l := by
  induction l with
  | nil => rfl
  | cons c cs ih =>
    simp only [List.map_cons]
    rw [hf c (h c (List.mem_cons_self _ _)), ih (fun x hx => h x (List.mem_cons_of_mem _ hx))]

theorem dash_fix_space (c : Char) (h : isSpace c = true) : (if c = '-' then ' ' else c) = c := by
  by_cases hc : c = '-'
  · subst hc; simp [isSpace] at h
  · simp [hc]

theorem computePrefixCombinations_eq_nil (ws : List String)
    (h : (computePrefixCombinations ws).length = 0) : ws = [] := by
  cases ws with
  | nil => rfl
  | cons t ts => simp [computePrefixCombinations] at h

theorem mem_tokenizeString (v t : String) :
    t ∈ tokenizeString v ↔
      t ∈ refTokensBase v ++ refTokensDashless v ++ refTokensBracketless v := by
  unfold tokenizeString
  simp only [splitOnWhitespace_eq, computePrefixCombinations_eq]
  by_cases hlen : (suffixJoins (fields (NormalizeString v))).length = 0
  · simp only [hlen, if_true]
    have hbase : refTokensBase v = [] := List.length_eq_zero.mp hlen
    have hf : fields (NormalizeString v) = [] := by
      apply computePrefixCombinations_eq_nil
      rw [computePrefixCombinations_eq]; exact hlen
    have hsp := (fieldsAux_eq_nil _ _ hf).2
    have hd : replaceAllChar (NormalizeString v) '-' ' ' = NormalizeString v := by
      unfold replaceAllChar
      rw [map_eq_self_of_space _ dash_fix_space _ hsp]
    have hdash : refTokensDashless v = [] := by
      unfold refTokensDashless
      split
      · rw [hd]; exact hbase
      · rfl
    simp [refTokensBracketless, hbase, hdash]
  · simp only [hlen, if_false]
    have hnd : (if (v.data.contains '-' && decide (byteLen v > 3)) = true then
        mergeUniqueTokens (suffixJoins (fields (NormalizeString v)))
          (suffixJoins (fields (replaceAllChar (NormalizeString v) '-' ' ')))
        else suffixJoins (fields (NormalizeString v))).Nodup := by
      split
      · exact mergeUniqueTokens_nodup _ _
      · rw [← computePrefixCombinations_eq]; exact computePrefixCombinations_nodup _
    have hmem1 : ∀ x, x ∈ (if (v.data.contains '-' && decide (byteLen v > 3)) = true then
        mergeUniqueTokens (suffixJoins (fields (NormalizeString v)))
          (suffixJoins (fields (replaceAllChar (NormalizeString v) '-' ' ')))
        else suffixJoins (fields (NormalizeString v))) ↔
        x ∈ refTokensBase v ++ refTokensDashless v := by
      intro x
      unfold refTokensBase refTokensDashless
      split
      · rw [mem_mergeUniqueTokens, List.mem_append]
      · simp
    rw [mem_computeTokenVariations _ hnd]
    simp only [hmem1]
    unfold refTokensBracketless
    simp only [List.mem_append, List.mem_map, List.mem_filter]
    constructor
    · rintro (h | ⟨t0, h0, hp, rfl⟩)
      · exact Or.inl h
      · exact Or.inr ⟨t0, ⟨h0, hp⟩, rfl⟩
    · rintro (h | ⟨t0, ⟨h0, hp⟩, rfl⟩)
      · exact Or.inl h
      · exact Or.inr ⟨t0, h0, hp, rfl⟩

theorem mem_tokenizeValues_aux (values acc : List String) (t : String) :
    t ∈ values.foldl
      (fun allTokens value =>
        let tokens := tokenizeString value
        if tokens ≠ [] then mergeUniqueTokens allTokens tokens else allTokens)
      acc ↔ t ∈ acc ∨ ∃ v ∈ values, t ∈ tokenizeString v := by
  induction values generalizing acc with
  | nil => simp
  | cons v r ih =>
    simp only [List.foldl_cons, ih, List.mem_cons, exists_eq_or_imp]
    by_cases hne : tokenizeString v ≠ []
    · have hif : (if tokenizeString v ≠ [] then mergeUniqueTokens acc (tokenizeString v)
          else acc) = mergeUniqueTokens acc (tokenizeString v) := if_pos hne
      rw [hif, mem_mergeUniqueTokens, or_assoc]
    · have he : tokenizeString v = [] := by
        by_contra hc; exact hne hc
      have hif : (if tokenizeString v ≠ [] then mergeUniqueTokens acc (tokenizeString v)
          else acc) = acc := if_neg hne
      rw [hif, he]
      simp

theorem mem_tokenizeValues (values : List String) (t : String) :
    t ∈ tokenizeValues values ↔ ∃ v ∈ values, t ∈ tokenizeString v := by
  unfold tokenizeValues
  rw [mem_tokenizeValues_aux]
  simp

theorem mem_tokenizeValues_ref (values : List String) (t : String) :
    t ∈ tokenizeValues values ↔ t ∈ refTokens values := by
  rw [mem_tokenizeValues]
  unfold refTokens
  simp only [List.mem_flatMap, mem_tokenizeString]

theorem toNat_ofNat_small (m : Nat) (h : m < 55296) : (Char.ofNat m).toNat = m := by
  have hv : m.isValidChar := Or.inl h
  unfold Char.ofNat
  rw [dif_pos hv]
  unfold Char.ofNatAux Char.toNat
  simp [UInt32.toNat]

theorem CaseRanges_targetOK : unicode.CaseRanges.all unicode.targetOK = true := by decide!

theorem CaseRanges_rangeOK : unicode.CaseRanges.all unicode.rangeOK = true := by
  decide!

theorem toNat_ofNat_valid (m : Nat) :
    (Char.ofNat m).toNat = m ∨ (Char.ofNat m) = Char.ofNat 0 := by
  by_cases hv : m.isValidChar
  · left
    unfold Char.ofNat
    rw [dif_pos hv]
    unfold Char.ofNatAux Char.toNat
    simp [UInt32.toNat]
  · right
    unfold Char.ofNat
    rw [dif_neg hv]
    rfl

theorem unicode_to_cases (r : Nat) (l : List unicode.CaseRange) :
    unicode.to r l = r ∨
      ∃ cr ∈ l, cr.Lo ≤ r ∧ r ≤ cr.Hi ∧ unicode.to r l = unicode.mapRune cr r := by
  induction l with
  | nil => exact Or.inl rfl
  | cons cr rest ih =>
    by_cases h : cr.Lo ≤ r ∧ r ≤ cr.Hi
    · right
      refine ⟨cr, List.mem_cons_self _ _, h.1, h.2, ?_⟩
      simp only [unicode.to, h, and_self, if_true, unicode.mapRune]
    · rcases ih with ih | ⟨e, he, h1, h2, h3⟩
      · left
        simp only [unicode.to, h, if_false, ih]
      · right
        refine ⟨e, List.mem_cons_of_mem _ he, h1, h2, ?_⟩
        simp only [unicode.to, h, if_false, h3]

theorem unicode_to_fixed (t : Nat) (l : List unicode.CaseRange)
    (h : ∀ cr ∈ l, ¬ (cr.Lo ≤ t ∧ t ≤ cr.Hi) ∨ unicode.mapRune cr t = t) :
    unicode.to t l = t := by
  induction l with
  | nil => rfl
  | cons cr rest ih =>
    have ih1 := ih (fun e he => h e (List.mem_cons_of_mem _ he))
    by_cases hin : cr.Lo ≤ t ∧ t ≤ cr.Hi
    · rcases h cr (List.mem_cons_self _ _) with h1 | h1
      · exact absurd hin h1
      · simp only [unicode.to, hin, and_self, if_true]
        exact h1
    · simp only [unicode.to, hin, if_false, ih1]

theorem mapRune_target (cr : unicode.CaseRange) (r : Nat) (hcr : cr ∈ unicode.CaseRanges)
    (hr : 127 < r) (h1 : cr.Lo ≤ r) (h2 : r ≤ cr.Hi) :
    127 < unicode.mapRune cr r ∨ (97 ≤ unicode.mapRune cr r ∧ unicode.mapRune cr r ≤ 122) := by
  have hall := List.all_eq_true.mp CaseRanges_targetOK cr hcr
  unfold unicode.targetOK at hall
  unfold unicode.mapRune
  by_cases hul : cr.Delta > unicode.MaxRune
  · simp only [hul, if_true, Bool.or_eq_true, decide_eq_true_eq] at hall ⊢
    omega
  · simp only [hul, if_false, Bool.or_eq_true, Bool.and_eq_true, decide_eq_true_eq] at hall ⊢
    omega

theorem mapRune_fixed (cr : unicode.CaseRange) (r : Nat) (hcr : cr ∈ unicode.CaseRanges)
    (h1 : cr.Lo ≤ r) (h2 : r ≤ cr.Hi) :
    unicode.to (unicode.mapRune cr r) unicode.CaseRanges = unicode.mapRune cr r := by
  apply unicode_to_fixed
  intro other hother
  have hall := List.all_eq_true.mp CaseRanges_rangeOK cr hcr
  unfold unicode.rangeOK at hall
  by_cases hul : cr.Delta > unicode.MaxRune
  · simp only [hul, if_true, Bool.and_eq_true, decide_eq_true_eq] at hall
    have hm : unicode.mapRune cr r = cr.Lo + ((r - cr.Lo) / 2 * 2 + 1) := by
      simp only [unicode.mapRune, hul, if_true]
    obtain ⟨hodd, hrest⟩ := hall
    have ho := List.all_eq_true.mp hrest other hother
    simp only [unicode.avoids, Bool.or_eq_true, Bool.and_eq_true, decide_eq_true_eq] at ho
    rcases ho with ⟨hlo, hd⟩ | hlt | hlt
    · right
      rw [hm]
      simp only [unicode.mapRune, hd, if_true, hlo]
      omega
    · left; rw [hm]; omega
    · left; rw [hm]; omega
  · simp only [hul, if_false, Bool.and_eq_true, decide_eq_true_eq] at hall
    have hm : unicode.mapRune cr r = ((r : Int) + cr.Delta).toNat := by
      simp only [unicode.mapRune, hul, if_false]
    obtain ⟨hnn, hrest⟩ := hall
    have ho := List.all_eq_true.mp hrest other hother
    simp only [unicode.avoids, Bool.or_eq_true, decide_eq_true_eq] at ho
    left
    rw [hm]
    omega

theorem unicode_to_idem (r : Nat) :
    unicode.to (unicode.to r unicode.CaseRanges) unicode.CaseRanges
      = unicode.to r unicode.CaseRanges := by
  rcases unicode_to_cases r unicode.CaseRanges with h | ⟨cr, hcr, h1, h2, h3⟩
  · rw [h, h]
  · rw [h3]
    exact mapRune_fixed cr r hcr h1 h2

theorem unicode_to_target (r : Nat) (hr : 127 < r) :
    127 < unicode.to r unicode.CaseRanges ∨
      (97 ≤ unicode.to r unicode.CaseRanges ∧ unicode.to r unicode.CaseRanges ≤ 122) := by
  rcases unicode_to_cases r unicode.CaseRanges with h | ⟨cr, hcr, h1, h2, h3⟩
  · rw [h]; exact Or.inl hr
  · rw [h3]
    exact mapRune_target cr r hcr hr h1 h2

theorem ToLower_toNat (c : Char) :
    (unicode.ToLower c).toNat ≤ 127 ∧ ¬ (65 ≤ (unicode.ToLower c).toNat ∧
        (unicode.ToLower c).toNat ≤ 90) ∧
      ((unicode.ToLower c).toNat = 95 → c.toNat = 95) ∨
    127 < (unicode.ToLower c).toNat ∧
      unicode.to (unicode.ToLower c).toNat unicode.CaseRanges = (unicode.ToLower c).toNat := by
  unfold unicode.ToLower
  by_cases hascii : c.toNat ≤ 127
  · simp only [hascii, if_true]
    by_cases hup : 65 ≤ c.toNat ∧ c.toNat ≤ 90
    · simp only [hup, and_self, if_true]
      have h1 : (Char.ofNat (c.toNat + 32)).toNat = c.toNat + 32 :=
        toNat_ofNat_small _ (by omega)
      rw [h1]
      left
      exact ⟨by omega, by omega, fun h => by omega⟩
    · rw [if_neg hup]
      left
      exact ⟨hascii, hup, fun h => h⟩
  · simp only [hascii, if_false]
    have hr : 127 < c.toNat := by omega
    rcases toNat_ofNat_valid (unicode.to c.toNat unicode.CaseRanges) with h | h
    · rw [h]
      rcases unicode_to_target c.toNat hr with ht | ht
      · right
        exact ⟨ht, unicode_to_idem c.toNat⟩
      · left
        exact ⟨by omega, by omega, fun h => by omega⟩
    · rw [h]
      left
      have h0 : (Char.ofNat 0).toNat = 0 := by decide
      rw [h0]
      exact ⟨by omega, by omega, fun h => by omega⟩

theorem ToLower_idem (c : Char) :
    unicode.ToLower (unicode.ToLower c) = unicode.ToLower c := by
  rcases ToLower_toNat c with ⟨h1, h2, _⟩ | ⟨h1, h2⟩
  · generalize unicode.ToLower c = d at h1 h2
    unfold unicode.ToLower
    simp only [h1, if_true, h2, if_false]
  · generalize unicode.ToLower c = d at h1 h2
    have hn : ¬ d.toNat ≤ 127 := by omega
    unfold unicode.ToLower
    simp only [hn, if_false, h2]
    apply char_eq_of_toNat_eq
    rcases toNat_ofNat_valid d.toNat with h | h
    · exact h
    · have hv : d.toNat.isValidChar := d.valid
      unfold Char.ofNat at h ⊢
      rw [dif_pos hv]
      rfl

theorem ToLower_eq_underscore (c : Char) (h : unicode.ToLower c = '_') : c = '_' := by
  have h95 : ('_' : Char).toNat = 95 := by decide
  rcases ToLower_toNat c with ⟨_, _, h3⟩ | ⟨h1, _⟩
  · apply char_eq_of_toNat_eq
    rw [h95]
    exact h3 (by rw [h, h95])
  · rw [h, h95] at h1
    omega

theorem trimSpace_data (s : String) :
    (trimSpace s).data = ((s.data.dropWhile isSpace).reverse.dropWhile isSpace).reverse := rfl

theorem trim_decomp (l : List Char) :
    ∃ w1 w2 : List Char, (∀ c ∈ w1, isSpace c = true) ∧ (∀ c ∈ w2, isSpace c = true) ∧
      l = w1 ++ ((l.dropWhile isSpace).reverse.dropWhile isSpace).reverse ++ w2 := by
  refine ⟨l.takeWhile isSpace, ((l.dropWhile isSpace).reverse.takeWhile isSpace).reverse,
    ?_, ?_, ?_⟩
  · intro c hc
    exact List.mem_takeWhile_imp hc
  · intro c hc
    rw [List.mem_reverse] at hc
    exact List.mem_takeWhile_imp hc
  · have h1 : l = l.takeWhile isSpace ++ l.dropWhile isSpace :=
      (List.takeWhile_append_dropWhile isSpace l).symm
    have h2 : (l.dropWhile isSpace).reverse
        = (l.dropWhile isSpace).reverse.takeWhile isSpace ++
          (l.dropWhile isSpace).reverse.dropWhile isSpace :=
      (List.takeWhile_append_dropWhile isSpace _).symm
    have h3 : l.dropWhile isSpace
        = ((l.dropWhile isSpace).reverse.dropWhile isSpace).reverse ++
          ((l.dropWhile isSpace).reverse.takeWhile isSpace).reverse := by
      have := congrArg List.reverse h2
      rw [List.reverse_reverse, List.reverse_append] at this
      exact this
    conv_lhs => rw [h1, h3]
    simp only [List.append_assoc]

theorem fieldsAux_space_nil (w cur : List Char) (hw : ∀ c ∈ w, isSpace c = true) :
    fieldsAux w cur = fieldsAux [] cur := by
  induction w generalizing cur with
  | nil => rfl
  | cons c w1 ih =>
    have hc := hw c (List.mem_cons_self _ _)
    have ih1 := ih [] (fun x hx => hw x (List.mem_cons_of_mem _ hx))
    simp only [fieldsAux, hc, if_true]
    split
    · next he =>
      rw [ih1]
      simp [fieldsAux, he]
    · next he =>
      rw [ih1]
      simp [fieldsAux, he]

theorem fieldsAux_append_space (s w cur : List Char) (hw : ∀ c ∈ w, isSpace c = true) :
    fieldsAux (s ++ w) cur = fieldsAux s cur := by
  induction s generalizing cur with
  | nil => exact fieldsAux_space_nil w cur hw
  | cons c s1 ih =>
    have e1 : fieldsAux (s1.append w) [] = fieldsAux s1 [] := ih []
    have e2 : fieldsAux (s1.append w) (c :: cur) = fieldsAux s1 (c :: cur) := ih (c :: cur)
    simp only [List.cons_append, fieldsAux]
    rw [e1, e2]

theorem fieldsAux_space_append (w s : List Char) (hw : ∀ c ∈ w, isSpace c = true) :
    fieldsAux (w ++ s) [] = fieldsAux s [] := by
  induction w with
  | nil => rfl
  | cons c w1 ih =>
    have hc := hw c (List.mem_cons_self _ _)
    simp only [List.cons_append, fieldsAux, hc, if_true, List.isEmpty_nil]
    exact ih (fun x hx => hw x (List.mem_cons_of_mem _ hx))

theorem fieldsAux_map_trim (f : Char → Char) (hf : ∀ c, isSpace c = true → f c = c)
    (l : List Char) :
    fieldsAux ((((l.dropWhile isSpace).reverse.dropWhile isSpace).reverse).map f) []
      = fieldsAux (l.map f) [] := by
  obtain ⟨w1, w2, h1, h2, hl⟩ := trim_decomp l
  conv_rhs => rw [hl]
  rw [List.map_append, List.map_append, map_eq_self_of_space f hf w1 h1,
    map_eq_self_of_space f hf w2 h2, fieldsAux_append_space _ _ _ h2,
    fieldsAux_space_append _ _ h1]

theorem underscore_fix_space (c : Char) (h : isSpace c = true) :
    (if c = '_' then ' ' else c) = c := by
  by_cases hc : c = '_'
  · subst hc; simp [isSpace] at h
  · simp [hc]

theorem toLower_underscore_comm (c : Char) :
    unicode.ToLower (if c = '_' then ' ' else c)
      = if unicode.ToLower c = '_' then ' ' else unicode.ToLower c := by
  by_cases hc : c = '_'
  · subst hc; decide
  · have hne : ¬ unicode.ToLower c = '_' := fun h => hc (ToLower_eq_underscore c h)
    simp [hc, hne]

theorem fields_NormalizeString (x : String) :
    fields (NormalizeString x) =
      if byteLen (trimSpace (toLower x)) > 3 then
        fieldsAux ((x.data.map unicode.ToLower).map (fun c => if c = '_' then ' ' else c)) []
      else fieldsAux (x.data.map unicode.ToLower) [] := by
  unfold NormalizeString fields
  simp only
  split
  · exact fieldsAux_map_trim _ underscore_fix_space _
  · have := fieldsAux_map_trim id (fun _ _ => rfl) (x.data.map unicode.ToLower)
    simp only [List.map_id] at this
    exact this

theorem fieldsAux_map_map_trim (f g : Char → Char) (hf : ∀ c, isSpace c = true → f c = c)
    (hg : ∀ c, isSpace c = true → g c = c) (l : List Char) :
    fieldsAux (((((l.dropWhile isSpace).reverse.dropWhile isSpace).reverse).map f).map g) []
      = fieldsAux ((l.map f).map g) [] := by
  calc fieldsAux (((((l.dropWhile isSpace).reverse.dropWhile isSpace).reverse).map f).map g) []
      = fieldsAux ((((l.dropWhile isSpace).reverse.dropWhile isSpace).reverse).map (g ∘ f)) [] := by
        rw [List.map_map]
    _ = fieldsAux (l.map (g ∘ f)) [] :=
        fieldsAux_map_trim (g ∘ f)
          (fun c hc => by simp only [Function.comp]; rw [hf c hc, hg c hc]) l
    _ = fieldsAux ((l.map f).map g) [] := by rw [List.map_map]

theorem fields_dashless_NormalizeString (x : String) :
    fields (replaceAllChar (NormalizeString x) '-' ' ') =
      if byteLen (trimSpace (toLower x)) > 3 then
        fieldsAux (((x.data.map unicode.ToLower).map (fun c => if c = '_' then ' ' else c)).map
          (fun c => if c = '-' then ' ' else c)) []
      else fieldsAux ((x.data.map unicode.ToLower).map (fun c => if c = '-' then ' ' else c)) [] := by
  unfold NormalizeString fields replaceAllChar
  simp only
  split
  · exact fieldsAux_map_map_trim _ _ underscore_fix_space dash_fix_space _
  · exact fieldsAux_map_trim _ dash_fix_space _

theorem map_underscore_idem (l : List Char) :
    (l.map (fun c => if c = '_' then ' ' else c)).map (fun c => if c = '_' then ' ' else c)
      = l.map (fun c => if c = '_' then ' ' else c) := by
  rw [List.map_map]
  apply List.map_congr_left
  intro c _
  simp only [Function.comp]
  by_cases hc : c = '_'
  · simp [hc]
  · simp [hc]

theorem toLower_replace_underscore (l : List Char) :
    (l.map (fun c => if c = '_' then ' ' else c)).map unicode.ToLower
      = (l.map unicode.ToLower).map (fun c => if c = '_' then ' ' else c) := by
  rw [List.map_map, List.map_map]
  apply List.map_congr_left
  intro c _
  simp only [Function.comp]
  exact toLower_underscore_comm c

theorem contains_dash_replace_underscore (l : List Char) :
    (l.map (fun c => if c = '_' then ' ' else c)).contains '-' = l.contains '-' := by
  induction l with
  | nil => rfl
  | cons c t ih =>
    simp only [List.map_cons, List.contains_cons, ih]
    congr 1
    by_cases hc : c = '_'
    · subst hc; decide
    · simp [hc]

theorem byteLen_replace_underscore (v : String) :
    byteLen (replaceAllChar v '_' ' ') = byteLen v := by
  unfold byteLen replaceAllChar
  simp only [List.map_map]
  congr 1
  apply List.map_congr_left
  intro c _
  simp only [Function.comp]
  by_cases hc : c = '_'
  · subst hc; decide
  · simp [hc]

theorem tokenizeString_underscore (v : String) (h : byteLen (trimSpace (toLower v)) > 3) :
    tokenizeString (replaceAllChar v '_' ' ') = tokenizeString v := by
  have hL : (replaceAllChar v '_' ' ').data.map unicode.ToLower
      = (v.data.map unicode.ToLower).map (fun c => if c = '_' then ' ' else c) :=
    toLower_replace_underscore v.data
  have hA : fields (NormalizeString (replaceAllChar v '_' ' ')) = fields (NormalizeString v) := by
    rw [fields_NormalizeString, fields_NormalizeString v, if_pos h, hL, map_underscore_idem]
    split <;> rfl
  have hB : fields (replaceAllChar (NormalizeString (replaceAllChar v '_' ' ')) '-' ' ')
      = fields (replaceAllChar (NormalizeString v) '-' ' ') := by
    rw [fields_dashless_NormalizeString, fields_dashless_NormalizeString v, if_pos h, hL,
      map_underscore_idem]
    split <;> rfl
  have hC : (replaceAllChar v '_' ' ').data.contains '-' = v.data.contains '-' :=
    contains_dash_replace_underscore v.data
  unfold tokenizeString
  simp only [splitOnWhitespace_eq]
  rw [hA, hB, hC, byteLen_replace_underscore]

theorem toLower_idem (c : Char) :
    unicode.ToLower (unicode.ToLower c) = unicode.ToLower c := ToLower_idem c

theorem mem_trim (l : List Char) (c : Char)
    (h : c ∈ ((l.dropWhile isSpace).reverse.dropWhile isSpace).reverse) : c ∈ l := by
  rw [List.mem_reverse] at h
  have h1 := (List.dropWhile_sublist isSpace).subset h
  rw [List.mem_reverse] at h1
  exact (List.dropWhile_sublist isSpace).subset h1

theorem NormalizeString_lowercased (s : String) : isLowercased (NormalizeString s) := by
  unfold isLowercased toLower
  have hfix : ∀ c ∈ (NormalizeString s).data, unicode.ToLower c = c := by
    intro c hc
    have hbase : ∀ x ∈ (trimSpace (Lodestar.toLower s)).data, unicode.ToLower x = x := by
      intro x hx
      have hx1 := mem_trim _ x hx
      simp only [Lodestar.toLower, List.mem_map] at hx1
      obtain ⟨y, _, rfl⟩ := hx1
      exact toLower_idem y
    unfold NormalizeString at hc
    simp only at hc
    split at hc
    · simp only [replaceAllChar, List.mem_map] at hc
      obtain ⟨x, hx, rfl⟩ := hc
      by_cases hu : x = '_'
      · simp only [hu, if_true]; decide
      · simp only [hu, if_false]
        exact hbase x hx
    · exact hbase c hc
  have hmap : (NormalizeString s).data.map unicode.ToLower = (NormalizeString s).data := by
    conv_rhs => rw [← List.map_id (NormalizeString s).data]
    exact List.map_congr_left hfix
  rw [hmap]

theorem head?_dropWhile_not (l : List Char) (c : Char)
    (h : (l.dropWhile isSpace).head? = some c) : isSpace c = false := by
  induction l with
  | nil => simp at h
  | cons a t ih =>
    simp only [List.dropWhile] at h
    split at h
    · exact ih h
    · next hp =>
      simp only [List.head?_cons, Option.some.injEq] at h
      subst h
      simpa using hp

theorem getLast?_dropWhile (l : List Char) (c : Char)
    (h : (l.dropWhile isSpace).getLast? = some c) : l.getLast? = some c := by
  induction l with
  | nil => simp at h
  | cons a t ih =>
    simp only [List.dropWhile] at h
    split at h
    · have h1 := ih h
      cases t with
      | nil => simp at h1
      | cons b r => rw [List.getLast?_cons_cons]; exact h1
    · exact h

theorem trim_noOuterSpace (l : List Char) :
    noOuterSpace ((l.dropWhile isSpace).reverse.dropWhile isSpace).reverse := by
  unfold noOuterSpace
  constructor
  · rw [List.head?_reverse]
    cases h : ((l.dropWhile isSpace).reverse.dropWhile isSpace).getLast? with
    | none => rfl
    | some c =>
      have h1 := getLast?_dropWhile _ c h
      rw [List.getLast?_reverse] at h1
      have := head?_dropWhile_not l c h1
      simp [Option.all, this]
  · rw [List.getLast?_reverse]
    cases h : ((l.dropWhile isSpace).reverse.dropWhile isSpace).head? with
    | none => rfl
    | some c =>
      have := head?_dropWhile_not _ c h
      simp [Option.all, this]

theorem isSpace_replace_underscore (c : Char) :
    isSpace (if c = '_' then ' ' else c) = (decide (c = '_') || isSpace c) := by
  by_cases hc : c = '_'
  · subst hc; decide
  · simp [hc]

theorem noOuterSpace_replace_underscore (l : List Char) (h : noOuterSpace l) :
    noOuterSpace (l.map (fun c => if c = '_' then ' ' else c)) ↔
      (l.head? ≠ some '_' ∧ l.getLast? ≠ some '_') := by
  unfold noOuterSpace at h ⊢
  rw [List.head?_map, List.getLast?_map]
  obtain ⟨h1, h2⟩ := h
  cases hh : l.head? with
  | none =>
    have : l = [] := by
      cases l with
      | nil => rfl
      | cons a t => simp at hh
    subst this
    simp
  | some a =>
    cases hl : l.getLast? with
    | none =>
      have : l = [] := by
        cases l with
        | nil => rfl
        | cons a t => simp at hl
      subst this
      simp at hh
    | some b =>
      rw [hh] at h1
      rw [hl] at h2
      simp only [Option.all, Bool.not_eq_true', Option.map_some', ne_eq, Option.some.injEq] at h1 h2 ⊢
      rw [isSpace_replace_underscore, isSpace_replace_underscore, h1, h2]
      simp

end DefaultTokenizerProps

/-! ## Exact lookup after indexing -/

section Lookup

variable {T ι : Type} [IndexableItem T ι]

theorem Get_after_IndexItems_New (B : List T) (idx2 : Index T) (item : T) (t : String)
    (h : ((New [] : Index T).IndexItems B).1 = some idx2) (hitem : item ∈ B) :
    (∃ l, idx2.index.Get t = some l ∧ item ∈ l) ↔ t ∈ (DefaultTokenizer T).Tokenize item := by
  obtain ⟨_, hget⟩ := IndexItems_ok (New []) idx2 B h
  have hg := hget t
  have hnew : (New [] : Index T).index.Get t = none := rfl
  have htk : (New [] : Index T).tokenizer = DefaultTokenizer T := rfl
  rw [htk] at hg
  cases hb : batchPostings (DefaultTokenizer T) B t with
  | nil =>
    rw [hb, hnew] at hg
    constructor
    · rintro ⟨l, hl, _⟩
      rw [hg] at hl
      exact absurd hl (by simp)
    · intro ht
      have : item ∈ batchPostings (DefaultTokenizer T) B t :=
        (mem_batchPostings _ _ _ _).mpr ⟨hitem, ht⟩
      rw [hb] at this
      simp at this
  | cons x rest =>
    rw [hb] at hg
    constructor
    · rintro ⟨l, hl, hmem⟩
      rw [hg] at hl
      simp only [Option.some.injEq] at hl
      subst hl
      rw [(committed_perm (x :: rest)).mem_iff, ← hb] at hmem
      exact ((mem_batchPostings _ _ _ _).mp hmem).2
    · intro ht
      refine ⟨_, hg, ?_⟩
      rw [(committed_perm (x :: rest)).mem_iff, ← hb]
      exact (mem_batchPostings _ _ _ _).mpr ⟨hitem, ht⟩

theorem Index_Get_found_iff (idx : Index T) (value : String) (item : T) :
    ((idx.Get value).2 = true ∧ item ∈ (idx.Get value).1) ↔
      (idx.tokenizer.NormalizeString value ≠ "" ∧
        ∃ l, idx.index.Get (idx.tokenizer.NormalizeString value) = some l ∧ item ∈ l) := by
  unfold Index.Get
  simp only
  by_cases hne : idx.tokenizer.NormalizeString value = ""
  · simp [hne]
  · simp only [hne, if_false, ne_eq, not_false_eq_true, true_and]
    cases idx.index.Get (idx.tokenizer.NormalizeString value) with
    | none => simp
    | some l => simp

theorem DefaultTokenizer_NormalizeString (s : String) :
    (DefaultTokenizer T).NormalizeString s = NormalizeString s := rfl


theorem find?_eq_of_mem_nodup {V : Type} (l : List (String × V)) (t : String) (v : V)
    (hnd : (l.map Prod.fst).Nodup) (hmem : (t, v) ∈ l) :
    l.find? (fun e => e.1 = t) = some (t, v) := by
  induction l with
  | nil => simp at hmem
  | cons e rest ih =>
    simp only [List.map_cons, List.nodup_cons] at hnd
    rcases List.mem_cons.mp hmem with h | h
    · subst h
      simp
    · have hne : e.1 ≠ t := by
        intro he
        apply hnd.1
        rw [he]
        exact List.mem_map.mpr ⟨(t, v), h, rfl⟩
      simp only [List.find?_cons, hne, decide_False]
      exact ih hnd.2 h

theorem mem_SeekPrefix_iff {V : Type} (tr : Tree V) (hwf : tr.WF) (p t : String) (v : V) :
    (t, v) ∈ tr.SeekPrefix p ↔ (p.data.isPrefixOf t.data = true ∧ tr.Get t = some v) := by
  unfold Tree.SeekPrefix Tree.Get
  rw [List.mem_filter]
  constructor
  · rintro ⟨hmem, hp⟩
    refine ⟨hp, ?_⟩
    rw [find?_eq_of_mem_nodup _ t v (WF_keys_nodup tr hwf) hmem]
    rfl
  · rintro ⟨hp, hget⟩
    refine ⟨?_, hp⟩
    cases hf : tr.entries.find? (fun e => e.1 = t) with
    | none => rw [hf] at hget; simp at hget
    | some e =>
      rw [hf] at hget
      simp only [Option.map_some', Option.some.injEq] at hget
      have h1 := List.find?_some hf
      have h2 := List.mem_of_find?_eq_some hf
      simp only [decide_eq_true_eq] at h1
      have : e = (t, v) := Prod.ext h1 hget
      rw [← this]
      exact h2

theorem PrefixSearch_unbounded_ids [DecidableEq ι] (idx : Index T) (pfx0 : String) (k : Int)
    (hk : k ≤ 0) (hne : idx.tokenizer.NormalizeString pfx0 ≠ "")
    (hfit : (totalMatches idx pfx0 : Int) ≤ maxInt) (i : ι) :
    i ∈ (idx.PrefixSearch pfx0 k none).map GetID ↔ i ∈ (matchingItems idx pfx0).map GetID := by
  obtain ⟨rs, hp, _, he⟩ := PrefixSearch_eq idx pfx0 k none hne
  have hok : heapOK (finalState idx pfx0 k none) :=
    scanTokens_heapOK _ _ _ _ _ heapOK_init
  have hlim : (if k ≤ 0 then maxInt else k) = maxInt := by simp [hk]
  have hinit : sizeInv maxInt ([] : List ι) (⟨[], []⟩ : SearchState T ι) := by
    refine ⟨by intro r hr; simp at hr, ?_,
      fun _ => ⟨by intro i hi; simp at hi, by intro i hi; simp at hi⟩⟩
    simp only [List.length_nil, Nat.cast_zero]; unfold maxInt; omega
  have hinv := scanTokens_sizeInv (idx.tokenizer.NormalizeString pfx0) maxInt
    (idx.index.SeekPrefix (idx.tokenizer.NormalizeString pfx0)) [] ⟨[], []⟩ heapOK_init hinit
  simp only [List.nil_append] at hinv
  have hfin : scanTokens (idx.tokenizer.NormalizeString pfx0) none maxInt
      (idx.index.SeekPrefix (idx.tokenizer.NormalizeString pfx0)) (⟨[], []⟩ : SearchState T ι)
      = finalState idx pfx0 k none := by
    unfold finalState
    rw [hlim]
  rw [hfin] at hinv
  obtain ⟨k1, k2, k3⟩ := hinv
  have hlen := finalState_length idx pfx0 k
  rw [hlim, min_eq_right hfit] at hlen
  have hids : ∀ j, j ∈ (idx.PrefixSearch pfx0 k none).map GetID ↔
      j ∈ (finalState idx pfx0 k none).minHeap.map (fun r => GetID r.Value) := by
    intro j
    rw [he]
    simp only [List.map_reverse, List.mem_reverse, List.map_map, List.mem_map,
      Function.comp]
    constructor
    · rintro ⟨r, hr, rfl⟩; exact ⟨r, hp.subset hr, rfl⟩
    · rintro ⟨r, hr, rfl⟩; exact ⟨r, hp.symm.subset hr, rfl⟩
  rw [hids]
  constructor
  · intro hi
    obtain ⟨r, hr, rfl⟩ := List.mem_map.mp hi
    exact k1 r hr
  · intro hi
    have hsub : ∀ j ∈ (finalState idx pfx0 k none).minHeap.map (fun r => GetID r.Value),
        j ∈ (matchingItems idx pfx0).map GetID := by
      intro j hj
      obtain ⟨r, hr, rfl⟩ := List.mem_map.mp hj
      exact k1 r hr
    have hcard : ((finalState idx pfx0 k none).minHeap.map (fun r => GetID r.Value)).toFinset.card
        = ((matchingItems idx pfx0).map GetID).toFinset.card := by
      rw [List.toFinset_card_of_nodup hok.2.2.1, List.card_toFinset, List.length_map]
      unfold totalMatches at hlen
      exact_mod_cast hlen
    have hss : ((finalState idx pfx0 k none).minHeap.map (fun r => GetID r.Value)).toFinset
        ⊆ ((matchingItems idx pfx0).map GetID).toFinset := by
      intro j hj
      simp only [List.mem_toFinset] at hj ⊢
      exact hsub j hj
    have heq := Finset.eq_of_subset_of_card_le hss (le_of_eq hcard.symm)
    have : i ∈ ((matchingItems idx pfx0).map GetID).toFinset := List.mem_toFinset.mpr hi
    rw [← heq] at this
    exact List.mem_toFinset.mp this

theorem mem_matchingItems_ids (idx : Index T) (hwf : idx.index.WF) (pfx0 : String) (i : ι) :
    i ∈ (matchingItems idx pfx0).map GetID ↔
      ∃ t l, (idx.tokenizer.NormalizeString pfx0).data.isPrefixOf t.data = true ∧
        idx.index.Get t = some l ∧ ∃ x ∈ l, GetID x = i := by
  unfold matchingItems
  simp only [List.mem_map, List.mem_flatMap]
  constructor
  · rintro ⟨x, ⟨e, he, hx⟩, rfl⟩
    obtain ⟨t, l⟩ := e
    have := (mem_SeekPrefix_iff idx.index hwf _ t l).mp he
    exact ⟨t, l, this.1, this.2, x, hx, rfl⟩
  · rintro ⟨t, l, hp, hg, x, hx, rfl⟩
    exact ⟨x, ⟨(t, l), (mem_SeekPrefix_iff idx.index hwf _ t l).mpr ⟨hp, hg⟩, hx⟩, rfl⟩

end Lookup

/-! ## The claims -/

section Claims

variable {T ι : Type} [IndexableItem T ι]

/-- C1 (failing input): the batch `ab` (address 1, rank `math.MaxInt`), `ab` (address 2,
rank -2), `a` (address 3, rank 0), all ranks being Go `int` values, indexed into a new
index. `PrefixSearch("a", 1, nil)` returns the item of rank 0 alone, although the item of
rank `math.MaxInt` is a match that is left out: the posting list of `ab` was committed as
`[rank -2, rank MaxInt]`, and the scan of it stops at its first item. -/
theorem PrefixSearch_topK_overflow :
    inIntRange 9223372036854775807 ∧ inIntRange (-2) ∧ inIntRange 0 ∧
    ((New [] : Index ExampleItem).IndexItems
      [⟨1, "ab", 9223372036854775807, []⟩, ⟨2, "ab", -2, []⟩, ⟨3, "a", 0, []⟩]).1.map
      (fun idx => (idx.PrefixSearch "a" 1 none, matchingItems idx "a"))
      = some ([⟨3, "a", 0, []⟩],
          [⟨3, "a", 0, []⟩, ⟨2, "ab", -2, []⟩, ⟨1, "ab", 9223372036854775807, []⟩]) := by
  decide

/-- C2 (counterexample): on the index of the five test items the prefix `""` matches
every token, so five identities are found in the matching posting lists, yet
`PrefixSearch` returns no item, for the limit 0 as for the limit 3. -/
theorem PrefixSearch_length_empty_prefix :
    (setupIndexWithItems testItems).map (fun idx =>
      ((idx.PrefixSearch "" 0 none).length, (idx.PrefixSearch "" 3 none).length,
        totalMatches idx "")) = some (0, 0, 5) := by
  decide

/-- C2 (amended): for every index, every prefix whose normalization is not empty and
every limit `k`, `PrefixSearch(prefix, k, nil)` returns exactly `min(k, totalMatches)`
items when `k > 0` and exactly `totalMatches` items when `k <= 0`, where `totalMatches`
counts the distinct identities in the posting lists of the tokens that start with the
normalized prefix (a count that fits in a Go `int`, as every slice length does). -/
theorem PrefixSearch_length [DecidableEq ι] (idx : Index T) (pfx0 : String) (k : Int)
    (hne : idx.tokenizer.NormalizeString pfx0 ≠ "")
    (hfit : (totalMatches idx pfx0 : Int) ≤ maxInt) :
    ((idx.PrefixSearch pfx0 k none).length : Int) =
      if 0 < k then min k (totalMatches idx pfx0 : Int) else (totalMatches idx pfx0 : Int) := by
  obtain ⟨rs, hp, _, he⟩ := PrefixSearch_eq idx pfx0 k none hne
  have hlen := finalState_length idx pfx0 k
  rw [he, List.length_reverse, List.length_map, hp.length_eq, hlen]
  by_cases hk : 0 < k
  · have : ¬ k ≤ 0 := by omega
    simp only [this, hk, if_true, if_false]
  · have : k ≤ 0 := by omega
    simp only [this, hk, if_true, if_false]
    exact min_eq_right hfit

/-- C2 (witness): the prefix `"app"` with the limit 0 on the index of the five test
items, where the search returns 4 items. -/
theorem PrefixSearch_length_witness :
    (indexOf testItems).tokenizer.NormalizeString "app" ≠ "" ∧
    (totalMatches (indexOf testItems) "app" : Int) ≤ maxInt ∧
    (((indexOf testItems).PrefixSearch "app" 0 none).length : Int) =
      (if (0 : Int) < 0 then min 0 (totalMatches (indexOf testItems) "app" : Int)
        else (totalMatches (indexOf testItems) "app" : Int)) ∧
    ((indexOf testItems).PrefixSearch "app" 0 none).length = 4 :=
  ⟨by decide, by decide,
    PrefixSearch_length (indexOf testItems) "app" 0 (by decide) (by decide), by decide⟩

/-- C3 (counterexample): after indexing the batch `[apple (address 1)]` and then, on the
result, the batch `[apple (address 2)]`, the unbounded search for `"apple"` returns the
item of the second batch only. -/
theorem IndexItems_second_batch_drops_first :
    ((New [] : Index ExampleItem).IndexItems [⟨1, "apple", 10, []⟩]).1.bind (fun idx1 =>
      (idx1.IndexItems [⟨2, "apple", 5, []⟩]).1.map (fun idx2 =>
        idx2.PrefixSearch "apple" 0 none)) = some [⟨2, "apple", 5, []⟩] := by
  decide

/-- C3 (amended): when a batch `B2` is indexed without error into a well-formed index
(whatever earlier batches put there), then in the returned index (1) the posting list of
every token that an item of `B2` produces is a permutation of the entries that `B2`
appends under the token, each item of `B2` once for every occurrence of the token in its
token list: the list stored before is replaced, not merged; (2) every other token has the
posting list it had before; (3) a prefix search with a limit `k <= 0` and no filter, for
a prefix whose normalization is not empty, returns exactly these identities: those of the
items of `B2` that produce a token starting with the normalized prefix, and those stored
before under a token that starts with it and that no item of `B2` produces (the count of
matches fitting in a Go `int`). -/
theorem IndexItems_posting_replaced [DecidableEq ι] (idx idx2 : Index T) (B2 : List T)
    (hwf : idx.index.WF) (h : (idx.IndexItems B2).1 = some idx2) :
    (∀ t, (∃ item ∈ B2, t ∈ idx.tokenizer.Tokenize item) →
      ∃ l, idx2.index.Get t = some l ∧ l.Perm (batchPostings idx.tokenizer B2 t)) ∧
    (∀ t, (∀ item ∈ B2, t ∉ idx.tokenizer.Tokenize item) →
      idx2.index.Get t = idx.index.Get t) ∧
    (∀ (p : String) (k : Int) (i : ι), k ≤ 0 → idx2.tokenizer.NormalizeString p ≠ "" →
      (totalMatches idx2 p : Int) ≤ maxInt →
      (i ∈ (idx2.PrefixSearch p k none).map GetID ↔
        ∃ t, (idx2.tokenizer.NormalizeString p).data.isPrefixOf t.data = true ∧
          ((∃ x ∈ B2, t ∈ idx.tokenizer.Tokenize x ∧ GetID x = i) ∨
            ((∀ item ∈ B2, t ∉ idx.tokenizer.Tokenize item) ∧
              ∃ l, idx.index.Get t = some l ∧ ∃ x ∈ l, GetID x = i)))) := by
  obtain ⟨_, hget⟩ := IndexItems_ok idx idx2 B2 h
  have hnew : ∀ t, (∃ item ∈ B2, t ∈ idx.tokenizer.Tokenize item) →
      ∃ l, idx2.index.Get t = some l ∧ l.Perm (batchPostings idx.tokenizer B2 t) := by
    rintro t ⟨item, hitem, htok⟩
    have hmem : item ∈ batchPostings idx.tokenizer B2 t :=
      (mem_batchPostings _ _ _ _).mpr ⟨hitem, htok⟩
    have hg := hget t
    cases hb : batchPostings idx.tokenizer B2 t with
    | nil => rw [hb] at hmem; simp at hmem
    | cons x rest =>
      rw [hb] at hg
      exact ⟨committed (x :: rest), hg, committed_perm _⟩
  have hold : ∀ t, (∀ item ∈ B2, t ∉ idx.tokenizer.Tokenize item) →
      idx2.index.Get t = idx.index.Get t := by
    intro t hno
    have hg := hget t
    cases hb : batchPostings idx.tokenizer B2 t with
    | nil => rw [hb] at hg; exact hg
    | cons x rest =>
      have hx : x ∈ batchPostings idx.tokenizer B2 t := by rw [hb]; exact List.mem_cons_self _ _
      obtain ⟨hx1, hx2⟩ := (mem_batchPostings _ _ _ _).mp hx
      exact absurd hx2 (hno x hx1)
  refine ⟨hnew, hold, ?_⟩
  intro p k i hk hne hfit
  rw [PrefixSearch_unbounded_ids idx2 p k hk hne hfit i,
    mem_matchingItems_ids idx2 (IndexItems_WF idx idx2 B2 h hwf) p i]
  constructor
  · rintro ⟨t, l, hp, hg, x, hx, hid⟩
    refine ⟨t, hp, ?_⟩
    by_cases hex : ∃ item ∈ B2, t ∈ idx.tokenizer.Tokenize item
    · left
      obtain ⟨l2, hl2, hperm⟩ := hnew t hex
      rw [hg] at hl2
      simp only [Option.some.injEq] at hl2
      subst hl2
      obtain ⟨hx1, hx2⟩ := (mem_batchPostings _ _ _ _).mp (hperm.subset hx)
      exact ⟨x, hx1, hx2, hid⟩
    · right
      have hno : ∀ item ∈ B2, t ∉ idx.tokenizer.Tokenize item :=
        fun item hitem htok => hex ⟨item, hitem, htok⟩
      refine ⟨hno, l, ?_, x, hx, hid⟩
      rw [← hold t hno]
      exact hg
  · rintro ⟨t, hp, hcase⟩
    rcases hcase with ⟨x, hx1, hx2, hid⟩ | ⟨hno, l, hg, x, hx, hid⟩
    · obtain ⟨l2, hl2, hperm⟩ := hnew t ⟨x, hx1, hx2⟩
      exact ⟨t, l2, hp, hl2, x,
        hperm.symm.subset ((mem_batchPostings _ _ _ _).mpr ⟨hx1, hx2⟩), hid⟩
    · exact ⟨t, l, hp, (hold t hno).trans hg, x, hx, hid⟩

/-- C3 (witness): the batch `[apple (address 2)]` indexed into the index of the batch
`[apple (address 1), alias fruit]`: under `apple` the returned index holds the item at
address 2 only, under `fruit` still the item at address 1; the search for `app` returns
the item at address 2, the search for `fr` the item at address 1. -/
theorem IndexItems_posting_replaced_witness :
    (exampleIndex [("apple", [⟨1, "apple", 10, ["fruit"]⟩]),
      ("fruit", [⟨1, "apple", 10, ["fruit"]⟩])]).index.WF ∧
    ((exampleIndex [("apple", [⟨1, "apple", 10, ["fruit"]⟩]),
        ("fruit", [⟨1, "apple", 10, ["fruit"]⟩])]).IndexItems [⟨2, "apple", 5, []⟩]).1
      = some (exampleIndex [("apple", [⟨2, "apple", 5, []⟩]),
          ("fruit", [⟨1, "apple", 10, ["fruit"]⟩])]) ∧
    (∃ l, (exampleIndex [("apple", [⟨2, "apple", 5, []⟩]),
          ("fruit", [⟨1, "apple", 10, ["fruit"]⟩])]).index.Get "apple" = some l ∧
        l.Perm (batchPostings (DefaultTokenizer ExampleItem) [⟨2, "apple", 5, []⟩] "apple")) ∧
    (1 ∈ ((exampleIndex [("apple", [⟨2, "apple", 5, []⟩]),
          ("fruit", [⟨1, "apple", 10, ["fruit"]⟩])]).PrefixSearch "app" 0 none).map GetID ↔
      ∃ t, ((DefaultTokenizer ExampleItem).NormalizeString "app").data.isPrefixOf t.data = true ∧
        ((∃ x ∈ [(⟨2, "apple", 5, []⟩ : ExampleItem)],
            t ∈ (DefaultTokenizer ExampleItem).Tokenize x ∧ GetID x = 1) ∨
          ((∀ item ∈ [(⟨2, "apple", 5, []⟩ : ExampleItem)],
              t ∉ (DefaultTokenizer ExampleItem).Tokenize item) ∧
            ∃ l, (exampleIndex [("apple", [⟨1, "apple", 10, ["fruit"]⟩]),
                ("fruit", [⟨1, "apple", 10, ["fruit"]⟩])]).index.Get t = some l ∧
              ∃ x ∈ l, GetID x = 1))) ∧
    setupIndexWithItems [⟨1, "apple", 10, ["fruit"]⟩]
      = some (exampleIndex [("apple", [⟨1, "apple", 10, ["fruit"]⟩]),
          ("fruit", [⟨1, "apple", 10, ["fruit"]⟩])]) ∧
    batchPostings (DefaultTokenizer ExampleItem) [⟨2, "apple", 5, []⟩] "apple"
      = [⟨2, "apple", 5, []⟩] ∧
    (exampleIndex [("apple", [⟨2, "apple", 5, []⟩]),
        ("fruit", [⟨1, "apple", 10, ["fruit"]⟩])]).PrefixSearch "app" 0 none
      = [⟨2, "apple", 5, []⟩] ∧
    (exampleIndex [("apple", [⟨2, "apple", 5, []⟩]),
        ("fruit", [⟨1, "apple", 10, ["fruit"]⟩])]).PrefixSearch "fr" 0 none
      = [⟨1, "apple", 10, ["fruit"]⟩] :=
  ⟨by unfold Tree.WF; decide, rfl,
    (IndexItems_posting_replaced
      (exampleIndex [("apple", [⟨1, "apple", 10, ["fruit"]⟩]),
        ("fruit", [⟨1, "apple", 10, ["fruit"]⟩])])
      (exampleIndex [("apple", [⟨2, "apple", 5, []⟩]),
        ("fruit", [⟨1, "apple", 10, ["fruit"]⟩])])
      [⟨2, "apple", 5, []⟩] (by unfold Tree.WF; decide) rfl).1 "apple"
        ⟨_, List.mem_singleton.mpr rfl, by decide⟩,
    (IndexItems_posting_replaced
      (exampleIndex [("apple", [⟨1, "apple", 10, ["fruit"]⟩]),
        ("fruit", [⟨1, "apple", 10, ["fruit"]⟩])])
      (exampleIndex [("apple", [⟨2, "apple", 5, []⟩]),
        ("fruit", [⟨1, "apple", 10, ["fruit"]⟩])])
      [⟨2, "apple", 5, []⟩] (by unfold Tree.WF; decide) rfl).2.2 "app" 0 1
        (by decide) (by decide) (by decide),
    rfl, by decide, by decide, by decide⟩

/-- C4: a call of `IndexItems` through a receiver pointer, on a heap in which the slices
of the receiver's tree point to allocated backing arrays, returns (with an index, with an
error or, for an empty batch, with neither) and leaves every backing array and every
`Index` struct that existed before the call as it was: the call writes to the backing
arrays that it allocates itself only. So `Len`, every `Get` and every `PrefixSearch`
through the receiver give the same result after the call as before. This holds for every
growth policy of `append`. The returned pointer and error are those of `Index.IndexItems`
on the index that the receiver stands for. -/
theorem IndexItems_receiver_unchanged [DecidableEq ι] (grow : Nat → Nat) (h : Mem.Heap T)
    (recv : Nat) (items : List T) (idx : Mem.Index T)
    (hrecv : h.structs[recv]? = some idx)
    (hvalid : ∀ e ∈ idx.index.entries, e.2.ptr < h.arrays.length) :
    ∃ h1 ret err, Mem.IndexItems grow h recv items = some (h1, ret, err) ∧
      (∀ a, a < h.arrays.length → h1.arrays[a]? = h.arrays[a]?) ∧
      (∀ a, a < h.structs.length → h1.structs[a]? = h.structs[a]?) ∧
      Mem.LenAt h1 recv = Mem.LenAt h recv ∧
      (∀ v, Mem.GetAt h1 recv v = Mem.GetAt h recv v) ∧
      (∀ p k f, Mem.PrefixSearchAt h1 recv p k f = Mem.PrefixSearchAt h recv p k f) ∧
      err = ((Mem.readIndex h idx).IndexItems items).2 ∧
      ret.bind h1.indexAt = ((Mem.readIndex h idx).IndexItems items).1 := by
  obtain ⟨h1, ret, err, hcall, harr, ha, hs⟩ := IndexItems_heap grow h recv items idx hrecv
  obtain ⟨h2, ret2, err2, hcall2, herr, hret, _⟩ :=
    IndexItems_refines grow h recv items idx hrecv hvalid
  rw [hcall] at hcall2
  simp only [Option.some.injEq, Prod.mk.injEq] at hcall2
  obtain ⟨e1, e2, e3⟩ := hcall2
  subst e1 e2 e3
  have hlt : recv < h.structs.length := by
    by_contra hge
    rw [List.getElem?_eq_none (by omega)] at hrecv
    exact absurd hrecv (by simp)
  have hidx : h1.indexAt recv = h.indexAt recv := by
    unfold Mem.Heap.indexAt
    rw [hs recv hlt, hrecv]
    simp only [Option.map_some', Option.some.injEq]
    exact readIndex_of_arrays h h1 idx (fun e he => harr _ (hvalid e he))
  refine ⟨h1, ret, err, hcall, ha, hs, ?_, fun v => ?_, fun p k f => ?_, herr, hret⟩
  · unfold Mem.LenAt; rw [hidx]
  · unfold Mem.GetAt; rw [hidx]
  · unfold Mem.PrefixSearchAt; rw [hidx]

/-- C4 (witness): on `exampleHeap`, the index at address 1 (keys `example` and `test`)
takes a batch of two items with the value `test`. The call allocates the backing arrays
4 and 5, appends the second item in place and sorts array 5 in place; the new index at
address 2 shares the backing array 3 of `example` with the receiver. The receiver still
has `Len` 2 and the item of rank 10 under `test`; the new index has the two new items
there. The last part is the insert of `TestInsert` that built `exampleHeap`: the new index
at address 0 still has `Len` 0, the returned index at address 1 has `Len` 2. In the end a
call that fails on its second item, which has no token: it leaves two new backing arrays
behind and returns an error, and the receiver is as before. -/
theorem IndexItems_receiver_unchanged_witness :
    exampleHeap.structs[1]?
      = some ⟨⟨[("example", ⟨3, 1, 2⟩), ("test", ⟨1, 1, 2⟩)]⟩, DefaultTokenizer ExampleItem⟩ ∧
    (∀ e ∈ [("example", (⟨3, 1, 2⟩ : Mem.Slice)), ("test", ⟨1, 1, 2⟩)],
      e.2.ptr < exampleHeap.arrays.length) ∧
    (∃ h1 ret err,
      Mem.IndexItems exampleGrow exampleHeap 1
        [⟨2, "test", 5, []⟩, ⟨3, "test", 20, []⟩] = some (h1, ret, err) ∧
      (∀ a, a < exampleHeap.arrays.length → h1.arrays[a]? = exampleHeap.arrays[a]?) ∧
      (∀ a, a < exampleHeap.structs.length → h1.structs[a]? = exampleHeap.structs[a]?) ∧
      Mem.LenAt h1 1 = Mem.LenAt exampleHeap 1 ∧
      (∀ v, Mem.GetAt h1 1 v = Mem.GetAt exampleHeap 1 v) ∧
      (∀ p k f, Mem.PrefixSearchAt h1 1 p k f = Mem.PrefixSearchAt exampleHeap 1 p k f) ∧
      err = ((Mem.readIndex exampleHeap
        ⟨⟨[("example", ⟨3, 1, 2⟩), ("test", ⟨1, 1, 2⟩)]⟩,
          DefaultTokenizer ExampleItem⟩).IndexItems
          [⟨2, "test", 5, []⟩, ⟨3, "test", 20, []⟩]).2 ∧
      ret.bind h1.indexAt = ((Mem.readIndex exampleHeap
        ⟨⟨[("example", ⟨3, 1, 2⟩), ("test", ⟨1, 1, 2⟩)]⟩,
          DefaultTokenizer ExampleItem⟩).IndexItems
          [⟨2, "test", 5, []⟩, ⟨3, "test", 20, []⟩]).1) ∧
    (Mem.IndexItems exampleGrow exampleHeap 1 [⟨2, "test", 5, []⟩, ⟨3, "test", 20, []⟩]).map
        (fun r => (r.1.arrays, r.2.1))
      = some ([[], [⟨1, "test", 10, ["example"]⟩], [], [⟨1, "test", 10, ["example"]⟩], [],
          [⟨3, "test", 20, []⟩, ⟨2, "test", 5, []⟩]], some 2) ∧
    (Mem.IndexItems exampleGrow exampleHeap 1 [⟨2, "test", 5, []⟩, ⟨3, "test", 20, []⟩]).map
        (fun r => (Mem.LenAt r.1 1, Mem.GetAt r.1 1 "test"))
      = some (some 2, some ([⟨1, "test", 10, ["example"]⟩], true)) ∧
    (Mem.IndexItems exampleGrow exampleHeap 1 [⟨2, "test", 5, []⟩, ⟨3, "test", 20, []⟩]).map
        (fun r => (Mem.LenAt r.1 2, Mem.GetAt r.1 2 "test", Mem.GetAt r.1 2 "example"))
      = some (some 2, some ([⟨3, "test", 20, []⟩, ⟨2, "test", 5, []⟩], true),
          some ([⟨1, "test", 10, ["example"]⟩], true)) ∧
    (Mem.IndexItems exampleGrow ⟨[], [⟨Tree.New, DefaultTokenizer ExampleItem⟩]⟩ 0
        [⟨1, "test", 10, ["example"]⟩]).map (fun r => r.1.arrays)
      = some exampleHeap.arrays ∧
    (Mem.IndexItems exampleGrow ⟨[], [⟨Tree.New, DefaultTokenizer ExampleItem⟩]⟩ 0
        [⟨1, "test", 10, ["example"]⟩]).map (fun r => r.1.structs.map (fun s =>
          s.index.entries.map (fun e => (e.1, e.2.ptr, e.2.len, e.2.cap))))
      = some [[], [("example", 3, 1, 2), ("test", 1, 1, 2)]] ∧
    (Mem.IndexItems exampleGrow ⟨[], [⟨Tree.New, DefaultTokenizer ExampleItem⟩]⟩ 0
        [⟨1, "test", 10, ["example"]⟩]).map
        (fun r => (r.2.1, Mem.LenAt r.1 0, Mem.LenAt r.1 1))
      = some (some 1, some 0, some 2) ∧
    (Mem.IndexItems exampleGrow exampleHeap 1 [⟨4, "test", 1, []⟩, ⟨9, "", 1, []⟩]).map
        (fun r => (r.1.arrays.length, r.2.1, r.2.2.isSome))
      = some (6, none, true) ∧
    (Mem.IndexItems exampleGrow exampleHeap 1 [⟨4, "test", 1, []⟩, ⟨9, "", 1, []⟩]).map
        (fun r => (Mem.LenAt r.1 1, Mem.GetAt r.1 1 "test"))
      = some (some 2, some ([⟨1, "test", 10, ["example"]⟩], true)) :=
  ⟨rfl, by decide,
    IndexItems_receiver_unchanged exampleGrow exampleHeap 1
      [⟨2, "test", 5, []⟩, ⟨3, "test", 20, []⟩] _ rfl (by decide),
    by decide, by decide, by decide, by decide, by decide, by decide, by decide,
    by decide⟩

/-- C5 (counterexample): `IndexItems` of the empty batch on the index of the five test
items returns no index at all, hence not the unchanged index. -/
theorem IndexItems_empty_returns_nil :
    ¬ ∃ idx1, ((indexOf testItems).IndexItems []).1 = some idx1 := by
  rintro ⟨idx1, h⟩
  exact Option.noConfusion h

/-- C5 (amended): for every index, `IndexItems` of an empty list returns no error and no
index: both results are nil, and the receiver is not the value returned. -/
theorem IndexItems_empty (idx : Index T) : idx.IndexItems [] = (none, none) := rfl

/-- C6: for every index and every non-empty batch, `IndexItems` returns an error if and
only if the tokenizer yields zero tokens for at least one item of the batch; when it
returns an error it returns no index, and when it returns no error it returns one. -/
theorem IndexItems_error_iff (idx : Index T) (items : List T) (hne : items ≠ []) :
    ((idx.IndexItems items).2.isSome ↔ ∃ item ∈ items, idx.tokenizer.Tokenize item = []) ∧
    ((idx.IndexItems items).2.isSome → (idx.IndexItems items).1 = none) ∧
    ((idx.IndexItems items).2 = none → (idx.IndexItems items).1.isSome) := by
  have hlen : ¬ items.length = 0 := fun e => hne (List.length_eq_zero.mp e)
  have hiff := buildInvertedIndex_error_iff idx items []
  unfold Index.IndexItems
  simp only [hlen, if_false]
  cases hb : buildInvertedIndex idx items [] with
  | error err =>
    rw [hb] at hiff
    simp only [Option.isSome_some, true_iff, forall_const, true_and]
    exact ⟨hiff.mp ⟨err, rfl⟩, by simp⟩
  | ok inv =>
    rw [hb] at hiff
    simp only [Option.isSome_none, Bool.false_eq_true, false_iff, false_implies, true_and,
      Option.isSome_some, implies_true, and_true]
    intro hex
    obtain ⟨err, herr⟩ := hiff.mpr hex
    simp at herr

/-- C6 (witness): the batch of `apple` and of an item whose only value is a blank, which
has no token; the call returns an error and no index. -/
theorem IndexItems_error_iff_witness :
    [(⟨1, "apple", 10, []⟩ : ExampleItem), ⟨2, " ", 3, []⟩] ≠ [] ∧
    ((((New [] : Index ExampleItem).IndexItems [⟨1, "apple", 10, []⟩, ⟨2, " ", 3, []⟩]).2.isSome ↔
      ∃ item ∈ [(⟨1, "apple", 10, []⟩ : ExampleItem), ⟨2, " ", 3, []⟩],
        (New [] : Index ExampleItem).tokenizer.Tokenize item = []) ∧
    (((New [] : Index ExampleItem).IndexItems [⟨1, "apple", 10, []⟩, ⟨2, " ", 3, []⟩]).2.isSome →
      ((New [] : Index ExampleItem).IndexItems [⟨1, "apple", 10, []⟩, ⟨2, " ", 3, []⟩]).1 = none) ∧
    (((New [] : Index ExampleItem).IndexItems [⟨1, "apple", 10, []⟩, ⟨2, " ", 3, []⟩]).2 = none →
      ((New [] : Index ExampleItem).IndexItems
        [⟨1, "apple", 10, []⟩, ⟨2, " ", 3, []⟩]).1.isSome)) ∧
    ((New [] : Index ExampleItem).IndexItems [⟨1, "apple", 10, []⟩, ⟨2, " ", 3, []⟩]).2.isSome
      = true :=
  ⟨by decide,
    IndexItems_error_iff (New [] : Index ExampleItem)
      [⟨1, "apple", 10, []⟩, ⟨2, " ", 3, []⟩] (by decide),
    by decide⟩

/-- C7 (failing input): the batch `ab` (address 1, rank `math.MaxInt`), `ab` (address 2,
rank -2), both ranks being Go `int` values, indexed into a new index. The comparison
`b.GetRank() - a.GetRank()` wraps, and the posting list committed under `ab` has the
ranks `[-2, MaxInt]`, which is not a non-increasing order. -/
theorem IndexItems_posting_order_overflow :
    inIntRange 9223372036854775807 ∧ inIntRange (-2) ∧
    rankCmp (⟨2, "ab", -2, []⟩ : ExampleItem) ⟨1, "ab", 9223372036854775807, []⟩
      = -9223372036854775807 ∧
    ((New [] : Index ExampleItem).IndexItems
      [⟨1, "ab", 9223372036854775807, []⟩, ⟨2, "ab", -2, []⟩]).1.map
      (fun idx => (idx.Get "ab").1.map GetRank) = some [-2, 9223372036854775807] := by
  decide

/-- C8: for every index, prefix, limit and filter, the sequence returned by
`PrefixSearch` is sorted by non-increasing rank: every item has a rank greater than or
equal to the rank of every item after it. -/
theorem PrefixSearch_sorted [DecidableEq ι] (idx : Index T) (pfx0 : String) (limit0 : Int)
    (filterFn : ResultFilterFn T) :
    (idx.PrefixSearch pfx0 limit0 filterFn).Pairwise (fun a b => GetRank a ≥ GetRank b) := by
  by_cases hne : idx.tokenizer.NormalizeString pfx0 = ""
  · rw [PrefixSearch_empty idx pfx0 limit0 filterFn hne]; exact List.Pairwise.nil
  · obtain ⟨rs, hp, hs, he⟩ := PrefixSearch_eq idx pfx0 limit0 filterFn hne
    have hok : heapOK (finalState idx pfx0 limit0 filterFn) :=
      scanTokens_heapOK _ _ _ _ _ heapOK_init
    rw [he, List.pairwise_reverse, List.pairwise_map]
    refine hs.imp_of_mem ?_
    intro a b ha hb hab
    rw [← hok.2.1 a (hp.subset ha), ← hok.2.1 b (hp.subset hb)]
    exact hab


/-- C9: for every index, prefix, limit and filter, no two items in the result of
`PrefixSearch` have the same `GetID`. -/
theorem PrefixSearch_nodup [DecidableEq ι] (idx : Index T) (pfx0 : String) (limit0 : Int)
    (filterFn : ResultFilterFn T) :
    ((idx.PrefixSearch pfx0 limit0 filterFn).map GetID).Nodup := by
  by_cases hne : idx.tokenizer.NormalizeString pfx0 = ""
  · rw [PrefixSearch_empty idx pfx0 limit0 filterFn hne]; exact List.nodup_nil
  · obtain ⟨rs, hp, hs, he⟩ := PrefixSearch_eq idx pfx0 limit0 filterFn hne
    have hok : heapOK (finalState idx pfx0 limit0 filterFn) :=
      scanTokens_heapOK _ _ _ _ _ heapOK_init
    rw [he, List.map_reverse, List.nodup_reverse, List.map_map]
    exact ((hp.map _).nodup_iff).mpr hok.2.2.1

/-- C10: indexing `apple` (rank 10), `application` (rank 15) and `apply` (rank 8), without
aliases, into a new index with the default tokenizer and calling
`PrefixSearch("app", 2, nil)` returns `[application, apple]`, in that order. -/
theorem PrefixSearch_scenario_app :
    ((New [] : Index ExampleItem).IndexItems
      [⟨1, "apple", 10, []⟩, ⟨2, "application", 15, []⟩, ⟨3, "apply", 8, []⟩]).1.map
      (fun idx => idx.PrefixSearch "app" 2 none)
      = some [⟨2, "application", 15, []⟩, ⟨1, "apple", 10, []⟩] := by
  decide

/-- C11: for every index (its tree well-formed, as every tree is) and every non-empty
batch that indexes without error, `Len` of the returned index is the number of distinct
strings among the keys of the index and the tokens that the tokenizer produces for the
items of the batch. -/
theorem IndexItems_Len (idx idx2 : Index T) (items : List T)
    (hwf : idx.index.WF) (h : (idx.IndexItems items).1 = some idx2) :
    idx2.Len = (idx.keys ++ batchTokens idx items).dedup.length := by
  have hnd : idx2.keys.Nodup := WF_keys_nodup _ (IndexItems_WF idx idx2 items h hwf)
  have hlen : idx2.Len = idx2.keys.length := by
    simp [Index.Len, Tree.Len, Index.keys]
  rw [hlen]
  apply nodup_length_eq_dedup _ _ hnd
  · intro t ht
    rw [List.mem_append]
    exact (IndexItems_keys idx idx2 items h t).mp ht
  · intro t ht
    rw [List.mem_append] at ht
    exact (IndexItems_keys idx idx2 items h t).mpr ht

/-- C11 (witness): the insert of `TestInsert` into a new index: the new index has `Len` 0,
one item with the value `test` and the alias `example` gives `Len` 2, and indexing the
same item again in a second batch leaves `Len` at 2. -/
theorem IndexItems_Len_witness :
    (New [] : Index ExampleItem).index.WF ∧
    ((New [] : Index ExampleItem).IndexItems [⟨1, "test", 10, ["example"]⟩]).1
      = some (exampleIndex [("example", [⟨1, "test", 10, ["example"]⟩]),
          ("test", [⟨1, "test", 10, ["example"]⟩])]) ∧
    (exampleIndex [("example", [⟨1, "test", 10, ["example"]⟩]),
        ("test", [⟨1, "test", 10, ["example"]⟩])]).Len
      = ((New [] : Index ExampleItem).keys ++
          batchTokens (New [] : Index ExampleItem) [⟨1, "test", 10, ["example"]⟩]).dedup.length ∧
    (New [] : Index ExampleItem).Len = 0 ∧
    (exampleIndex [("example", [⟨1, "test", 10, ["example"]⟩]),
        ("test", [⟨1, "test", 10, ["example"]⟩])]).Len = 2 ∧
    ((exampleIndex [("example", [⟨1, "test", 10, ["example"]⟩]),
        ("test", [⟨1, "test", 10, ["example"]⟩])]).IndexItems
        [⟨1, "test", 10, ["example"]⟩]).1.map Index.Len = some 2 :=
  ⟨WF_New [], rfl,
    IndexItems_Len (New [] : Index ExampleItem) _ [⟨1, "test", 10, ["example"]⟩] (WF_New []) rfl,
    by decide, by decide, by decide⟩

/-- C12: for every index, every non-empty batch that indexes without error and every
token that the tokenizer produces for no item of the batch, the exact lookup of the token
in the returned index gives the same posting list and the same found flag as in the
index before, in the tree and through `Get`. -/
theorem IndexItems_other_tokens (idx idx2 : Index T) (items : List T) (t : String)
    (h : (idx.IndexItems items).1 = some idx2)
    (ht : ∀ item ∈ items, t ∉ idx.tokenizer.Tokenize item) :
    idx2.index.Get t = idx.index.Get t ∧
    ∀ v, idx.tokenizer.NormalizeString v = t → idx2.Get v = idx.Get v := by
  obtain ⟨htk, hget⟩ := IndexItems_ok idx idx2 items h
  have hnil : batchPostings idx.tokenizer items t = [] := by
    cases hb : batchPostings idx.tokenizer items t with
    | nil => rfl
    | cons x rest =>
      have hx : x ∈ batchPostings idx.tokenizer items t := by rw [hb]; simp
      have := (mem_batchPostings _ _ _ _).mp hx
      exact absurd this.2 (ht x this.1)
  have hg := hget t
  rw [hnil] at hg
  refine ⟨hg, fun v hv => ?_⟩
  unfold Index.Get
  simp only [htk, hv, hg]

/-- C12 (witness): the batch `[banana]` indexed into the index of `[apple]`, for the token
`apple`. -/
theorem IndexItems_other_tokens_witness :
    ((indexOf [⟨1, "apple", 10, []⟩]).IndexItems [⟨2, "banana", 12, []⟩]).1
      = some (exampleIndex [("apple", [⟨1, "apple", 10, []⟩]),
          ("banana", [⟨2, "banana", 12, []⟩])]) ∧
    (∀ item ∈ [(⟨2, "banana", 12, []⟩ : ExampleItem)],
      "apple" ∉ (indexOf [⟨1, "apple", 10, []⟩]).tokenizer.Tokenize item) ∧
    ((exampleIndex [("apple", [⟨1, "apple", 10, []⟩]),
        ("banana", [⟨2, "banana", 12, []⟩])]).index.Get "apple"
      = (indexOf [⟨1, "apple", 10, []⟩]).index.Get "apple" ∧
    ∀ v, (indexOf [⟨1, "apple", 10, []⟩]).tokenizer.NormalizeString v = "apple" →
      (exampleIndex [("apple", [⟨1, "apple", 10, []⟩]),
        ("banana", [⟨2, "banana", 12, []⟩])]).Get v
        = (indexOf [⟨1, "apple", 10, []⟩]).Get v) :=
  ⟨rfl, by decide,
    IndexItems_other_tokens (indexOf [⟨1, "apple", 10, []⟩]) _ [⟨2, "banana", 12, []⟩] "apple"
      rfl (by decide)⟩

/-- C13: for every index and string value, `Get(value)` normalizes the value with the
tokenizer's `NormalizeString`; when the normalized string is empty it returns
found = false; otherwise it returns found = true with the stored posting list when the
normalized string is a key of the tree, and found = false when it is not. -/
theorem Index_Get_exact (idx : Index T) (value : String) :
    (idx.tokenizer.NormalizeString value = "" → idx.Get value = ([], false)) ∧
    (idx.tokenizer.NormalizeString value ≠ "" →
      (idx.tokenizer.NormalizeString value ∈ idx.index.entries.map Prod.fst →
        ∃ l, (idx.tokenizer.NormalizeString value, l) ∈ idx.index.entries ∧
          idx.index.Get (idx.tokenizer.NormalizeString value) = some l ∧
          idx.Get value = (l, true)) ∧
      (idx.tokenizer.NormalizeString value ∉ idx.index.entries.map Prod.fst →
        idx.Get value = ([], false))) := by
  constructor
  · intro h
    simp [Index.Get, h]
  · intro hne
    constructor
    · intro hmem
      obtain ⟨e, he, hk⟩ := List.mem_map.mp hmem
      cases hfind : idx.index.entries.find? (fun e => e.1 = idx.tokenizer.NormalizeString value) with
      | none =>
        have := List.find?_eq_none.mp hfind e he
        simp [hk] at this
      | some e1 =>
        have hmem1 := List.mem_of_find?_eq_some hfind
        have hkey := List.find?_some hfind
        simp only [decide_eq_true_eq] at hkey
        refine ⟨e1.2, ?_, ?_, ?_⟩
        · rw [← hkey]; exact hmem1
        · simp [Tree.Get, hfind]
        · simp [Index.Get, hne, Tree.Get, hfind]
    · intro hnot
      have hfind : idx.index.entries.find? (fun e => e.1 = idx.tokenizer.NormalizeString value)
          = none := by
        apply List.find?_eq_none.mpr
        intro e he hk
        simp only [decide_eq_true_eq] at hk
        exact hnot (List.mem_map.mpr ⟨e, he, hk⟩)
      simp [Index.Get, hne, Tree.Get, hfind]


/-- C13 (witness): `Get` of `" Apple "`, of `"pear"` and of `"  "` on the index of the
five test items. -/
theorem Index_Get_exact_witness :
    (((indexOf testItems).tokenizer.NormalizeString " Apple " = "" →
        (indexOf testItems).Get " Apple " = ([], false)) ∧
      ((indexOf testItems).tokenizer.NormalizeString " Apple " ≠ "" →
        ((indexOf testItems).tokenizer.NormalizeString " Apple "
            ∈ (indexOf testItems).index.entries.map Prod.fst →
          ∃ l, ((indexOf testItems).tokenizer.NormalizeString " Apple ", l)
              ∈ (indexOf testItems).index.entries ∧
            (indexOf testItems).index.Get
              ((indexOf testItems).tokenizer.NormalizeString " Apple ") = some l ∧
            (indexOf testItems).Get " Apple " = (l, true)) ∧
        ((indexOf testItems).tokenizer.NormalizeString " Apple "
            ∉ (indexOf testItems).index.entries.map Prod.fst →
          (indexOf testItems).Get " Apple " = ([], false)))) ∧
    (indexOf testItems).Get " Apple " = ([⟨1, "apple", 10, ["fruit", "red"]⟩], true) ∧
    (indexOf testItems).Get "pear" = ([], false) ∧
    (indexOf testItems).Get "  " = ([], false) :=
  ⟨Index_Get_exact (indexOf testItems) " Apple ", by decide, by decide, by decide⟩

/-- C14 (counterexample): under the default tokenizer, (1) the item with the single value
`abc_`: `NormalizeString` gives `"abc "`, tokenizing the value produces `abc` only, yet
`Get("abc ")` finds the item, because `Get` normalizes once more; (2) the item with the
values `a  b` and `a ( b`: tokenizing `a  b` does not produce `a  b` (it produces `a b`
and `b`), yet `Get("a  b")` finds the item, through the bracket-free variation of the
token `a ( b` of its other value. -/
theorem Get_normalized_not_iff :
    (NormalizeString "abc_" = "abc " ∧ tokenizeString "abc_" = ["abc"] ∧
      ((New [] : Index ExampleItem).IndexItems [⟨1, "abc_", 1, []⟩]).1.map
        (fun idx => idx.Get (NormalizeString "abc_")) = some ([⟨1, "abc_", 1, []⟩], true)) ∧
    (NormalizeString "a  b" = "a  b" ∧ tokenizeString "a  b" = ["a b", "b"] ∧
      ((New [] : Index ExampleItem).IndexItems [⟨1, "a  b", 1, ["a ( b"]⟩]).1.map
        (fun idx => idx.Get (NormalizeString "a  b"))
        = some ([⟨1, "a  b", 1, ["a ( b"]⟩], true)) := by
  decide

/-- C14 (amended): for every batch indexed without error into a new index under the
default tokenizer, every item of the batch and every string `X`,
`Get(NormalizeString(X))` finds the item (found = true and the item is in the returned
posting list) if and only if the key that `Get` looks up, which is
`NormalizeString(NormalizeString(X))`, is not empty and is one of the tokens that the
tokenizer produced for the item, from any of its values. -/
theorem Get_normalized_iff (B : List T) (idx2 : Index T) (item : T) (X : String)
    (h : ((New [] : Index T).IndexItems B).1 = some idx2) (hitem : item ∈ B) :
    ((idx2.Get (NormalizeString X)).2 = true ∧ item ∈ (idx2.Get (NormalizeString X)).1) ↔
      (NormalizeString (NormalizeString X) ≠ "" ∧
        NormalizeString (NormalizeString X) ∈ (DefaultTokenizer T).Tokenize item) := by
  have htk : idx2.tokenizer = DefaultTokenizer T := (IndexItems_ok (New []) idx2 B h).1
  have hn : idx2.tokenizer.NormalizeString (NormalizeString X)
      = NormalizeString (NormalizeString X) := by
    rw [htk, DefaultTokenizer_NormalizeString]
  have h1 := Index_Get_found_iff idx2 (NormalizeString X) item
  rw [hn] at h1
  rw [h1, Get_after_IndexItems_New B idx2 item _ h hitem]

/-- C14 (witness): the batch `[Apple Pie]` indexed into a new index, and the value
`" Apple_Pie"`, under which `Get` finds the item. -/
theorem Get_normalized_iff_witness :
    ((New [] : Index ExampleItem).IndexItems [⟨1, "Apple Pie", 10, []⟩]).1
      = some (exampleIndex [("apple pie", [⟨1, "Apple Pie", 10, []⟩]),
          ("pie", [⟨1, "Apple Pie", 10, []⟩])]) ∧
    (⟨1, "Apple Pie", 10, []⟩ : ExampleItem) ∈ [(⟨1, "Apple Pie", 10, []⟩ : ExampleItem)] ∧
    ((((exampleIndex [("apple pie", [⟨1, "Apple Pie", 10, []⟩]),
          ("pie", [⟨1, "Apple Pie", 10, []⟩])]).Get (NormalizeString " Apple_Pie")).2 = true ∧
        (⟨1, "Apple Pie", 10, []⟩ : ExampleItem) ∈
          ((exampleIndex [("apple pie", [⟨1, "Apple Pie", 10, []⟩]),
            ("pie", [⟨1, "Apple Pie", 10, []⟩])]).Get (NormalizeString " Apple_Pie")).1) ↔
      (NormalizeString (NormalizeString " Apple_Pie") ≠ "" ∧
        NormalizeString (NormalizeString " Apple_Pie") ∈
          (DefaultTokenizer ExampleItem).Tokenize ⟨1, "Apple Pie", 10, []⟩)) ∧
    ((exampleIndex [("apple pie", [⟨1, "Apple Pie", 10, []⟩]),
        ("pie", [⟨1, "Apple Pie", 10, []⟩])]).Get (NormalizeString " Apple_Pie")
      = ([⟨1, "Apple Pie", 10, []⟩], true)) :=
  ⟨rfl, List.mem_singleton.mpr rfl,
    Get_normalized_iff [(⟨1, "Apple Pie", 10, []⟩ : ExampleItem)] _ ⟨1, "Apple Pie", 10, []⟩
      " Apple_Pie" rfl (List.mem_singleton.mpr rfl),
    by decide⟩

/-- C15: for every index, limit and filter, `PrefixSearch` with a prefix that normalizes
to the empty string returns an empty sequence. -/
theorem PrefixSearch_empty_prefix [DecidableEq ι] (idx : Index T) (pfx0 : String) (k : Int)
    (filterFn : ResultFilterFn T) (he : idx.tokenizer.NormalizeString pfx0 = "") :
    idx.PrefixSearch pfx0 k filterFn = [] := by
  unfold Index.PrefixSearch
  simp only [he, if_true]

/-- C15 (witness): the prefix `""` on the index of the five test items, with the limit 0
and no filter; a prefix of blanks behaves the same. -/
theorem PrefixSearch_empty_prefix_witness :
    (indexOf testItems).tokenizer.NormalizeString "" = "" ∧
    (indexOf testItems).PrefixSearch "" 0 none = [] ∧
    (indexOf testItems).PrefixSearch "  " 3 none = [] :=
  ⟨by decide, PrefixSearch_empty_prefix (indexOf testItems) "" 0 none (by decide), by decide⟩

/-- C16: for every index, prefix and limit, `PrefixSearch` with a filter that returns
false on every input returns an empty sequence. -/
theorem PrefixSearch_rejecting_filter [DecidableEq ι] (idx : Index T) (pfx0 : String) (k : Int)
    (f : String → String → T → Bool) (hf : ∀ q t x, f q t x = false) :
    idx.PrefixSearch pfx0 k (some f) = [] := by
  by_cases hne : idx.tokenizer.NormalizeString pfx0 = ""
  · exact PrefixSearch_empty idx pfx0 k (some f) hne
  · obtain ⟨rs, hp, _, he⟩ := PrefixSearch_eq idx pfx0 k (some f) hne
    have hfin : (finalState idx pfx0 k (some f)).minHeap = [] :=
      scanTokens_reject _ _ f hf _ _ rfl
    rw [hfin] at hp
    rw [he, List.Perm.eq_nil hp]
    rfl


/-- C16 (witness): the prefix `app` with the limit 0 on the index of the five test items,
with the filter that rejects everything. -/
theorem PrefixSearch_rejecting_filter_witness :
    (∀ (q t : String) (x : ExampleItem), (fun _ _ _ => false : String → String → ExampleItem → Bool) q t x = false) ∧
    (indexOf testItems).PrefixSearch "app" 0 (some (fun _ _ _ => false)) = [] :=
  ⟨fun _ _ _ => rfl,
    PrefixSearch_rejecting_filter (indexOf testItems) "app" 0 (fun _ _ _ => false)
      (fun _ _ _ => rfl)⟩

/-- C17: for every item, `DefaultTokenizer.Tokenize` returns, as a set, the union over the
values `v` of the item of: (1) every suffix of the whitespace-split words of
`NormalizeString(v)`, joined by single spaces; (2) when `v` contains `-` and has more
than 3 bytes, the same suffixes after replacing `-` by a space in the normalized value;
(3) every token of (1) or (2) that is at least 4 bytes long and contains a bracket, with
all brackets removed. -/
theorem Tokenize_reference (item : T) (t : String) :
    t ∈ (DefaultTokenizer T).Tokenize item ↔ t ∈ refTokens (GetValuesForIndexing item) := by
  show t ∈ tokenizeValues (GetValuesForIndexing item) ↔ _
  exact mem_tokenizeValues_ref _ t

/-- C17 (examples): the token sets of `it just works`, `it-just-works` and
`it (just) works`. -/
theorem Tokenize_reference_examples :
    (∀ t, t ∈ (DefaultTokenizer ExampleItem).Tokenize ⟨1, "it-just-works", 5, []⟩ ↔
      t ∈ refTokens (GetValuesForIndexing (⟨1, "it-just-works", 5, []⟩ : ExampleItem))) ∧
    List.Perm ((DefaultTokenizer ExampleItem).Tokenize ⟨1, "it just works", 5, []⟩)
      ["it just works", "just works", "works"] ∧
    List.Perm ((DefaultTokenizer ExampleItem).Tokenize ⟨1, "it-just-works", 5, []⟩)
      ["it just works", "just works", "works", "it-just-works"] ∧
    List.Perm ((DefaultTokenizer ExampleItem).Tokenize ⟨1, "it (just) works", 5, []⟩)
      ["it just works", "just works", "works", "it (just) works", "(just) works"] :=
  ⟨fun t => Tokenize_reference (⟨1, "it-just-works", 5, []⟩ : ExampleItem) t,
    by decide, by decide, by decide⟩

/-- C18: for every value whose lowercased, trimmed form is longer than 3 bytes,
`DefaultTokenizer.Tokenize` yields the same tokens for the value and for the value with
every underscore replaced by a space: the token lists of the two strings are equal, and
so are the token lists of two items that have them as their only value. -/
theorem Tokenize_underscore (v : String) (h : byteLen (trimSpace (toLower v)) > 3) :
    tokenizeString (replaceAllChar v '_' ' ') = tokenizeString v ∧
    tokenizeValues [replaceAllChar v '_' ' '] = tokenizeValues [v] := by
  have h1 := tokenizeString_underscore v h
  refine ⟨h1, ?_⟩
  unfold tokenizeValues
  simp only [List.foldl_cons, List.foldl_nil, h1]

/-- C18 (witness): the values `it_just_works` and `it just works`; the value `Ⱥ_`, which
has 3 bytes and a lowercased form of 4 bytes, and `Ⱥ` followed by a space; and the value
`İ_a`, whose lowercased form `i_a` has 3 bytes only, so that its underscore stays. -/
theorem Tokenize_underscore_witness :
    byteLen (trimSpace (toLower "it_just_works")) > 3 ∧
    (tokenizeString (replaceAllChar "it_just_works" '_' ' ') = tokenizeString "it_just_works" ∧
      tokenizeValues [replaceAllChar "it_just_works" '_' ' ']
        = tokenizeValues ["it_just_works"]) ∧
    replaceAllChar "it_just_works" '_' ' ' = "it just works" ∧
    tokenizeValues ["it_just_works"] = ["it just works", "just works", "works"] ∧
    byteLen "Ⱥ_" = 3 ∧ byteLen (trimSpace (toLower "Ⱥ_")) = 4 ∧
    (tokenizeString (replaceAllChar "Ⱥ_" '_' ' ') = tokenizeString "Ⱥ_" ∧
      tokenizeValues [replaceAllChar "Ⱥ_" '_' ' '] = tokenizeValues ["Ⱥ_"]) ∧
    tokenizeValues ["Ⱥ_"] = ["ⱥ"] ∧ tokenizeValues ["Ⱥ "] = ["ⱥ"] ∧
    byteLen (trimSpace (toLower "İ_a")) = 3 ∧
    tokenizeValues ["İ_a"] = ["i_a"] ∧ tokenizeValues ["İ a"] = ["i a", "a"] :=
  ⟨by decide, Tokenize_underscore "it_just_works" (by decide), by decide, by decide,
    by decide, by decide, Tokenize_underscore "Ⱥ_" (by decide), by decide, by decide,
    by decide, by decide, by decide⟩

/-- C19: for every item, the list returned by `DefaultTokenizer.Tokenize` contains no
string twice. -/
theorem Tokenize_nodup (item : T) : ((DefaultTokenizer T).Tokenize item).Nodup := by
  show (tokenizeValues (GetValuesForIndexing item)).Nodup
  exact tokenizeValues_nodup_aux _ _ List.nodup_nil

/-- C20 (counterexample): `NormalizeString("abc_")` is `"abc "`, which ends with a
space. -/
theorem NormalizeString_trailing_space :
    NormalizeString "abc_" = "abc " ∧ ¬ noOuterSpace (NormalizeString "abc_").data := by
  decide

/-- C20 (amended): for every string `s`, `NormalizeString(s)` is lowercased; it has no
leading and no trailing whitespace character exactly when the lowercased, trimmed form of
`s` has at most 3 bytes or neither begins nor ends with an underscore (an underscore at
either end of a longer form becomes a leading or trailing space). -/
theorem NormalizeString_shape (s : String) :
    isLowercased (NormalizeString s) ∧
    (noOuterSpace (NormalizeString s).data ↔
      (byteLen (trimSpace (toLower s)) ≤ 3 ∨
        ((trimSpace (toLower s)).data.head? ≠ some '_' ∧
          (trimSpace (toLower s)).data.getLast? ≠ some '_'))) := by
  refine ⟨NormalizeString_lowercased s, ?_⟩
  have htrim : noOuterSpace (trimSpace (toLower s)).data := trim_noOuterSpace _
  unfold NormalizeString
  simp only
  by_cases hlen : byteLen (trimSpace (toLower s)) > 3
  · have hle : ¬ byteLen (trimSpace (toLower s)) ≤ 3 := by omega
    simp only [hlen, if_true, hle, false_or]
    exact noOuterSpace_replace_underscore _ htrim
  · have hle : byteLen (trimSpace (toLower s)) ≤ 3 := by omega
    simp only [hlen, if_false, hle, true_or, iff_true]
    exact htrim

/-- C20 (examples): `ÉCOLE` normalizes to `école`; `İa_` normalizes to `ia_`, a form of 3
bytes that keeps its underscore; ` Hello_World ` normalizes to `hello world`; and the
amended statement at `abc_`, whose normalization `abc ` ends with a space. -/
theorem NormalizeString_shape_examples :
    NormalizeString "ÉCOLE" = "école" ∧ NormalizeString "İa_" = "ia_" ∧
    NormalizeString " Hello_World " = "hello world" ∧
    (isLowercased (NormalizeString "abc_") ∧
      (noOuterSpace (NormalizeString "abc_").data ↔
        (byteLen (trimSpace (toLower "abc_")) ≤ 3 ∨
          ((trimSpace (toLower "abc_")).data.head? ≠ some '_' ∧
            (trimSpace (toLower "abc_")).data.getLast? ≠ some '_')))) ∧
    byteLen (trimSpace (toLower "abc_")) = 4 ∧
    (trimSpace (toLower "abc_")).data.getLast? = some '_' :=
  ⟨by decide, by decide, by decide, NormalizeString_shape "abc_", by decide, by decide⟩

/-- C21: for every batch `B` that indexes without error into an empty index (such a batch
is non-empty) with a tokenizer that keeps the contract of the `Tokenizer` interface, a
token list without repeats for each item of `B`, and for every token `t`: when some item
of `B` has `t` among its tokens, the posting list stored under `t` in the returned index
is a permutation of the subsequence of `B` made of the items whose tokens contain `t`,
an item that occurs several times in `B` occurring as often in the posting list; when no
item of `B` has `t` among its tokens, nothing is stored under `t`. -/
theorem IndexItems_posting_contents (idx idx2 : Index T) (B : List T) (t : String)
    (hempty : idx.Len = 0) (h : (idx.IndexItems B).1 = some idx2)
    (hset : ∀ item ∈ B, (idx.tokenizer.Tokenize item).Nodup) :
    ((∃ item ∈ B, t ∈ idx.tokenizer.Tokenize item) →
      ∃ l, idx2.index.Get t = some l ∧
        l.Perm (B.filter (fun item => decide (t ∈ idx.tokenizer.Tokenize item)))) ∧
    ((∀ item ∈ B, t ∉ idx.tokenizer.Tokenize item) → idx2.index.Get t = none) := by
  obtain ⟨_, hget⟩ := IndexItems_ok idx idx2 B h
  have hg := hget t
  rw [batchPostings_eq_filter idx.tokenizer B t hset] at hg
  have hnone : idx.index.Get t = none := by
    have : idx.index.entries = [] := List.length_eq_zero.mp hempty
    simp [Tree.Get, this]
  constructor
  · rintro ⟨item, hitem, htok⟩
    have hmem : item ∈ B.filter (fun item => decide (t ∈ idx.tokenizer.Tokenize item)) := by
      simp [List.mem_filter, hitem, htok]
    cases hb : B.filter (fun item => decide (t ∈ idx.tokenizer.Tokenize item)) with
    | nil => rw [hb] at hmem; simp at hmem
    | cons x rest => rw [hb] at hg; exact ⟨_, hg, committed_perm _⟩
  · intro hno
    have hb : B.filter (fun item => decide (t ∈ idx.tokenizer.Tokenize item)) = [] := by
      apply List.filter_eq_nil_iff.mpr
      intro a ha
      simpa using hno a ha
    rw [hb] at hg
    rw [hg, hnone]

/-- C21 (witness): the batch `repeatedBatch` indexed into a new index with the default
tokenizer, at the token `example`, which all three entries of the batch produce: the
posting list holds the repeated item twice, and nothing is stored under `tex`. -/
theorem IndexItems_posting_contents_witness :
    (New [] : Index ExampleItem).Len = 0 ∧
    ((New [] : Index ExampleItem).IndexItems repeatedBatch).1
      = some (exampleIndex
          [("example", [⟨1, "test", 10, ["example"]⟩, ⟨1, "test", 10, ["example"]⟩,
              ⟨2, "text", 5, ["example"]⟩]),
            ("test", [⟨1, "test", 10, ["example"]⟩, ⟨1, "test", 10, ["example"]⟩]),
            ("text", [⟨2, "text", 5, ["example"]⟩])]) ∧
    (∀ item ∈ repeatedBatch, ((New [] : Index ExampleItem).tokenizer.Tokenize item).Nodup) ∧
    (((∃ item ∈ repeatedBatch, "example" ∈ (New [] : Index ExampleItem).tokenizer.Tokenize item) →
      ∃ l, (exampleIndex
          [("example", [⟨1, "test", 10, ["example"]⟩, ⟨1, "test", 10, ["example"]⟩,
              ⟨2, "text", 5, ["example"]⟩]),
            ("test", [⟨1, "test", 10, ["example"]⟩, ⟨1, "test", 10, ["example"]⟩]),
            ("text", [⟨2, "text", 5, ["example"]⟩])]).index.Get "example" = some l ∧
        l.Perm (repeatedBatch.filter (fun item =>
          decide ("example" ∈ (New [] : Index ExampleItem).tokenizer.Tokenize item)))) ∧
      ((∀ item ∈ repeatedBatch,
          "example" ∉ (New [] : Index ExampleItem).tokenizer.Tokenize item) →
        (exampleIndex
          [("example", [⟨1, "test", 10, ["example"]⟩, ⟨1, "test", 10, ["example"]⟩,
              ⟨2, "text", 5, ["example"]⟩]),
            ("test", [⟨1, "test", 10, ["example"]⟩, ⟨1, "test", 10, ["example"]⟩]),
            ("text", [⟨2, "text", 5, ["example"]⟩])]).index.Get "example" = none)) ∧
    repeatedBatch.filter (fun item =>
        decide ("example" ∈ (New [] : Index ExampleItem).tokenizer.Tokenize item))
      = repeatedBatch ∧
    (((New [] : Index ExampleItem).IndexItems repeatedBatch).1.map
        (fun i => (i.index.Get "example", i.index.Get "tex")))
      = some (some [⟨1, "test", 10, ["example"]⟩, ⟨1, "test", 10, ["example"]⟩,
          ⟨2, "text", 5, ["example"]⟩], none) :=
  ⟨by decide, rfl, by decide,
    IndexItems_posting_contents (New [] : Index ExampleItem) _ repeatedBatch "example"
      (by decide) rfl (by decide),
    by decide, by decide⟩

/-- C22: for every index, prefix, limit and filter, in the sequence of calls that
`PrefixSearch` makes to the filter (a) no two calls are for items with the same `GetID`;
(b) every call passes the normalized prefix, a token of the index that has this prefix,
and an item of that token's posting list; (c) an item for which the call returned false
has its `GetID` absent from the result, whatever the filter would return for it under
another token. -/
theorem filter_called_once [DecidableEq ι] (idx : Index T) (pfx0 : String) (k : Int)
    (f : String → String → T → Bool) :
    ((filterCalls idx pfx0 k (some f)).map (fun c => GetID c.item)).Nodup ∧
    (∀ c ∈ filterCalls idx pfx0 k (some f),
      c.query = idx.tokenizer.NormalizeString pfx0 ∧
      ∃ e ∈ idx.index.SeekPrefix (idx.tokenizer.NormalizeString pfx0),
        e.1 = c.token ∧ c.item ∈ e.2) ∧
    (∀ c ∈ filterCalls idx pfx0 k (some f), f c.query c.token c.item = false →
      GetID c.item ∉ (idx.PrefixSearch pfx0 k (some f)).map GetID) := by
  by_cases hne : idx.tokenizer.NormalizeString pfx0 = ""
  · have he : filterCalls idx pfx0 k (some f) = [] := by
      unfold filterCalls
      simp only [hne, if_true]
    rw [he]
    refine ⟨List.nodup_nil, ?_, ?_⟩ <;> intro c hc <;> simp at hc
  · have hinit : heap.Init ([] : resultHeap T) = [] := by
      simp [heap.Init, heap.initLoop, resultHeap.Len]
    have hdef : filterCalls idx pfx0 k (some f) =
        (scanTokensCalls (idx.tokenizer.NormalizeString pfx0) (some f)
          (if k ≤ 0 then maxInt else k)
          (idx.index.SeekPrefix (idx.tokenizer.NormalizeString pfx0))
          (⟨[], []⟩ : SearchState T ι) []).2 := by
      unfold filterCalls
      simp only [hne, if_false, hinit]
    have hstate : (scanTokensCalls (idx.tokenizer.NormalizeString pfx0) (some f)
          (if k ≤ 0 then maxInt else k)
          (idx.index.SeekPrefix (idx.tokenizer.NormalizeString pfx0))
          (⟨[], []⟩ : SearchState T ι) []).1 = finalState idx pfx0 k (some f) :=
      scanTokensCalls_state _ _ _ _ _ _
    have hinv := scanTokensCalls_inv f (idx.tokenizer.NormalizeString pfx0)
      (if k ≤ 0 then maxInt else k)
      (idx.index.SeekPrefix (idx.tokenizer.NormalizeString pfx0))
      (⟨[], []⟩ : SearchState T ι) [] heapOK_init
      ⟨rfl, by intro r hr; simp at hr⟩
    rw [hstate, ← hdef] at hinv
    obtain ⟨h1, h2⟩ := hinv
    have hnd : (finalState idx pfx0 k (some f)).seen.Nodup :=
      scanTokens_seen_nodup _ _ _ _ _ List.nodup_nil
    refine ⟨?_, ?_, ?_⟩
    · rw [h1, List.nodup_reverse] at hnd
      exact hnd
    · intro c hc
      rw [hdef] at hc
      rcases scanTokensCalls_origin _ _ _ _ _ _ c hc with h | h
      · simp at h
      · exact h
    · intro c hc hrej hmem
      obtain ⟨rs, hp, _, he⟩ := PrefixSearch_eq idx pfx0 k (some f) hne
      rw [he] at hmem
      simp only [List.map_reverse, List.mem_reverse, List.map_map, List.mem_map] at hmem
      obtain ⟨r, hr, hid⟩ := hmem
      have := h2 r (hp.subset hr) c hc (by simpa using hid.symm)
      rw [hrej] at this
      exact absurd this (by simp)

/-- C22 (example): the prefix `app` on the index of the five test items with a filter
that rejects under the token `app` only. The filter is called once for each of the four
items that match, first for `application` under `app`, the first matching token; this
call rejects it, the filter would accept it under `application`, and it is not in the
result. -/
theorem filter_called_once_example :
    (filterCalls (indexOf testItems) "App" 0 (some rejectUnderApp)).map
        (fun c => (c.query, c.token, c.item.ptr))
      = [("app", "app", 3), ("app", "apple", 1), ("app", "apply", 4), ("app", "approach", 5)] ∧
    rejectUnderApp "app" "app" ⟨3, "application", 15, ["app", "software"]⟩ = false ∧
    rejectUnderApp "app" "application" ⟨3, "application", 15, ["app", "software"]⟩ = true ∧
    ((indexOf testItems).PrefixSearch "App" 0 (some rejectUnderApp)).map (fun x => x.Text)
      = ["apple", "apply", "approach"] ∧
    ((indexOf testItems).PrefixSearch "App" 0 none).map (fun x => x.Text)
      = ["application", "apple", "apply", "approach"] := by
  decide

/-- C23 (failing input): the item whose only value is `()()`. Its normalized value is
one word of 4 bytes made of brackets only; `computeTokenVariations` adds the word with
the brackets removed, which is the empty string. `IndexItems` stores the item under the
empty key, `Len` counts that key, and `Get` with the empty string does not find it. -/
theorem Tokenize_empty_token :
    (DefaultTokenizer ExampleItem).Tokenize ⟨1, "()()", 1, []⟩ = ["()()", ""] ∧
    ((New [] : Index ExampleItem).IndexItems [⟨1, "()()", 1, []⟩]).1
      = some (exampleIndex [("", [⟨1, "()()", 1, []⟩]), ("()()", [⟨1, "()()", 1, []⟩])]) ∧
    (exampleIndex [("", [⟨1, "()()", 1, []⟩]), ("()()", [⟨1, "()()", 1, []⟩])]).Len = 2 ∧
    (exampleIndex [("", [⟨1, "()()", 1, []⟩]), ("()()", [⟨1, "()()", 1, []⟩])]).index.Get ""
      = some [⟨1, "()()", 1, []⟩] ∧
    (exampleIndex [("", [⟨1, "()()", 1, []⟩]), ("()()", [⟨1, "()()", 1, []⟩])]).Get ""
      = ([], false) := by
  refine ⟨by decide, rfl, by decide, by decide, by decide⟩

end Claims

end Lodestar
